import Mathlib

/-!
Verification of `LinkedList<DataType>` (src/LinkedList.hpp).

A shallow embedding of the singly linked list of `src/LinkedList.hpp`.

* A `Node*` is a value of `NodePtr α`: `nullptr`, or a node owning its `_data`
  and its `_next` pointer.  Nodes are exclusively owned by one list, so the
  chain hanging off `_head` is a finite tree-shaped value.
* A pointer *into* the chain of a list (`curr`, `last`, `previous`, `target`)
  is the number of `_next` links followed from `_head`.  Reading through a
  pointer is `NodePtr.follow`, a store `p->_next = v` is `NodePtr.setNext`.
* `int` is modelled by `Int`: arithmetic on `_length` and on indices is exact,
  which is the behaviour of the source on lists of fewer than `2^31` nodes.
* A thrown exception is `Except.error`; dereferencing `nullptr` (undefined
  behaviour in the source) is the distinguished outcome `Exn.null_deref`.
* An iterator holds its `_curr` as a `NodePtr α`; two cursors into the chain of
  one list are equal values exactly when they are at the same node, since the
  chains hanging off different nodes of a list have different lengths.
* A call that can throw is also given as a transition (`insert_call`, ...): the
  outcome together with the state of `*this` when the call is left.
* Namespace `Mem` embeds the same methods over a free store: nodes live at
  addresses, `new` and `delete` allocate and release them, and a list object
  holds the address of its head node.  It is used where a claim is about which
  nodes two lists share.  Loops that follow `_next` links there take a bound on
  their number of steps, the number of addresses of the store, which a chain
  ending at `nullptr` cannot exceed.
-/

set_option autoImplicit false

/-- The outcomes of a call other than a normal return: the two exceptions the
source throws, and the dereference of a null `Node*`. -/
inductive Exn where
  | out_of_range
  | logic_error
  | null_deref
  deriving DecidableEq

/-- A `Node*` of the source: `nullptr`, or a `Node` with `_data` and `_next`. -/
inductive NodePtr (α : Type) where
  | nullptr : NodePtr α
  | node (_data : α) (_next : NodePtr α) : NodePtr α
  deriving DecidableEq

/-- The class `LinkedList<DataType>`: members `_head` and `_length`. -/
structure LinkedList (α : Type) where
  _head : NodePtr α
  _length : Int
  deriving DecidableEq

namespace NodePtr

variable {α : Type}

/-- The elements of the chain starting at a node, in link order. -/
def toList : NodePtr α → List α
  | nullptr => []
  | node d nx => d :: toList nx

/-- The chain holding the given elements, each in a node of its own. -/
def ofList : List α → NodePtr α
  | [] => nullptr
  | x :: xs => node x (ofList xs)

/-- The statement `curr = curr->_next` executed `k` times from `curr`, as in
`for(int i = 0; i < k; i++) curr = curr->_next;`.  Each step dereferences
`curr`. -/
def follow : NodePtr α → Nat → Except Exn (NodePtr α)
  | p, 0 => .ok p
  | nullptr, _ + 1 => .error .null_deref
  | node _ nx, k + 1 => follow nx k

/-- The expression `p->_data`. -/
def data : NodePtr α → Except Exn α
  | nullptr => .error .null_deref
  | node d _ => .ok d

/-- The expression `p->_next`. -/
def next : NodePtr α → Except Exn (NodePtr α)
  | nullptr => .error .null_deref
  | node _ nx => .ok nx

/-- The store `p->_next = v` where `p` is the node `k` links after the given
head; returns the chain of the head after the store. -/
def setNext : NodePtr α → Nat → NodePtr α → Except Exn (NodePtr α)
  | nullptr, _, _ => .error .null_deref
  | node d _, 0, v => .ok (node d v)
  | node d nx, k + 1, v => (setNext nx k v).map (node d)

/-- The loop of `lastNodePtr`: `while(curr->_next != nullptr) curr = curr->_next;`.
The first argument is `curr->_next`, the second the number of links between
`_head` and `curr`; the result is the position of the final `curr`. -/
def walkToLast : NodePtr α → Nat → Nat
  | nullptr, k => k
  | node _ nx, k => walkToLast nx (k + 1)

/-- The loop of `pop_back`:
`while(curr->_next->_next != nullptr) curr = curr->_next;`.
The first argument is `curr`, the second the number of links between `_head`
and `curr`; the result is the position of the final `curr`. -/
def walkToSecondLast : NodePtr α → Nat → Except Exn Nat
  | nullptr, _ => .error .null_deref
  | node _ nullptr, _ => .error .null_deref
  | node _ (node _ nullptr), k => .ok k
  | node _ (node d (node d' nx)), k => walkToSecondLast (node d (node d' nx)) (k + 1)

end NodePtr

namespace LinkedList

variable {α : Type}

open NodePtr

/-- The constructor `LinkedList()`. -/
def init : LinkedList α := ⟨nullptr, 0⟩

/-- The method `size()`. -/
def size (l : LinkedList α) : Int := l._length

/-- The method `empty()`: `_head == nullptr`. -/
def empty (l : LinkedList α) : Bool :=
  match l._head with
  | nullptr => true
  | node _ _ => false

/-- The method `lastNodePtr()`: `none` is `nullptr`, `some k` is the node `k`
links after `_head`. -/
def lastNodePtr (l : LinkedList α) : Option Nat :=
  match l._head with
  | nullptr => none
  | node _ nx => some (walkToLast nx 0)

/-- The method `checkEmptyOrSingle()`: the returned flag and the list after
the call. -/
def checkEmptyOrSingle (l : LinkedList α) : Except Exn (Bool × LinkedList α) :=
  if l.empty then .error .logic_error
  else if l._length = 1 then .ok (true, ⟨nullptr, 0⟩)
  else .ok (false, l)

/-- The method `operator[](index)` (both overloads), read as an rvalue. -/
def operator_index (l : LinkedList α) (index : Int) : Except Exn α :=
  if index < 0 ∨ index ≥ l._length then .error .out_of_range
  else (l._head.follow index.toNat).bind data

/-- The method `front()` (both overloads). -/
def front (l : LinkedList α) : Except Exn α :=
  if l.empty then .error .logic_error
  else l._head.data

/-- The method `back()` (both overloads). -/
def back (l : LinkedList α) : Except Exn α :=
  if l.empty then .error .logic_error
  else
    match l.lastNodePtr with
    | none => .error .null_deref
    | some k => (l._head.follow k).bind data

/-- The method `push_front(data)`. -/
def push_front (l : LinkedList α) (d : α) : LinkedList α :=
  ⟨node d l._head, l._length + 1⟩

/-- The method `push_back(data)`. -/
def push_back (l : LinkedList α) (d : α) : Except Exn (LinkedList α) :=
  let newNode : NodePtr α := node d nullptr
  match l.lastNodePtr with
  | none => .ok ⟨newNode, l._length + 1⟩
  | some last => (l._head.setNext last newNode).map fun h => ⟨h, l._length + 1⟩

/-- The method `insert(index, data)`. -/
def insert (l : LinkedList α) (index : Int) (d : α) : Except Exn (LinkedList α) :=
  if index < 0 ∨ index > l._length then .error .out_of_range
  else if index = 0 then .ok (l.push_front d)
  else if index = l._length then l.push_back d
  else
    let curr := (index - 1).toNat
    ((l._head.follow curr).bind next).bind fun currNext =>
      (l._head.setNext curr (node d currNext)).map fun h => ⟨h, l._length + 1⟩

/-- The method `pop_front()`. -/
def pop_front (l : LinkedList α) : Except Exn (LinkedList α) :=
  l.checkEmptyOrSingle.bind fun r =>
    if r.1 then .ok r.2
    else r.2._head.next.map fun targetNext => ⟨targetNext, r.2._length - 1⟩

/-- The method `pop_back()`. -/
def pop_back (l : LinkedList α) : Except Exn (LinkedList α) :=
  l.checkEmptyOrSingle.bind fun r =>
    if r.1 then .ok r.2
    else
      (walkToSecondLast r.2._head 0).bind fun curr =>
        (r.2._head.setNext curr nullptr).map fun h => ⟨h, r.2._length - 1⟩

/-- The method `erase(index)`. -/
def erase (l : LinkedList α) (index : Int) : Except Exn (LinkedList α) :=
  if index < 0 ∨ index ≥ l._length then .error .out_of_range
  else if l.empty then .error .logic_error
  else if index = 0 then l.pop_front
  else
    ((l._head.follow index.toNat).bind next).bind fun targetNext =>
      (l._head.setNext (index.toNat - 1) targetNext).map fun h => ⟨h, l._length - 1⟩

/-- The element sequence of a list: the `_data` of the nodes reachable from
`_head`. -/
def toList (l : LinkedList α) : List α := l._head.toList

/-- The list invariant: the cached `_length` is the number of nodes reachable
from `_head`. -/
def WF (l : LinkedList α) : Prop := l._length = (l.toList.length : Int)

/-- The well-formed list holding the given sequence. -/
def mk_of (xs : List α) : LinkedList α := ⟨ofList xs, xs.length⟩

/-- The calls `push_back(v1); ...; push_back(vn)` in this order. -/
def push_back_all : LinkedList α → List α → Except Exn (LinkedList α)
  | l, [] => .ok l
  | l, v :: vs => (l.push_back v).bind fun l' => push_back_all l' vs

/-- The method `pop_back()` called `n` times in a row. -/
def pop_back_times : LinkedList α → Nat → Except Exn (LinkedList α)
  | l, 0 => .ok l
  | l, n + 1 => l.pop_back.bind fun l' => pop_back_times l' n

/-- The loop of `find_index`:
`while(curr->_data != data) { if(curr->_next == nullptr) return -1; curr = curr->_next; index++; } return index;`.
`ne` is `operator!=` of `DataType`; the arguments after `data` are
`curr->_data`, `curr->_next` and `index`. -/
def find_index_loop (ne : α → α → Bool) (data : α) : α → NodePtr α → Int → Int
  | d, nullptr, index => if ne d data then -1 else index
  | d, node d' nx, index =>
    if ne d data then find_index_loop ne data d' nx (index + 1) else index

/-- The method `find_index(data)`; `ne` is `operator!=` of `DataType`. -/
def find_index (ne : α → α → Bool) (l : LinkedList α) (data : α) : Except Exn Int :=
  if l.empty then .ok (-1)
  else
    match l._head with
    | nullptr => .error .null_deref
    | node d nx => .ok (find_index_loop ne data d nx 0)

/-- The class `Iterator`: member `_curr`. -/
structure Iterator (α : Type) where
  _curr : NodePtr α
  deriving DecidableEq

/-- The class `ConstIterator`: member `_curr`. -/
structure ConstIterator (α : Type) where
  _curr : NodePtr α
  deriving DecidableEq

/-- The method `Iterator::operator*()`. -/
def Iterator.operator_star (it : Iterator α) : Except Exn α := it._curr.data

/-- The method `Iterator::operator++()`: the iterator after `_curr = _curr->_next`. -/
def Iterator.operator_incr (it : Iterator α) : Except Exn (Iterator α) :=
  it._curr.next.map Iterator.mk

/-- The method `Iterator::operator++(int)`: the returned copy `temp` and the
iterator after `_curr = _curr->_next`. -/
def Iterator.operator_post_incr (it : Iterator α) : Except Exn (Iterator α × Iterator α) :=
  it._curr.next.map fun nx => (it, Iterator.mk nx)

/-- The method `Iterator::operator==(other)`. -/
def Iterator.operator_eq [DecidableEq α] (it other : Iterator α) : Bool :=
  decide (it._curr = other._curr)

/-- The method `Iterator::operator!=(other)`. -/
def Iterator.operator_ne [DecidableEq α] (it other : Iterator α) : Bool :=
  !(it.operator_eq other)

/-- The statement `++it` executed `k` times. -/
def Iterator.advance : Iterator α → Nat → Except Exn (Iterator α)
  | it, 0 => .ok it
  | it, k + 1 => it.operator_incr.bind fun it' => Iterator.advance it' k

/-- The method `ConstIterator::operator*()`. -/
def ConstIterator.operator_star (it : ConstIterator α) : Except Exn α := it._curr.data

/-- The method `ConstIterator::operator++()`: the iterator after
`_curr = _curr->_next`. -/
def ConstIterator.operator_incr (it : ConstIterator α) : Except Exn (ConstIterator α) :=
  it._curr.next.map ConstIterator.mk

/-- The method `ConstIterator::operator++(int)`: the returned copy `temp` and
the iterator after `_curr = _curr->_next`. -/
def ConstIterator.operator_post_incr (it : ConstIterator α) :
    Except Exn (ConstIterator α × ConstIterator α) :=
  it._curr.next.map fun nx => (it, ConstIterator.mk nx)

/-- The method `ConstIterator::operator==(other)`. -/
def ConstIterator.operator_eq [DecidableEq α] (it other : ConstIterator α) : Bool :=
  decide (it._curr = other._curr)

/-- The method `ConstIterator::operator!=(other)`. -/
def ConstIterator.operator_ne [DecidableEq α] (it other : ConstIterator α) : Bool :=
  !(it.operator_eq other)

/-- The statement `++it` executed `k` times. -/
def ConstIterator.advance : ConstIterator α → Nat → Except Exn (ConstIterator α)
  | it, 0 => .ok it
  | it, k + 1 => it.operator_incr.bind fun it' => ConstIterator.advance it' k

/-- The method `begin()` of a non-const list. -/
def begin (l : LinkedList α) : Iterator α := ⟨l._head⟩

/-- The method `end()` of a non-const list. -/
def end_ (_l : LinkedList α) : Iterator α := ⟨nullptr⟩

/-- The method `begin() const`. -/
def begin_const (l : LinkedList α) : ConstIterator α := ⟨l._head⟩

/-- The method `cbegin()`. -/
def cbegin (l : LinkedList α) : ConstIterator α := ⟨l._head⟩

/-- The method `end() const`. -/
def end_const (_l : LinkedList α) : ConstIterator α := ⟨nullptr⟩

/-- The method `cend()`. -/
def cend (_l : LinkedList α) : ConstIterator α := ⟨nullptr⟩

/-- The loop of `find(data)`:
`for(auto it = begin(); it != end(); ++it) { if (*it == data) return it; } return end();`.
`eq` is `operator==` of `DataType`; the last argument is `it._curr`.  On
`nullptr` the test `it != end()` fails and `end()` is returned; on a node,
`*it == data` either returns `it` or the loop goes on from `++it`. -/
def find_loop (eq : α → α → Bool) (data : α) : NodePtr α → Iterator α
  | nullptr => ⟨nullptr⟩
  | node d nx => if eq d data then ⟨node d nx⟩ else find_loop eq data nx

/-- The method `find(data)` of a non-const list. -/
def find (eq : α → α → Bool) (l : LinkedList α) (data : α) : Iterator α :=
  find_loop eq data l.begin._curr

/-- The loop of `find(data) const`:
`for(auto it = cbegin(); it != cend(); ++it) { if (*it == data) return it; } return cend();`,
read as `find_loop`. -/
def find_const_loop (eq : α → α → Bool) (data : α) : NodePtr α → ConstIterator α
  | nullptr => ⟨nullptr⟩
  | node d nx => if eq d data then ⟨node d nx⟩ else find_const_loop eq data nx

/-- The method `find(data) const`. -/
def find_const (eq : α → α → Bool) (l : LinkedList α) (data : α) : ConstIterator α :=
  find_const_loop eq data l.cbegin._curr

/-- The loop of `clean()`:
`while(_head != nullptr) { auto temp = _head; _head = _head->_next; delete temp; }`;
the argument and the result are `_head`. -/
def clean_loop : NodePtr α → NodePtr α
  | nullptr => nullptr
  | node _ nx => clean_loop nx

/-- The method `clean()`. -/
def clean (l : LinkedList α) : LinkedList α :=
  let afterLoop : LinkedList α := ⟨clean_loop l._head, l._length⟩
  { afterLoop with _head := nullptr, _length := 0 }

/-- The loop of the copy constructor and of the copy assignment:
`while(curr != nullptr) { push_back(curr->_data); curr = curr->_next; }`;
the arguments are `*this` and `curr`. -/
def copy_loop : LinkedList α → NodePtr α → Except Exn (LinkedList α)
  | l, nullptr => .ok l
  | l, node d nx => (l.push_back d).bind fun l' => copy_loop l' nx

/-- The copy constructor `LinkedList(const LinkedList& other)`: the constructed
list. -/
def copy_ctor (other : LinkedList α) : Except Exn (LinkedList α) :=
  copy_loop ⟨nullptr, 0⟩ other._head

/-- The copy assignment `operator=(const LinkedList& other)`: the state of
`*this` after the call.  The argument is `none` when `other` is `*this` itself
(`this == &other`). -/
def copy_assign (l : LinkedList α) (other : Option (LinkedList α)) :
    Except Exn (LinkedList α) :=
  match other with
  | none => .ok l
  | some o => copy_loop l.clean o._head

/-- The move constructor `LinkedList(LinkedList&& other)`: the constructed list
and the state of `other` after the call. -/
def move_ctor (other : LinkedList α) : LinkedList α × LinkedList α :=
  (⟨other._head, other._length⟩, ⟨nullptr, 0⟩)

/-- The move assignment `operator=(LinkedList&& other)`: the state of `*this`
after the call and, when `other` is another object, its state after the call.
The argument is `none` when `other` is `*this` itself (`this == &other`). -/
def move_assign (l : LinkedList α) (other : Option (LinkedList α)) :
    LinkedList α × Option (LinkedList α) :=
  match other with
  | none => (l, none)
  | some o =>
    let cleaned := l.clean
    ({ cleaned with _head := o._head, _length := o._length }, some ⟨nullptr, 0⟩)

/-- The call `checkEmptyOrSingle()` as a transition of `*this`: the outcome of
the call and the state of `*this` when the call is left, by `return` or by
`throw`. -/
def checkEmptyOrSingle_call (l : LinkedList α) : Except Exn Bool × LinkedList α :=
  if l.empty then (.error .logic_error, l)
  else if l._length = 1 then (.ok true, ⟨nullptr, 0⟩)
  else (.ok false, l)

/-- The call `operator[](index)` as a transition of `*this`. -/
def operator_index_call (l : LinkedList α) (index : Int) : Except Exn α × LinkedList α :=
  if index < 0 ∨ index ≥ l._length then (.error .out_of_range, l)
  else ((l._head.follow index.toNat).bind data, l)

/-- The call `front()` as a transition of `*this`. -/
def front_call (l : LinkedList α) : Except Exn α × LinkedList α :=
  if l.empty then (.error .logic_error, l)
  else (l._head.data, l)

/-- The call `back()` as a transition of `*this`. -/
def back_call (l : LinkedList α) : Except Exn α × LinkedList α :=
  if l.empty then (.error .logic_error, l)
  else
    match l.lastNodePtr with
    | none => (.error .null_deref, l)
    | some k => ((l._head.follow k).bind data, l)

/-- The call `push_back(data)` as a transition of `*this`. -/
def push_back_call (l : LinkedList α) (d : α) : Except Exn Unit × LinkedList α :=
  let newNode : NodePtr α := node d nullptr
  match l.lastNodePtr with
  | none => (.ok (), ⟨newNode, l._length + 1⟩)
  | some last =>
    match l._head.setNext last newNode with
    | .error e => (.error e, l)
    | .ok h => (.ok (), ⟨h, l._length + 1⟩)

/-- The call `insert(index, data)` as a transition of `*this`. -/
def insert_call (l : LinkedList α) (index : Int) (d : α) : Except Exn Unit × LinkedList α :=
  if index < 0 ∨ index > l._length then (.error .out_of_range, l)
  else if index = 0 then (.ok (), l.push_front d)
  else if index = l._length then l.push_back_call d
  else
    let curr := (index - 1).toNat
    match (l._head.follow curr).bind next with
    | .error e => (.error e, l)
    | .ok currNext =>
      match l._head.setNext curr (node d currNext) with
      | .error e => (.error e, l)
      | .ok h => (.ok (), ⟨h, l._length + 1⟩)

/-- The call `pop_front()` as a transition of `*this`. -/
def pop_front_call (l : LinkedList α) : Except Exn Unit × LinkedList α :=
  match l.checkEmptyOrSingle_call with
  | (.error e, l1) => (.error e, l1)
  | (.ok true, l1) => (.ok (), l1)
  | (.ok false, l1) =>
    match l1._head.next with
    | .error e => (.error e, l1)
    | .ok targetNext => (.ok (), ⟨targetNext, l1._length - 1⟩)

/-- The call `pop_back()` as a transition of `*this`. -/
def pop_back_call (l : LinkedList α) : Except Exn Unit × LinkedList α :=
  match l.checkEmptyOrSingle_call with
  | (.error e, l1) => (.error e, l1)
  | (.ok true, l1) => (.ok (), l1)
  | (.ok false, l1) =>
    match walkToSecondLast l1._head 0 with
    | .error e => (.error e, l1)
    | .ok curr =>
      match l1._head.setNext curr nullptr with
      | .error e => (.error e, l1)
      | .ok h => (.ok (), ⟨h, l1._length - 1⟩)

/-- The call `erase(index)` as a transition of `*this`. -/
def erase_call (l : LinkedList α) (index : Int) : Except Exn Unit × LinkedList α :=
  if index < 0 ∨ index ≥ l._length then (.error .out_of_range, l)
  else if l.empty then (.error .logic_error, l)
  else if index = 0 then l.pop_front_call
  else
    match (l._head.follow index.toNat).bind next with
    | .error e => (.error e, l)
    | .ok targetNext =>
      match l._head.setNext (index.toNat - 1) targetNext with
      | .error e => (.error e, l)
      | .ok h => (.ok (), ⟨h, l._length - 1⟩)

/-- The invariant of the data model: `_length` is the number of nodes reachable
from `_head` by `_next` links, and `_head` is `nullptr` exactly when `_length`
is `0`. -/
def Inv (l : LinkedList α) : Prop :=
  l._length = (l._head.toList.length : Int) ∧ (l._head = nullptr ↔ l._length = 0)

/-- The list states a program can reach from a freshly constructed list with
the public operations, each left by `return` or by `throw`. -/
inductive Reachable : LinkedList α → Prop where
  | init : Reachable init
  | push_front (l : LinkedList α) (v : α) : Reachable l → Reachable (l.push_front v)
  | push_back (l : LinkedList α) (v : α) : Reachable l → Reachable (l.push_back_call v).2
  | insert (l : LinkedList α) (index : Int) (v : α) :
      Reachable l → Reachable (l.insert_call index v).2
  | pop_front (l : LinkedList α) : Reachable l → Reachable l.pop_front_call.2
  | pop_back (l : LinkedList α) : Reachable l → Reachable l.pop_back_call.2
  | erase (l : LinkedList α) (index : Int) : Reachable l → Reachable (l.erase_call index).2
  | clean (l : LinkedList α) : Reachable l → Reachable l.clean
  | copy_ctor (other c : LinkedList α) :
      Reachable other → copy_ctor other = .ok c → Reachable c
  | copy_assign (l o c : LinkedList α) :
      Reachable l → Reachable o → copy_assign l (some o) = .ok c → Reachable c
  | copy_assign_self (l c : LinkedList α) :
      Reachable l → copy_assign l none = .ok c → Reachable c
  | move_ctor (other : LinkedList α) : Reachable other → Reachable (move_ctor other).1
  | move_ctor_source (other : LinkedList α) :
      Reachable other → Reachable (move_ctor other).2
  | move_assign (l o : LinkedList α) :
      Reachable l → Reachable o → Reachable (move_assign l (some o)).1
  | move_assign_source (l o s : LinkedList α) :
      Reachable l → Reachable o → (move_assign l (some o)).2 = some s → Reachable s
  | move_assign_self (l : LinkedList α) : Reachable l → Reachable (move_assign l none).1

end LinkedList

/-! The indexed write -/

namespace NodePtr

variable {α : Type}

/-- The store `p->_data = w` where `p` is the node `k` links after the given
head; returns the chain of the head after the store. -/
def setData : NodePtr α → Nat → α → Except Exn (NodePtr α)
  | nullptr, _, _ => .error .null_deref
  | node _ nx, 0, w => .ok (node w nx)
  | node d nx, k + 1, w => (setData nx k w).map (node d)

end NodePtr

namespace LinkedList

variable {α : Type}

open NodePtr

/-- The statement `(*this)[index] = w`: the non-const `operator[](index)` walks
to the node and returns the reference `curr->_data`, which is then assigned;
the state of `*this` after the statement. -/
def assign_at (l : LinkedList α) (index : Int) (w : α) : Except Exn (LinkedList α) :=
  if index < 0 ∨ index ≥ l._length then .error .out_of_range
  else
    (l._head.follow index.toNat).bind fun _ =>
      (l._head.setData index.toNat w).map fun h => ⟨h, l._length⟩

end LinkedList

/-! The same class over a free store with addresses, for the claims on which
nodes two lists share -/

namespace Mem

variable {α : Type}

/-- A `Node` object in the free store.  A `Node*` is an `Option Nat`: `none` is
`nullptr`, `some a` points to the object at address `a`. -/
structure Node (α : Type) where
  _data : α
  _next : Option Nat

/-- The free store: the `Node` object alive at each address, `none` where no
object is alive.  `new` takes the first address never used before. -/
structure Heap (α : Type) where
  cells : List (Option (Node α))

/-- The ways a call ends other than by `return`: the two exceptions, the
dereference of `nullptr`, the use of a pointer to no live object, and a loop
that has not ended after as many steps as the store has addresses. -/
inductive Fault where
  | out_of_range
  | logic_error
  | null_deref
  | dangling
  | diverges
  deriving DecidableEq

/-- The members `_head` and `_length` of a `LinkedList<DataType>` object whose
nodes are in the free store. -/
structure LinkedList where
  _head : Option Nat
  _length : Int
  deriving DecidableEq

/-- The object alive at an address. -/
def Heap.get (h : Heap α) (a : Nat) : Option (Node α) := h.cells.getD a none

/-- The expression `new Node(...)`: the address of the new object and the store
holding it. -/
def Heap.new (h : Heap α) (n : Node α) : Nat × Heap α :=
  (h.cells.length, ⟨h.cells ++ [some n]⟩)

/-- The object `*p`. -/
def Heap.load (h : Heap α) (p : Option Nat) : Except Fault (Node α) :=
  match p with
  | none => .error .null_deref
  | some a =>
    match h.get a with
    | none => .error .dangling
    | some n => .ok n

/-- The store `p->_next = q`. -/
def Heap.setNext (h : Heap α) (p : Option Nat) (q : Option Nat) : Except Fault (Heap α) :=
  match p with
  | none => .error .null_deref
  | some a =>
    match h.get a with
    | none => .error .dangling
    | some n => .ok ⟨h.cells.set a (some ⟨n._data, q⟩)⟩

/-- The store `p->_data = d`. -/
def Heap.setData (h : Heap α) (p : Option Nat) (d : α) : Except Fault (Heap α) :=
  match p with
  | none => .error .null_deref
  | some a =>
    match h.get a with
    | none => .error .dangling
    | some n => .ok ⟨h.cells.set a (some ⟨d, n._next⟩)⟩

/-- The statement `delete p`. -/
def Heap.delete (h : Heap α) (p : Option Nat) : Except Fault (Heap α) :=
  match p with
  | none => .ok h
  | some a =>
    match h.get a with
    | none => .error .dangling
    | some _ => .ok ⟨h.cells.set a none⟩

/-- The statement `curr = curr->_next` executed `k` times from `curr`. -/
def Heap.walk (h : Heap α) : Option Nat → Nat → Except Fault (Option Nat)
  | p, 0 => .ok p
  | p, k + 1 =>
    match h.load p with
    | .error f => .error f
    | .ok n => Heap.walk h n._next k

namespace LinkedList

/-- The constructor `LinkedList()`. -/
def init : LinkedList := ⟨none, 0⟩

/-- The method `size()`. -/
def size (l : LinkedList) : Int := l._length

/-- The method `empty()`. -/
def empty (l : LinkedList) : Bool := l._head.isNone

/-- The loop of `lastNodePtr`: `while(curr->_next != nullptr) curr = curr->_next;`
from `curr`, with a bound on the number of steps. -/
def lastNodeLoop (h : Heap α) : Nat → Option Nat → Except Fault (Option Nat)
  | 0, _ => .error .diverges
  | fuel + 1, curr =>
    match h.load curr with
    | .error f => .error f
    | .ok n =>
      match n._next with
      | none => .ok curr
      | some nx => lastNodeLoop h fuel (some nx)

/-- The method `lastNodePtr()`. -/
def lastNodePtr (h : Heap α) (l : LinkedList) : Except Fault (Option Nat) :=
  match l._head with
  | none => .ok none
  | some a => lastNodeLoop h h.cells.length (some a)

/-- The method `checkEmptyOrSingle()`: the outcome, the store and `*this` when
the call is left. -/
def checkEmptyOrSingle (h : Heap α) (l : LinkedList) :
    Except Fault Bool × Heap α × LinkedList :=
  if l.empty then (.error .logic_error, h, l)
  else if l._length = 1 then
    match h.delete l._head with
    | .error f => (.error f, h, l)
    | .ok h1 => (.ok true, h1, ⟨none, 0⟩)
  else (.ok false, h, l)

/-- The method `push_front(data)`. -/
def push_front (h : Heap α) (l : LinkedList) (data : α) :
    Except Fault Unit × Heap α × LinkedList :=
  let newNode := h.new ⟨data, none⟩
  match newNode.2.setNext (some newNode.1) l._head with
  | .error f => (.error f, newNode.2, l)
  | .ok h2 => (.ok (), h2, ⟨some newNode.1, l._length + 1⟩)

/-- The method `push_back(data)`. -/
def push_back (h : Heap α) (l : LinkedList) (data : α) :
    Except Fault Unit × Heap α × LinkedList :=
  let newNode := h.new ⟨data, none⟩
  match lastNodePtr newNode.2 l with
  | .error f => (.error f, newNode.2, l)
  | .ok none => (.ok (), newNode.2, ⟨some newNode.1, l._length + 1⟩)
  | .ok (some last) =>
    match newNode.2.setNext (some last) (some newNode.1) with
    | .error f => (.error f, newNode.2, l)
    | .ok h2 => (.ok (), h2, ⟨l._head, l._length + 1⟩)

/-- The method `insert(index, data)`. -/
def insert (h : Heap α) (l : LinkedList) (index : Int) (data : α) :
    Except Fault Unit × Heap α × LinkedList :=
  if index < 0 ∨ index > l._length then (.error .out_of_range, h, l)
  else if index = 0 then push_front h l data
  else if index = l._length then push_back h l data
  else
    let newNode := h.new ⟨data, none⟩
    match newNode.2.walk l._head (index - 1).toNat with
    | .error f => (.error f, newNode.2, l)
    | .ok curr =>
      match newNode.2.load curr with
      | .error f => (.error f, newNode.2, l)
      | .ok currNode =>
        match newNode.2.setNext (some newNode.1) currNode._next with
        | .error f => (.error f, newNode.2, l)
        | .ok h2 =>
          match h2.setNext curr (some newNode.1) with
          | .error f => (.error f, h2, l)
          | .ok h3 => (.ok (), h3, ⟨l._head, l._length + 1⟩)

/-- The method `pop_front()`. -/
def pop_front (h : Heap α) (l : LinkedList) : Except Fault Unit × Heap α × LinkedList :=
  match checkEmptyOrSingle h l with
  | (.error f, h1, l1) => (.error f, h1, l1)
  | (.ok true, h1, l1) => (.ok (), h1, l1)
  | (.ok false, h1, l1) =>
    match h1.load l1._head with
    | .error f => (.error f, h1, l1)
    | .ok target =>
      match h1.delete l1._head with
      | .error f => (.error f, h1, ⟨target._next, l1._length⟩)
      | .ok h2 => (.ok (), h2, ⟨target._next, l1._length - 1⟩)

/-- The loop of `pop_back`:
`while(curr->_next->_next != nullptr) curr = curr->_next;` from `curr`, with a
bound on the number of steps. -/
def secondLastLoop (h : Heap α) : Nat → Option Nat → Except Fault (Option Nat)
  | 0, _ => .error .diverges
  | fuel + 1, curr =>
    match h.load curr with
    | .error f => .error f
    | .ok n =>
      match h.load n._next with
      | .error f => .error f
      | .ok n2 =>
        match n2._next with
        | none => .ok curr
        | some _ => secondLastLoop h fuel n._next

/-- The method `pop_back()`. -/
def pop_back (h : Heap α) (l : LinkedList) : Except Fault Unit × Heap α × LinkedList :=
  match checkEmptyOrSingle h l with
  | (.error f, h1, l1) => (.error f, h1, l1)
  | (.ok true, h1, l1) => (.ok (), h1, l1)
  | (.ok false, h1, l1) =>
    match secondLastLoop h1 h1.cells.length l1._head with
    | .error f => (.error f, h1, l1)
    | .ok curr =>
      match h1.load curr with
      | .error f => (.error f, h1, l1)
      | .ok currNode =>
        match h1.delete currNode._next with
        | .error f => (.error f, h1, l1)
        | .ok h2 =>
          match h2.setNext curr none with
          | .error f => (.error f, h2, l1)
          | .ok h3 => (.ok (), h3, ⟨l1._head, l1._length - 1⟩)

/-- The loop of `erase`:
`for(int i = 0; i < k; i++) { previous = target; target = target->_next; }` from
`previous` and `target`. -/
def eraseLoop (h : Heap α) : Option Nat → Option Nat → Nat →
    Except Fault (Option Nat × Option Nat)
  | previous, target, 0 => .ok (previous, target)
  | _, target, k + 1 =>
    match h.load target with
    | .error f => .error f
    | .ok n => eraseLoop h target n._next k

/-- The method `erase(index)`. -/
def erase (h : Heap α) (l : LinkedList) (index : Int) :
    Except Fault Unit × Heap α × LinkedList :=
  if index < 0 ∨ index ≥ l._length then (.error .out_of_range, h, l)
  else if l.empty then (.error .logic_error, h, l)
  else if index = 0 then pop_front h l
  else
    match eraseLoop h l._head l._head index.toNat with
    | .error f => (.error f, h, l)
    | .ok (previous, target) =>
      match h.load target with
      | .error f => (.error f, h, l)
      | .ok targetNode =>
        match h.setNext previous targetNode._next with
        | .error f => (.error f, h, l)
        | .ok h1 =>
          match h1.delete target with
          | .error f => (.error f, h1, l)
          | .ok h2 => (.ok (), h2, ⟨l._head, l._length - 1⟩)

/-- The statement `(*this)[index] = w`, through the non-const `operator[]`. -/
def assign_at (h : Heap α) (l : LinkedList) (index : Int) (w : α) :
    Except Fault Unit × Heap α × LinkedList :=
  if index < 0 ∨ index ≥ l._length then (.error .out_of_range, h, l)
  else
    match h.walk l._head index.toNat with
    | .error f => (.error f, h, l)
    | .ok curr =>
      match h.setData curr w with
      | .error f => (.error f, h, l)
      | .ok h1 => (.ok (), h1, l)

/-- The loop of `clean()`:
`while(_head != nullptr) { auto temp = _head; _head = _head->_next; delete temp; }`,
with a bound on the number of steps; the store and `_head` after the loop. -/
def cleanLoop : Nat → Heap α → Option Nat → Except Fault (Heap α × Option Nat)
  | _, h, none => .ok (h, none)
  | 0, _, some _ => .error .diverges
  | fuel + 1, h, some a =>
    match h.load (some a) with
    | .error f => .error f
    | .ok temp =>
      match h.delete (some a) with
      | .error f => .error f
      | .ok h1 => cleanLoop fuel h1 temp._next

/-- The method `clean()`. -/
def clean (h : Heap α) (l : LinkedList) : Except Fault Unit × Heap α × LinkedList :=
  match cleanLoop h.cells.length h l._head with
  | .error f => (.error f, h, l)
  | .ok r => (.ok (), r.1, ⟨none, 0⟩)

/-- The loop of the copy constructor:
`while(curr != nullptr) { push_back(curr->_data); curr = curr->_next; }`, with
a bound on the number of steps; the arguments are the store, `*this` and
`curr`. -/
def copyLoop : Nat → Heap α → LinkedList → Option Nat →
    Except Fault Unit × Heap α × LinkedList
  | _, h, l, none => (.ok (), h, l)
  | 0, h, l, some _ => (.error .diverges, h, l)
  | fuel + 1, h, l, some a =>
    match h.load (some a) with
    | .error f => (.error f, h, l)
    | .ok n =>
      match push_back h l n._data with
      | (.error f, h1, l1) => (.error f, h1, l1)
      | (.ok (), h1, l1) =>
        match h1.load (some a) with
        | .error f => (.error f, h1, l1)
        | .ok n1 => copyLoop fuel h1 l1 n1._next

/-- The copy constructor `LinkedList(const LinkedList& other)`: the store and
the constructed list. -/
def copy_ctor (h : Heap α) (other : LinkedList) : Except Fault Unit × Heap α × LinkedList :=
  copyLoop h.cells.length h ⟨none, 0⟩ other._head

end LinkedList

/-- The nodes of a list segment: from the pointer `p`, the objects at the
listed addresses hold the listed data and are linked in this order, the last
one to `q`. -/
def Seg (h : Heap α) : Option Nat → List (Nat × α) → Option Nat → Prop
  | p, [], q => p = q
  | p, c :: cs, q => p = some c.1 ∧ ∃ nx, h.get c.1 = some ⟨c.2, nx⟩ ∧ Seg h nx cs q

/-- The nodes reachable from the pointer `p` by `_next` links, ending at
`nullptr`: their addresses and data in link order. -/
def Chain (h : Heap α) (p : Option Nat) (cs : List (Nat × α)) : Prop := Seg h p cs none

/-- The pointer to the first of the listed nodes, `nullptr` when there is none. -/
def headPtr (cs : List (Nat × α)) : Option Nat := cs.head?.map Prod.fst

/-- The list object `l` owns the listed nodes: they are the nodes reachable
from `_head`, and `_length` is their number. -/
def Owns (h : Heap α) (l : LinkedList) (cs : List (Nat × α)) : Prop :=
  Chain h l._head cs ∧ l._length = (cs.length : Int)

/-- What a call on a list owning the nodes `cs` does to the store: the call is
left by `return`, `std::out_of_range` or `std::logic_error`; no address is
given up; every object outside `cs` that was alive is as before; and the list
then owns nodes that are among `cs` or newly allocated. -/
def Confined (h : Heap α) (cs : List (Nat × α))
    (r : Except Fault Unit × Heap α × LinkedList) : Prop :=
  (r.1 = .ok () ∨ r.1 = .error .out_of_range ∨ r.1 = .error .logic_error) ∧
  h.cells.length ≤ r.2.1.cells.length ∧
  (∀ a, a < h.cells.length → a ∉ cs.map Prod.fst → r.2.1.get a = h.get a) ∧
  ∃ cs', Owns r.2.1 r.2.2 cs' ∧ ∀ c ∈ cs', c.1 ∈ cs.map Prod.fst ∨ h.cells.length ≤ c.1

/-- A call that mutates a list: `push_front(v)`, `push_back(v)`,
`insert(index, v)`, `pop_front()`, `pop_back()`, `erase(index)`,
`(*this)[index] = w`, `clean()`. -/
inductive Mutation (α : Type) where
  | push_front (v : α)
  | push_back (v : α)
  | insert (index : Int) (v : α)
  | pop_front
  | pop_back
  | erase (index : Int)
  | assign_at (index : Int) (w : α)
  | clean

/-- The call on the list `l`: the outcome, the store and `l` when the call is
left. -/
def Mutation.call : Mutation α → Heap α → LinkedList →
    Except Fault Unit × Heap α × LinkedList
  | .push_front v, h, l => LinkedList.push_front h l v
  | .push_back v, h, l => LinkedList.push_back h l v
  | .insert index v, h, l => LinkedList.insert h l index v
  | .pop_front, h, l => LinkedList.pop_front h l
  | .pop_back, h, l => LinkedList.pop_back h l
  | .erase index, h, l => LinkedList.erase h l index
  | .assign_at index w, h, l => LinkedList.assign_at h l index w
  | .clean, h, l => LinkedList.clean h l

/-- The calls on the list `l` one after the other: the outcomes in order, and
the store and `l` after the last call. -/
def run : List (Mutation α) → Heap α → LinkedList →
    List (Except Fault Unit) × Heap α × LinkedList
  | [], h, l => ([], h, l)
  | m :: ms, h, l =>
    let r := m.call h l
    let rest := run ms r.2.1 r.2.2
    (r.1 :: rest.1, rest.2)

end Mem

/-! Lemmas on node chains -/

namespace NodePtr

variable {α : Type}

@[simp] theorem toList_ofList (xs : List α) : (ofList xs).toList = xs := by
  induction xs with
  | nil => rfl
  | cons x xs ih => simp [ofList, toList, ih]

@[simp] theorem ofList_toList (p : NodePtr α) : ofList p.toList = p := by
  induction p with
  | nullptr => rfl
  | node d nx ih => simp [ofList, toList, ih]

theorem follow_ofList (xs : List α) (k : Nat) (h : k ≤ xs.length) :
    follow (ofList xs) k = .ok (ofList (xs.drop k)) := by
  induction xs generalizing k with
  | nil =>
    have hk : k = 0 := by simpa using h
    subst hk
    rfl
  | cons x xs ih =>
    cases k with
    | zero => rfl
    | succ k =>
      have hk : k ≤ xs.length := by simpa using h
      simpa [ofList, follow] using ih k hk

theorem follow_ofList_beyond (xs : List α) (k : Nat) (h : xs.length < k) :
    follow (ofList xs) k = .error .null_deref := by
  induction xs generalizing k with
  | nil =>
    cases k with
    | zero => simp at h
    | succ k => rfl
  | cons x xs ih =>
    cases k with
    | zero => simp at h
    | succ k =>
      have hk : xs.length < k := by simpa using h
      simpa [ofList, follow] using ih k hk

theorem data_ofList_drop (xs : List α) (k : Nat) (h : k < xs.length) :
    data (ofList (xs.drop k)) = .ok (xs.get ⟨k, h⟩) := by
  rw [List.drop_eq_getElem_cons h]
  rfl

theorem next_ofList_drop (xs : List α) (k : Nat) (h : k < xs.length) :
    next (ofList (xs.drop k)) = .ok (ofList (xs.drop (k + 1))) := by
  rw [List.drop_eq_getElem_cons h]
  rfl

theorem setNext_ofList (xs : List α) (k : Nat) (v : NodePtr α) (h : k < xs.length) :
    setNext (ofList xs) k v = .ok (ofList (xs.take (k + 1) ++ v.toList)) := by
  induction xs generalizing k with
  | nil => simp at h
  | cons x xs ih =>
    cases k with
    | zero => simp [ofList, setNext]
    | succ k =>
      have hk : k < xs.length := by simpa using h
      simp [ofList, setNext, ih k hk, Except.map]

theorem setNext_ofList_beyond (xs : List α) (k : Nat) (v : NodePtr α) (h : xs.length ≤ k) :
    setNext (ofList xs) k v = .error .null_deref := by
  induction xs generalizing k with
  | nil => rfl
  | cons x xs ih =>
    cases k with
    | zero => simp at h
    | succ k =>
      have hk : xs.length ≤ k := by simpa using h
      simp [ofList, setNext, ih k hk, Except.map]

theorem walkToLast_ofList (xs : List α) (k : Nat) :
    walkToLast (ofList xs) k = k + xs.length := by
  induction xs generalizing k with
  | nil => rfl
  | cons x xs ih => simp [ofList, walkToLast, ih]; omega

theorem walkToSecondLast_ofList (x y : α) (xs : List α) (k : Nat) :
    walkToSecondLast (ofList (x :: y :: xs)) k = .ok (k + xs.length) := by
  induction xs generalizing x y k with
  | nil => rfl
  | cons z zs ih =>
    have := ih y z (k + 1)
    simp only [ofList] at this ⊢
    rw [walkToSecondLast, this]
    simp; omega

end NodePtr

/-! Lemmas on well-formed lists -/

namespace LinkedList

variable {α : Type}

open NodePtr

@[simp] theorem toList_mk_of (xs : List α) : (mk_of xs).toList = xs := by
  simp [mk_of, toList]

@[simp] theorem size_mk_of (xs : List α) : (mk_of xs).size = (xs.length : Int) := rfl

theorem WF_mk_of (xs : List α) : (mk_of xs).WF := by
  simp [WF, mk_of, toList]

theorem eq_mk_of_of_WF (l : LinkedList α) (h : l.WF) : l = mk_of l.toList := by
  cases l with
  | mk hd len =>
    simp only [WF, toList] at h
    simp [mk_of, toList, h]

theorem empty_mk_of_nil : (mk_of ([] : List α)).empty = true := rfl

theorem empty_mk_of_cons (x : α) (xs : List α) : (mk_of (x :: xs)).empty = false := rfl

theorem empty_eq_true_iff (l : LinkedList α) : l.empty = true ↔ l.toList = [] := by
  cases l with
  | mk hd len => cases hd <;> simp [empty, toList, NodePtr.toList]

theorem lastNodePtr_mk_of_cons (x : α) (xs : List α) :
    (mk_of (x :: xs)).lastNodePtr = some xs.length := by
  simp [mk_of, lastNodePtr, ofList, walkToLast_ofList]

theorem operator_index_mk_of (xs : List α) (k : Nat) (h : k < xs.length) :
    (mk_of xs).operator_index (k : Int) = .ok (xs.get ⟨k, h⟩) := by
  have hc : ¬ ((k : Int) < 0 ∨ (k : Int) ≥ (xs.length : Int)) := by omega
  simp only [operator_index, mk_of, hc, if_false, Int.toNat_ofNat]
  rw [follow_ofList xs k (le_of_lt h)]
  exact data_ofList_drop xs k h

theorem operator_index_mk_of_getElem? (xs : List α) (i : Int) (h0 : 0 ≤ i)
    (h1 : i < (xs.length : Int)) :
    ∃ x, xs[i.toNat]? = some x ∧ (mk_of xs).operator_index i = .ok x := by
  obtain ⟨k, rfl⟩ := Int.eq_ofNat_of_zero_le h0
  have hk : k < xs.length := by omega
  refine ⟨xs.get ⟨k, hk⟩, ?_, operator_index_mk_of xs k hk⟩
  simp [List.getElem?_eq_getElem hk]

theorem push_back_mk_of (xs : List α) (v : α) :
    (mk_of xs).push_back v = .ok (mk_of (xs ++ [v])) := by
  cases xs with
  | nil => rfl
  | cons x xs =>
    simp only [push_back, lastNodePtr_mk_of_cons]
    simp only [mk_of]
    rw [setNext_ofList (x :: xs) xs.length _ (by simp)]
    simp [Except.map, NodePtr.toList]

theorem push_front_mk_of (xs : List α) (v : α) :
    (mk_of xs).push_front v = mk_of (v :: xs) := by
  simp [push_front, mk_of, ofList]

theorem insert_mk_of (xs : List α) (k : Nat) (v : α) (h : k ≤ xs.length) :
    (mk_of xs).insert (k : Int) v = .ok (mk_of (xs.take k ++ v :: xs.drop k)) := by
  have hc : ¬ ((k : Int) < 0 ∨ (k : Int) > (xs.length : Int)) := by omega
  by_cases hk0 : k = 0
  · subst hk0
    have hlen : (mk_of xs)._length = (xs.length : Int) := rfl
    simp [insert, push_front_mk_of, hlen]
  by_cases hkl : k = xs.length
  · subst hkl
    have hne : ¬ ((xs.length : Int) = 0) := by omega
    have hlen : (mk_of xs)._length = (xs.length : Int) := rfl
    simp only [insert, hlen, hc, hne, if_false, if_true, push_back_mk_of]
    simp
  · obtain ⟨j, rfl⟩ : ∃ j, k = j + 1 := ⟨k - 1, by omega⟩
    have hj : j < xs.length := by omega
    have hne0 : ¬ (((j + 1 : Nat) : Int) = 0) := by omega
    have hnel : ¬ (((j + 1 : Nat) : Int) = (xs.length : Int)) := by omega
    have hlen : (mk_of xs)._length = (xs.length : Int) := rfl
    have hhead : (mk_of xs)._head = ofList xs := rfl
    have hcurr : (((j + 1 : Nat) : Int) - 1).toNat = j := by omega
    simp only [insert, hlen, hhead, hc, hne0, hnel, if_false, hcurr]
    rw [follow_ofList xs j (le_of_lt hj)]
    simp only [Except.bind, next_ofList_drop xs j hj]
    rw [setNext_ofList xs j _ hj]
    simp [Except.map, NodePtr.toList, mk_of]
    omega

theorem checkEmptyOrSingle_mk_of_nil :
    (mk_of ([] : List α)).checkEmptyOrSingle = .error .logic_error := rfl

theorem checkEmptyOrSingle_mk_of_single (x : α) :
    (mk_of [x]).checkEmptyOrSingle = .ok (true, mk_of []) := rfl

theorem checkEmptyOrSingle_mk_of_many (x y : α) (zs : List α) :
    (mk_of (x :: y :: zs)).checkEmptyOrSingle = .ok (false, mk_of (x :: y :: zs)) := by
  have hlen : ¬ ((mk_of (x :: y :: zs))._length = 1) := by
    simp only [mk_of, List.length_cons]
    omega
  simp [checkEmptyOrSingle, empty_mk_of_cons, hlen]

theorem pop_front_mk_of_cons (x : α) (xs : List α) :
    (mk_of (x :: xs)).pop_front = .ok (mk_of xs) := by
  cases xs with
  | nil => rfl
  | cons y zs =>
    simp only [pop_front, checkEmptyOrSingle_mk_of_many, Except.bind]
    simp [mk_of, ofList, NodePtr.next, Except.map]

theorem pop_back_mk_of (xs : List α) (h : xs ≠ []) :
    (mk_of xs).pop_back = .ok (mk_of xs.dropLast) := by
  match xs, h with
  | [x], _ => rfl
  | x :: y :: zs, _ =>
    simp only [pop_back, checkEmptyOrSingle_mk_of_many, Except.bind]
    have hhead : (mk_of (x :: y :: zs))._head = ofList (x :: y :: zs) := rfl
    simp only [hhead, walkToSecondLast_ofList, Bool.false_eq_true, if_false]
    rw [setNext_ofList (x :: y :: zs) (0 + zs.length) nullptr (by simp; omega)]
    simp [Except.map, NodePtr.toList, mk_of, List.dropLast_eq_take]

theorem erase_mk_of (xs : List α) (k : Nat) (h : k < xs.length) :
    (mk_of xs).erase (k : Int) = .ok (mk_of (xs.eraseIdx k)) := by
  have hlen : (mk_of xs)._length = (xs.length : Int) := rfl
  have hc : ¬ ((k : Int) < 0 ∨ (k : Int) ≥ (xs.length : Int)) := by omega
  match xs, h with
  | x :: xs, h =>
    have hhead : (mk_of (x :: xs))._head = ofList (x :: xs) := rfl
    cases k with
    | zero =>
      have hl : (0 : Int) < ((x :: xs).length : Int) := by
        simp only [List.length_cons]; omega
      simp [erase, hlen, hl, empty_mk_of_cons, pop_front_mk_of_cons]
    | succ j =>
      have hne0 : ¬ (((j + 1 : Nat) : Int) = 0) := by omega
      simp only [erase, hlen, hhead, hc, hne0, if_false, empty_mk_of_cons,
        Bool.false_eq_true, Int.toNat_ofNat]
      rw [follow_ofList (x :: xs) (j + 1) (le_of_lt h)]
      simp only [Except.bind, next_ofList_drop (x :: xs) (j + 1) h]
      rw [setNext_ofList (x :: xs) (j + 1 - 1) _ (by omega)]
      simp only [Except.map, toList_ofList, mk_of]
      have he : (x :: xs).eraseIdx (j + 1)
          = (x :: xs).take (j + 1 - 1 + 1) ++ (x :: xs).drop (j + 1 + 1) := by
        rw [List.eraseIdx_eq_take_drop_succ]
        simp
      rw [← he]
      have hl2 : ((x :: xs).eraseIdx (j + 1)).length = (x :: xs).length - 1 := by
        rw [List.length_eraseIdx, if_pos h]
      rw [hl2]
      congr 2
      omega

theorem front_mk_of_cons (x : α) (xs : List α) : (mk_of (x :: xs)).front = .ok x := rfl

theorem back_mk_of (xs : List α) (h : xs ≠ []) :
    (mk_of xs).back = .ok (xs.getLast h) := by
  match xs, h with
  | x :: ys, h =>
    have hlt : ys.length < (x :: ys).length := by simp
    simp only [back, empty_mk_of_cons, lastNodePtr_mk_of_cons, Bool.false_eq_true, if_false]
    have hhead : (mk_of (x :: ys))._head = ofList (x :: ys) := rfl
    rw [hhead, follow_ofList (x :: ys) ys.length (le_of_lt hlt)]
    simp only [Except.bind, data_ofList_drop (x :: ys) ys.length hlt]
    congr 1
    rw [List.getLast_eq_getElem]
    simp

theorem operator_index_congr (xs ys : List α) (i j : Int) (hi0 : 0 ≤ i)
    (hi1 : i < (xs.length : Int)) (hj0 : 0 ≤ j) (hj1 : j < (ys.length : Int))
    (h : xs[i.toNat]? = ys[j.toNat]?) :
    (mk_of xs).operator_index i = (mk_of ys).operator_index j := by
  obtain ⟨x, hx, hxi⟩ := operator_index_mk_of_getElem? xs i hi0 hi1
  obtain ⟨y, hy, hyj⟩ := operator_index_mk_of_getElem? ys j hj0 hj1
  rw [hxi, hyj]
  rw [hx, hy] at h
  cases h
  rfl

theorem operator_index_out_of_range_iff (l : LinkedList α) (i : Int) :
    l.operator_index i = .error .out_of_range ↔ (i < 0 ∨ i ≥ l.size) := by
  constructor
  · intro h
    by_contra hc
    have hc' : ¬ (i < 0 ∨ i ≥ l._length) := hc
    simp only [operator_index, hc', if_false] at h
    cases hf : l._head.follow i.toNat with
    | error e =>
      have he : e = Exn.null_deref := by
        clear h
        generalize i.toNat = k at hf
        generalize l._head = p at hf
        induction p generalizing k with
        | nullptr =>
          cases k with
          | zero => simp [follow] at hf
          | succ k => simp [follow] at hf; exact hf.symm
        | node d nx ih =>
          cases k with
          | zero => simp [follow] at hf
          | succ k => exact ih k (by simpa [follow] using hf)
      rw [hf, he] at h
      simp [Except.bind] at h
    | ok q =>
      rw [hf] at h
      cases q <;> simp [Except.bind, data] at h
  · intro h
    have h' : i < 0 ∨ i ≥ l._length := h
    simp [operator_index, h']

theorem push_back_all_mk_of (xs vs : List α) :
    push_back_all (mk_of xs) vs = .ok (mk_of (xs ++ vs)) := by
  induction vs generalizing xs with
  | nil => simp [push_back_all]
  | cons v vs ih =>
    simp only [push_back_all, push_back_mk_of, Except.bind]
    rw [ih (xs ++ [v])]
    simp

theorem insert_of_WF (l : LinkedList α) (index : Int) (v : α) (hwf : l.WF)
    (h0 : 0 ≤ index) (h1 : index ≤ l.size) :
    l.insert index v
      = .ok (mk_of (l.toList.take index.toNat ++ v :: l.toList.drop index.toNat)) := by
  obtain ⟨k, rfl⟩ := Int.eq_ofNat_of_zero_le h0
  have hk : k ≤ l.toList.length := by
    have : l.size = (l.toList.length : Int) := hwf
    omega
  have h := insert_mk_of l.toList k v hk
  rw [← eq_mk_of_of_WF l hwf] at h
  simpa using h

theorem size_eq_zero_iff_of_WF (l : LinkedList α) (hwf : l.WF) :
    l.size = 0 ↔ l.toList = [] := by
  have h : l.size = (l.toList.length : Int) := hwf
  rw [h]
  constructor
  · intro hz
    exact List.length_eq_zero.mp (by omega)
  · intro hz
    simp [hz]

theorem pop_back_times_mk_of (n : Nat) (xs : List α) (h : xs.length = n) :
    pop_back_times (mk_of xs) n = .ok (mk_of []) := by
  induction n generalizing xs with
  | zero =>
    have hx : xs = [] := List.length_eq_zero.mp h
    subst hx
    rfl
  | succ n ih =>
    have hne : xs ≠ [] := by
      intro hx
      subst hx
      simp at h
    simp only [pop_back_times, pop_back_mk_of xs hne, Except.bind]
    exact ih xs.dropLast (by simp [h])

end LinkedList

/-! The claims -/

namespace LinkedList

variable {α : Type}

open NodePtr

/-- C1: starting from the empty list, the calls `push_back(v1)`, ..., `push_back(vn)`
all return and give a list whose `size()` is `n`, whose element sequence is
`v1..vn`, and whose indexed access `[i]` returns `v(i+1)` for every `i` in `[0, n)`. -/
theorem push_back_all_init_spec (vs : List α) :
    ∃ l : LinkedList α, push_back_all init vs = .ok l ∧ l.size = (vs.length : Int) ∧
      l.toList = vs ∧
      ∀ i : Fin vs.length, l.operator_index ((i : Nat) : Int) = .ok (vs.get i) := by
  refine ⟨mk_of vs, ?_, rfl, toList_mk_of vs, ?_⟩
  · have h := push_back_all_mk_of ([] : List α) vs
    simpa using h
  · intro i
    exact operator_index_mk_of vs i i.isLt

/-- C2: on a well-formed list with sequence `xs` and `0 <= index <= size()`,
`insert(index, v)` returns, the new sequence is the first `index` elements of
`xs`, then `v`, then the remaining elements of `xs`; `size()` has grown by one,
`v` is at position `index`, positions before `index` are unchanged and the
element formerly at `j >= index` is now at `j + 1`. -/
theorem insert_spec (l : LinkedList α) (index : Int) (v : α) (hwf : l.WF)
    (h0 : 0 ≤ index) (h1 : index ≤ l.size) :
    ∃ l' : LinkedList α, l.insert index v = .ok l' ∧ l'.WF ∧
      l'.toList = l.toList.take index.toNat ++ [v] ++ l.toList.drop index.toNat ∧
      l'.size = l.size + 1 ∧
      l'.operator_index index = .ok v ∧
      (∀ j : Int, 0 ≤ j → j < index → l'.operator_index j = l.operator_index j) ∧
      (∀ j : Int, index ≤ j → j < l.size →
        l'.operator_index (j + 1) = l.operator_index j) := by
  rw [eq_mk_of_of_WF l hwf] at h1 ⊢
  generalize l.toList = xs at h1 ⊢
  obtain ⟨k, rfl⟩ := Int.eq_ofNat_of_zero_le h0
  have hk : k ≤ xs.length := by simpa using h1
  have hlen : (xs.take k ++ v :: xs.drop k).length = xs.length + 1 := by
    simp; omega
  refine ⟨mk_of (xs.take k ++ v :: xs.drop k), insert_mk_of xs k v hk, WF_mk_of _,
    by simp, ?_, ?_, ?_, ?_⟩
  · simp only [size_mk_of, hlen]; push_cast; rfl
  · have h := operator_index_mk_of (xs.take k ++ v :: xs.drop k) k (by omega)
    rw [h]
    congr 1
    simp [List.getElem_append_right, hk]
  · intro j hj0 hjk
    obtain ⟨m, rfl⟩ := Int.eq_ofNat_of_zero_le hj0
    have hm : m < k := by omega
    apply operator_index_congr
    · exact hj0
    · rw [hlen]; omega
    · exact hj0
    · omega
    · simp only [Int.toNat_ofNat]
      rw [List.getElem?_append_left (by simp; omega)]
      exact List.getElem?_take_of_lt hm
  · intro j hkj hjl
    have hj0 : 0 ≤ j := by omega
    obtain ⟨m, rfl⟩ := Int.eq_ofNat_of_zero_le hj0
    have hm : k ≤ m := by omega
    have hml : m < xs.length := by simpa using hjl
    apply operator_index_congr
    · omega
    · rw [hlen]; omega
    · exact hj0
    · omega
    · have ht : ((m : Int) + 1).toNat = m + 1 := by omega
      simp only [Int.toNat_ofNat, ht]
      rw [List.getElem?_append_right (by simp; omega)]
      have hlt : (xs.take k).length = k := by simp; omega
      rw [hlt]
      obtain ⟨d, rfl⟩ : ∃ d, m = k + d := ⟨m - k, by omega⟩
      have hd : k + d + 1 - k = d + 1 := by omega
      rw [hd, List.getElem?_cons_succ, List.getElem?_drop]

/-- C2, at the list `[1, 3]`: `insert(1, 2)` gives `[1, 2, 3]`. -/
theorem insert_spec_witness :
    ∃ l' : LinkedList Nat, (mk_of [1, 3]).insert 1 2 = .ok l' ∧ l'.toList = [1, 2, 3] ∧
      l'.size = 3 := by
  obtain ⟨l', h, _, ht, hs, _⟩ :=
    insert_spec (mk_of [1, 3]) 1 2 (WF_mk_of _) (by decide) (by decide)
  exact ⟨l', h, by simpa using ht, by simpa using hs⟩

/-- C3: on a well-formed list with sequence `xs` and `0 <= index < size()`,
`erase(index)` returns and leaves `xs` without the element at position `index`:
`size()` has shrunk by one, positions before `index` are unchanged and the
element formerly at `j > index` is now at `j - 1`. -/
theorem erase_spec (l : LinkedList α) (index : Int) (hwf : l.WF)
    (h0 : 0 ≤ index) (h1 : index < l.size) :
    ∃ l' : LinkedList α, l.erase index = .ok l' ∧ l'.WF ∧
      l'.toList = l.toList.eraseIdx index.toNat ∧
      l'.toList = l.toList.take index.toNat ++ l.toList.drop (index.toNat + 1) ∧
      l'.size = l.size - 1 ∧
      (∀ j : Int, 0 ≤ j → j < index → l'.operator_index j = l.operator_index j) ∧
      (∀ j : Int, index < j → j < l.size →
        l'.operator_index (j - 1) = l.operator_index j) := by
  rw [eq_mk_of_of_WF l hwf] at h1 ⊢
  generalize l.toList = xs at h1 ⊢
  obtain ⟨k, rfl⟩ := Int.eq_ofNat_of_zero_le h0
  have hk : k < xs.length := by simpa using h1
  have hlen : (xs.eraseIdx k).length = xs.length - 1 := by
    rw [List.length_eraseIdx, if_pos hk]
  refine ⟨mk_of (xs.eraseIdx k), erase_mk_of xs k hk, WF_mk_of _, by simp,
    by simp [List.eraseIdx_eq_take_drop_succ], ?_, ?_, ?_⟩
  · simp only [size_mk_of, hlen]; omega
  · intro j hj0 hjk
    obtain ⟨m, rfl⟩ := Int.eq_ofNat_of_zero_le hj0
    have hm : m < k := by omega
    apply operator_index_congr
    · exact hj0
    · rw [hlen]; omega
    · exact hj0
    · omega
    · simp only [Int.toNat_ofNat]
      exact List.getElem?_eraseIdx_of_lt xs k m hm
  · intro j hkj hjl
    have hj0 : 0 ≤ j := by omega
    obtain ⟨m, rfl⟩ := Int.eq_ofNat_of_zero_le hj0
    have hml : m < xs.length := by simpa using hjl
    obtain ⟨d, rfl⟩ : ∃ d, m = d + 1 := ⟨m - 1, by omega⟩
    have hd : k ≤ d := by omega
    apply operator_index_congr
    · omega
    · rw [hlen]; omega
    · exact hj0
    · omega
    · have ht : (((d + 1 : Nat) : Int) - 1).toNat = d := by omega
      simp only [Int.toNat_ofNat, ht]
      exact List.getElem?_eraseIdx_of_ge xs k d hd

/-- C3, at the list `[0, 1, 2, 3]`: `erase(2)` gives `[0, 1, 3]`. -/
theorem erase_spec_witness :
    ∃ l' : LinkedList Nat, (mk_of [0, 1, 2, 3]).erase 2 = .ok l' ∧ l'.toList = [0, 1, 3] ∧
      l'.size = 3 := by
  obtain ⟨l', h, _, ht, _, hs, _⟩ :=
    erase_spec (mk_of [0, 1, 2, 3]) 2 (WF_mk_of _) (by decide) (by decide)
  exact ⟨l', h, by simpa using ht, by simpa using hs⟩

/-- C4: on a well-formed list, indexed access `[i]` throws `std::out_of_range`
exactly when `i < 0` or `i >= size()`, in particular at `i == -1` and at
`i == size()`; for every other `i` it returns the element at position `i` of the
sequence of the list. -/
theorem operator_index_spec (l : LinkedList α) (i : Int) (hwf : l.WF) :
    (l.operator_index i = .error .out_of_range ↔ (i < 0 ∨ i ≥ l.size)) ∧
    l.operator_index (-1) = .error .out_of_range ∧
    l.operator_index l.size = .error .out_of_range ∧
    (¬ (i < 0 ∨ i ≥ l.size) →
      ∃ x, l.toList[i.toNat]? = some x ∧ l.operator_index i = .ok x) := by
  refine ⟨operator_index_out_of_range_iff l i, ?_, ?_, ?_⟩
  · exact (operator_index_out_of_range_iff l (-1)).mpr (Or.inl (by decide))
  · exact (operator_index_out_of_range_iff l l.size).mpr (Or.inr (le_refl _))
  · intro hc
    rw [eq_mk_of_of_WF l hwf] at hc ⊢
    generalize l.toList = xs at hc ⊢
    rw [size_mk_of] at hc
    have h0 : 0 ≤ i := by omega
    have h1 : i < (xs.length : Int) := by omega
    simpa using operator_index_mk_of_getElem? xs i h0 h1

/-- C4, at the list `[5, 6, 7]`: `[1]` returns `6` and `[3]` throws. -/
theorem operator_index_spec_witness :
    (mk_of [5, 6, 7]).operator_index 1 = .ok 6 ∧
    ((mk_of [5, 6, 7]).operator_index 3 = .error .out_of_range) := by
  have h1 := (operator_index_spec (mk_of [5, 6, 7]) 1 (WF_mk_of _)).2.2.2 (by decide)
  have h3 := (operator_index_spec (mk_of [5, 6, 7]) 1 (WF_mk_of _)).2.2.1
  obtain ⟨x, hx, hok⟩ := h1
  have hx6 : x = 6 := by simpa using hx.symm
  subst hx6
  exact ⟨hok, h3⟩

/-- C5: on a well-formed list, `insert(index, v)` throws `std::out_of_range`
exactly when `index < 0` or `index > size()`; for every index in `[0, size()]` it
returns; `index == size()` appends `v`, and `index == size() + 1` throws. -/
theorem insert_out_of_range_spec (l : LinkedList α) (index : Int) (v : α) (hwf : l.WF) :
    (l.insert index v = .error .out_of_range ↔ (index < 0 ∨ index > l.size)) ∧
    ((0 ≤ index ∧ index ≤ l.size) → ∃ l', l.insert index v = .ok l') ∧
    (∃ l', l.insert l.size v = .ok l' ∧ l'.toList = l.toList ++ [v]) ∧
    l.insert (l.size + 1) v = .error .out_of_range := by
  have hsz : 0 ≤ l.size := by
    have : l.size = (l.toList.length : Int) := hwf
    omega
  refine ⟨⟨?_, ?_⟩, ?_, ?_, ?_⟩
  · intro h
    by_contra hc
    have h0 : 0 ≤ index := by omega
    have h1 : index ≤ l.size := by omega
    rw [insert_of_WF l index v hwf h0 h1] at h
    cases h
  · intro h
    have h' : index < 0 ∨ index > l._length := h
    simp [insert, h']
  · rintro ⟨h0, h1⟩
    exact ⟨_, insert_of_WF l index v hwf h0 h1⟩
  · refine ⟨_, insert_of_WF l l.size v hwf hsz (le_refl _), ?_⟩
    have hn : l.size.toNat = l.toList.length := by
      have : l.size = (l.toList.length : Int) := hwf
      omega
    rw [hn]
    simp
  · have h' : l.size + 1 < 0 ∨ l.size + 1 > l._length := Or.inr (by simp [size])
    simp [insert, h']

/-- C5, at the list `[1, 2]`: `insert(2, 9)` returns and `insert(3, 9)` throws. -/
theorem insert_out_of_range_spec_witness :
    (∃ l', (mk_of [1, 2]).insert 2 9 = .ok l' ∧ l'.toList = [1, 2, 9]) ∧
    (mk_of [1, 2]).insert 3 9 = .error .out_of_range := by
  have h := insert_out_of_range_spec (mk_of [1, 2]) 0 9 (WF_mk_of _)
  obtain ⟨l', hl', ht⟩ := h.2.2.1
  exact ⟨⟨l', hl', by simpa using ht⟩, h.2.2.2⟩

/-- C6, the code at the failing input: on the freshly constructed empty list
`erase(0)` throws `std::out_of_range`, not `std::logic_error`. -/
theorem erase_init_zero_out_of_range :
    (init : LinkedList Nat).erase 0 = .error .out_of_range ∧
    (init : LinkedList Nat).erase 0 ≠ .error .logic_error := by
  constructor
  · rfl
  · intro h
    cases h

/-- C7: on a well-formed list, `erase(index)` throws `std::out_of_range` exactly
when `index < 0` or `index >= size()`; on an empty list it throws
`std::out_of_range` for every index, and on no list does it throw
`std::logic_error`. -/
theorem erase_out_of_range_spec (l : LinkedList α) (index : Int) (hwf : l.WF) :
    (l.erase index = .error .out_of_range ↔ (index < 0 ∨ index ≥ l.size)) ∧
    (l.toList = [] → l.erase index = .error .out_of_range) ∧
    l.erase index ≠ .error .logic_error := by
  have hsz : l.size = (l.toList.length : Int) := hwf
  have hthrow : (index < 0 ∨ index ≥ l.size) → l.erase index = .error .out_of_range := by
    intro h
    have h' : index < 0 ∨ index ≥ l._length := h
    simp [erase, h']
  have hok : ¬ (index < 0 ∨ index ≥ l.size) →
      l.erase index = .ok (mk_of (l.toList.eraseIdx index.toNat)) := by
    intro hc
    have h0 : 0 ≤ index := by omega
    obtain ⟨k, rfl⟩ := Int.eq_ofNat_of_zero_le h0
    have hk : k < l.toList.length := by omega
    have h := erase_mk_of l.toList k hk
    rw [← eq_mk_of_of_WF l hwf] at h
    simpa using h
  refine ⟨⟨?_, hthrow⟩, ?_, ?_⟩
  · intro h
    by_contra hc
    rw [hok hc] at h
    cases h
  · intro hnil
    apply hthrow
    rw [hsz, hnil]
    simp only [List.length_nil]
    omega
  · intro h
    by_cases hc : index < 0 ∨ index ≥ l.size
    · rw [hthrow hc] at h
      cases h
    · rw [hok hc] at h
      cases h

/-- C7, at the empty list and at the list `[4, 5]`. -/
theorem erase_out_of_range_spec_witness :
    (mk_of ([] : List Nat)).erase 0 = .error .out_of_range ∧
    (mk_of [4, 5]).erase 2 = .error .out_of_range := by
  refine ⟨(erase_out_of_range_spec (mk_of ([] : List Nat)) 0 (WF_mk_of _)).2.1 rfl, ?_⟩
  exact (erase_out_of_range_spec (mk_of [4, 5]) 2 (WF_mk_of _)).1.mpr (Or.inr (by decide))

/-- C8: on a well-formed list, `front()` and `back()` throw `std::logic_error`
exactly when the list has no elements; on a non-empty list `front()` returns
the element at index `0` and `back()` the element at index `size() - 1`. -/
theorem front_back_spec (l : LinkedList α) (hwf : l.WF) :
    (l.front = .error .logic_error ↔ l.toList = []) ∧
    (l.back = .error .logic_error ↔ l.toList = []) ∧
    (l.toList = [] ↔ l.size = 0) ∧
    (l.toList ≠ [] → ∃ x y, l.front = .ok x ∧ l.operator_index 0 = .ok x ∧
      l.toList.head? = some x ∧ l.back = .ok y ∧ l.operator_index (l.size - 1) = .ok y ∧
      l.toList.getLast? = some y) := by
  refine ⟨?_, ?_, (size_eq_zero_iff_of_WF l hwf).symm, ?_⟩
  · rw [eq_mk_of_of_WF l hwf]
    generalize l.toList = xs
    cases xs with
    | nil => simp [front, empty_mk_of_nil]
    | cons x xs => simp [front_mk_of_cons]
  · rw [eq_mk_of_of_WF l hwf]
    generalize l.toList = xs
    cases xs with
    | nil => simp [back, empty_mk_of_nil]
    | cons x xs => simp [back_mk_of (x :: xs) (by simp)]
  · rw [eq_mk_of_of_WF l hwf]
    generalize l.toList = xs
    intro hne
    rw [toList_mk_of] at hne ⊢
    match xs, hne with
    | x :: ys, hne =>
      have hlast : ys.length < (x :: ys).length := by simp
      refine ⟨x, (x :: ys).getLast hne, front_mk_of_cons x ys, ?_, rfl,
        back_mk_of (x :: ys) hne, ?_, ?_⟩
      · exact operator_index_mk_of (x :: ys) 0 (by simp)
      · have h := operator_index_mk_of (x :: ys) ys.length hlast
        have hi : (mk_of (x :: ys)).size - 1 = (ys.length : Int) := by
          simp only [size_mk_of, List.length_cons]
          omega
        rw [hi, h]
        congr 1
        rw [List.getLast_eq_getElem]
        simp
      · exact List.getLast?_eq_getLast _ hne

/-- C8, at the empty list and at the list `[7, 8, 9]`. -/
theorem front_back_spec_witness :
    (mk_of ([] : List Nat)).front = .error .logic_error ∧
    (mk_of ([] : List Nat)).back = .error .logic_error ∧
    (mk_of [7, 8, 9]).front = .ok 7 ∧ (mk_of [7, 8, 9]).back = .ok 9 := by
  have he := front_back_spec (mk_of ([] : List Nat)) (WF_mk_of _)
  obtain ⟨x, y, hf, _, hx, hb, _, hy⟩ :=
    (front_back_spec (mk_of [7, 8, 9]) (WF_mk_of _)).2.2.2 (by simp)
  have hx7 : x = 7 := by simpa using hx.symm
  have hy9 : y = 9 := by simpa using hy.symm
  subst hx7 hy9
  exact ⟨he.1.mpr rfl, he.2.1.mpr rfl, hf, hb⟩

/-- C9: on a well-formed non-empty list with sequence `xs`, `pop_back()` returns
and leaves `xs` without its last element, with `size()` reduced by one; calling
`pop_back()` `size()` times on any well-formed list returns each time and leaves
the empty list with `size() == 0`, on which one more `pop_back()` throws
`std::logic_error`; `pop_back()` on an empty list throws `std::logic_error`. -/
theorem pop_back_spec (l : LinkedList α) (hwf : l.WF) :
    (l.toList ≠ [] → ∃ l', l.pop_back = .ok l' ∧ l'.WF ∧
      l'.toList = l.toList.dropLast ∧ l'.size = l.size - 1) ∧
    (∃ l', l.pop_back_times l.size.toNat = .ok l' ∧ l'.toList = [] ∧ l'.size = 0 ∧
      l'.empty = true ∧ l'.pop_back = .error .logic_error) ∧
    (l.toList = [] → l.pop_back = .error .logic_error) := by
  rw [eq_mk_of_of_WF l hwf]
  generalize l.toList = xs
  refine ⟨?_, ?_, ?_⟩
  · intro hne
    rw [toList_mk_of] at hne
    refine ⟨mk_of xs.dropLast, pop_back_mk_of xs hne, WF_mk_of _, by simp, ?_⟩
    have hpos : 0 < xs.length := List.length_pos.mpr hne
    simp only [size_mk_of, List.length_dropLast]
    omega
  · refine ⟨mk_of [], ?_, rfl, rfl, rfl, rfl⟩
    have hn : (mk_of xs).size.toNat = xs.length := by simp
    rw [hn]
    exact pop_back_times_mk_of xs.length xs rfl
  · intro hnil
    rw [toList_mk_of] at hnil
    subst hnil
    rfl

/-- C9, at the list `[0, 1, 3]`: `pop_back()` gives `[0, 1]`, and three calls
empty the list. -/
theorem pop_back_spec_witness :
    (∃ l', (mk_of [0, 1, 3]).pop_back = .ok l' ∧ l'.toList = [0, 1] ∧ l'.size = 2) ∧
    (∃ l', (mk_of [0, 1, 3]).pop_back_times 3 = .ok l' ∧ l'.size = 0) := by
  have h := pop_back_spec (mk_of [0, 1, 3]) (WF_mk_of _)
  obtain ⟨l', hl', _, ht, hs⟩ := h.1 (by simp)
  obtain ⟨l2, hl2, _, hs2, _⟩ := h.2.1
  exact ⟨⟨l', hl', by simpa using ht, by simpa using hs⟩, ⟨l2, hl2, hs2⟩⟩

/-- C10: on a well-formed list, `pop_front()` throws `std::logic_error` exactly
when the list is empty; on a non-empty list it returns and removes exactly the
first element (the other elements keep their order, each one position earlier,
and `size()` drops by one); on a single-element list it leaves `_head == nullptr`
and `_length == 0`. -/
theorem pop_front_spec (l : LinkedList α) (hwf : l.WF) :
    (l.pop_front = .error .logic_error ↔ l.toList = []) ∧
    (l.toList ≠ [] → ∃ l', l.pop_front = .ok l' ∧ l'.WF ∧
      l'.toList = l.toList.tail ∧ l'.size = l.size - 1 ∧
      (∀ j : Int, 0 ≤ j → j < l'.size → l'.operator_index j = l.operator_index (j + 1))) ∧
    (l.size = 1 → l.pop_front = .ok ⟨nullptr, 0⟩) := by
  rw [eq_mk_of_of_WF l hwf]
  generalize l.toList = xs
  cases xs with
  | nil =>
    refine ⟨?_, ?_, ?_⟩
    · simp [pop_front, checkEmptyOrSingle_mk_of_nil, Except.bind]
    · intro hne
      simp at hne
    · intro h1
      simp at h1
  | cons x ys =>
    refine ⟨?_, ?_, ?_⟩
    · simp [pop_front_mk_of_cons]
    · intro _
      refine ⟨mk_of ys, pop_front_mk_of_cons x ys, WF_mk_of _, by simp, ?_, ?_⟩
      · simp only [size_mk_of, List.length_cons]
        omega
      · intro j hj0 hj1
        obtain ⟨m, rfl⟩ := Int.eq_ofNat_of_zero_le hj0
        have hm : m < ys.length := by simpa using hj1
        apply operator_index_congr
        · exact hj0
        · omega
        · omega
        · simp only [List.length_cons]
          omega
        · have ht : ((m : Int) + 1).toNat = m + 1 := by omega
          simp [ht]
    · intro h1
      have hy : ys = [] := by
        have : ((x :: ys).length : Int) = 1 := h1
        simp only [List.length_cons] at this
        exact List.length_eq_zero.mp (by omega)
      subst hy
      rfl

/-- C10, at the lists `[]`, `[1, 2, 3]` and `[5]`. -/
theorem pop_front_spec_witness :
    (mk_of ([] : List Nat)).pop_front = .error .logic_error ∧
    (∃ l', (mk_of [1, 2, 3]).pop_front = .ok l' ∧ l'.toList = [2, 3] ∧ l'.size = 2) ∧
    (mk_of [5]).pop_front = .ok ⟨NodePtr.nullptr, 0⟩ := by
  have h0 := pop_front_spec (mk_of ([] : List Nat)) (WF_mk_of _)
  obtain ⟨l', hl', _, ht, hs, _⟩ := (pop_front_spec (mk_of [1, 2, 3]) (WF_mk_of _)).2.1 (by simp)
  exact ⟨h0.1.mpr rfl, ⟨l', hl', by simpa using ht, by simpa using hs⟩,
    (pop_front_spec (mk_of [5]) (WF_mk_of _)).2.2 rfl⟩

end LinkedList

/-! Lemmas on searching and on cursors -/

namespace LinkedList

variable {α : Type}

open NodePtr

theorem find_index_loop_cases (ne : α → α → Bool) (data : α) (d : α) (nx : NodePtr α)
    (idx : Int) :
    ((∀ x ∈ d :: nx.toList, ne x data = true) ∧ find_index_loop ne data d nx idx = -1) ∨
    (∃ k : Nat, k < (d :: nx.toList).length ∧
      (∃ y, (d :: nx.toList)[k]? = some y ∧ ne y data = false) ∧
      (∀ j : Nat, j < k → ∀ z, (d :: nx.toList)[j]? = some z → ne z data = true) ∧
      find_index_loop ne data d nx idx = idx + (k : Int)) := by
  induction nx generalizing d idx with
  | nullptr =>
    cases hd : ne d data with
    | true =>
      left
      simp [find_index_loop, hd, NodePtr.toList]
    | false =>
      right
      refine ⟨0, by simp, ⟨d, by simp, hd⟩, ?_, ?_⟩
      · intro j hj
        omega
      · simp [find_index_loop, hd]
  | node e nx ih =>
    cases hd : ne d data with
    | false =>
      right
      refine ⟨0, by simp, ⟨d, by simp, hd⟩, ?_, ?_⟩
      · intro j hj
        omega
      · simp [find_index_loop, hd]
    | true =>
      rcases ih e (idx + 1) with ⟨hall, hres⟩ | ⟨k, hk, ⟨y, hy, hny⟩, hbefore, hres⟩
      · left
        refine ⟨?_, ?_⟩
        · intro x hx
          simp only [NodePtr.toList, List.mem_cons] at hx
          rcases hx with rfl | hx
          · exact hd
          · exact hall x (by simpa [NodePtr.toList] using hx)
        · simp [find_index_loop, hd, hres]
      · right
        refine ⟨k + 1, ?_, ⟨y, ?_, hny⟩, ?_, ?_⟩
        · simp only [NodePtr.toList, List.length_cons] at hk ⊢
          omega
        · simpa [NodePtr.toList] using hy
        · intro j hj z hz
          cases j with
          | zero =>
            have : z = d := by simpa using hz.symm
            rw [this]
            exact hd
          | succ j =>
            exact hbefore j (by omega) z (by simpa [NodePtr.toList] using hz)
        · simp only [find_index_loop, hd, if_true, hres]
          push_cast
          ring

theorem find_loop_cases (eq : α → α → Bool) (data : α) (p : NodePtr α) :
    ((∀ x ∈ p.toList, eq x data = false) ∧ find_loop eq data p = ⟨nullptr⟩) ∨
    (∃ (k : Nat) (y : α) (nx : NodePtr α), follow p k = .ok (node y nx) ∧
      p.toList[k]? = some y ∧ eq y data = true ∧
      (∀ j : Nat, j < k → ∀ z, p.toList[j]? = some z → eq z data = false) ∧
      find_loop eq data p = ⟨node y nx⟩) := by
  induction p with
  | nullptr =>
    left
    simp [find_loop, NodePtr.toList]
  | node d nx ih =>
    cases hd : eq d data with
    | true =>
      right
      refine ⟨0, d, nx, rfl, by simp [NodePtr.toList], hd, ?_, by simp [find_loop, hd]⟩
      intro j hj
      omega
    | false =>
      rcases ih with ⟨hall, hres⟩ | ⟨k, y, nx', hf, hy, hey, hbefore, hres⟩
      · left
        refine ⟨?_, by simp [find_loop, hd, hres]⟩
        intro x hx
        simp only [NodePtr.toList, List.mem_cons] at hx
        rcases hx with rfl | hx
        · exact hd
        · exact hall x hx
      · right
        refine ⟨k + 1, y, nx', by simpa [follow] using hf, by simpa [NodePtr.toList] using hy,
          hey, ?_, by simp [find_loop, hd, hres]⟩
        intro j hj z hz
        cases j with
        | zero =>
          have : z = d := by simpa [NodePtr.toList] using hz.symm
          rw [this]
          exact hd
        | succ j =>
          exact hbefore j (by omega) z (by simpa [NodePtr.toList] using hz)

theorem find_const_loop_eq (eq : α → α → Bool) (data : α) (p : NodePtr α) :
    (find_const_loop eq data p)._curr = (find_loop eq data p)._curr := by
  induction p with
  | nullptr => rfl
  | node d nx ih =>
    cases hd : eq d data <;> simp [find_const_loop, find_loop, hd, ih]

theorem iterator_advance_eq_follow (it : Iterator α) (k : Nat) :
    it.advance k = (it._curr.follow k).map Iterator.mk := by
  induction k generalizing it with
  | zero =>
    cases it with
    | mk p => cases p <;> rfl
  | succ k ih =>
    cases it with
    | mk p =>
      cases p with
      | nullptr => rfl
      | node d nx =>
        simp only [Iterator.advance, Iterator.operator_incr, NodePtr.next, Except.map,
          Except.bind, follow]
        exact ih ⟨nx⟩

theorem const_iterator_advance_eq_follow (it : ConstIterator α) (k : Nat) :
    it.advance k = (it._curr.follow k).map ConstIterator.mk := by
  induction k generalizing it with
  | zero =>
    cases it with
    | mk p => cases p <;> rfl
  | succ k ih =>
    cases it with
    | mk p =>
      cases p with
      | nullptr => rfl
      | node d nx =>
        simp only [ConstIterator.advance, ConstIterator.operator_incr, NodePtr.next,
          Except.map, Except.bind, follow]
        exact ih ⟨nx⟩

theorem mem_iff_getElem?_eq_some (xs : List α) (v : α) :
    v ∈ xs ↔ ∃ k : Nat, xs[k]? = some v := by
  constructor
  · intro h
    obtain ⟨k, hk, hv⟩ := List.getElem_of_mem h
    exact ⟨k, by simp [List.getElem?_eq_getElem hk, hv]⟩
  · rintro ⟨k, hk⟩
    obtain ⟨h, hv⟩ := List.getElem?_eq_some.mp hk
    rw [← hv]
    exact List.getElem_mem h

end LinkedList

namespace LinkedList

variable {α : Type}

open NodePtr

theorem find_index_cases (ne : α → α → Bool) (l : LinkedList α) (v : α)
    (hne : ∀ a b, ne a b = true ↔ a ≠ b) :
    (v ∉ l.toList ∧ l.find_index ne v = .ok (-1)) ∨
    (∃ k : Nat, k < l.toList.length ∧ l.toList[k]? = some v ∧
      (∀ j : Nat, j < k → l.toList[j]? ≠ some v) ∧ l.find_index ne v = .ok (k : Int)) := by
  cases l with
  | mk hd len =>
    cases hd with
    | nullptr =>
      left
      simp [find_index, empty, toList, NodePtr.toList]
    | node d nx =>
      have hfi : find_index ne ⟨node d nx, len⟩ v = .ok (find_index_loop ne v d nx 0) := by
        simp [find_index, empty]
      rcases find_index_loop_cases ne v d nx 0 with
        ⟨hall, hres⟩ | ⟨k, hk, ⟨y, hy, hny⟩, hbefore, hres⟩
      · left
        refine ⟨?_, by rw [hfi, hres]⟩
        intro hmem
        have h1 := hall v (by simpa [toList, NodePtr.toList] using hmem)
        exact (hne v v).mp h1 rfl
      · right
        have hyv : y = v := by
          by_contra hc
          have := (hne y v).mpr hc
          rw [hny] at this
          cases this
        subst hyv
        refine ⟨k, by simpa [toList, NodePtr.toList] using hk,
          by simpa [toList, NodePtr.toList] using hy, ?_, ?_⟩
        · intro j hj hjv
          have h1 := hbefore j hj y (by simpa [toList, NodePtr.toList] using hjv)
          exact (hne y y).mp h1 rfl
        · rw [hfi, hres]
          simp

theorem find_cases (eq : α → α → Bool) (l : LinkedList α) (v : α)
    (heq : ∀ a b, eq a b = true ↔ a = b) :
    (v ∉ l.toList ∧ (l.find eq v)._curr = nullptr) ∨
    (∃ (k : Nat) (nx : NodePtr α), follow l._head k = .ok (node v nx) ∧
      l.toList[k]? = some v ∧ (∀ j : Nat, j < k → l.toList[j]? ≠ some v) ∧
      (l.find eq v)._curr = node v nx) := by
  rcases find_loop_cases eq v l._head with
    ⟨hall, hres⟩ | ⟨k, y, nx, hf, hy, hey, hbefore, hres⟩
  · left
    refine ⟨?_, by simp [find, begin, hres]⟩
    intro hmem
    have h1 := hall v hmem
    rw [(heq v v).mpr rfl] at h1
    cases h1
  · right
    have hyv : y = v := (heq y v).mp hey
    subst hyv
    refine ⟨k, nx, hf, hy, ?_, by simp [find, begin, hres]⟩
    intro j hj hjv
    have h1 := hbefore j hj y hjv
    rw [(heq y y).mpr rfl] at h1
    cases h1

end LinkedList

/-! The claims on searching and iteration -/

namespace LinkedList

variable {α : Type}

open NodePtr

/-- C11: for an element type whose `!=` is inequality, `find_index(v)` on a
well-formed list returns `-1` exactly when no element equals `v` (so on the
empty list), and otherwise returns the least index `k` with the element at `k`
equal to `v`, where `0 <= k < size()`. -/
theorem find_index_spec (ne : α → α → Bool) (l : LinkedList α) (v : α)
    (hne : ∀ a b, ne a b = true ↔ a ≠ b) (hwf : l.WF) :
    (l.find_index ne v = .ok (-1) ↔ v ∉ l.toList) ∧
    (l.toList = [] → l.find_index ne v = .ok (-1)) ∧
    (v ∈ l.toList → ∃ k : Nat, l.find_index ne v = .ok (k : Int) ∧ (k : Int) < l.size ∧
      l.toList[k]? = some v ∧ ∀ j : Nat, j < k → l.toList[j]? ≠ some v) := by
  have hsz : l.size = (l.toList.length : Int) := hwf
  rcases find_index_cases ne l v hne with ⟨hnot, hres⟩ | ⟨k, hk, hkv, hbefore, hres⟩
  · refine ⟨⟨fun _ => hnot, fun _ => hres⟩, fun _ => hres, fun hmem => absurd hmem hnot⟩
  · have hmem : v ∈ l.toList := (mem_iff_getElem?_eq_some l.toList v).mpr ⟨k, hkv⟩
    refine ⟨⟨?_, fun hnot => absurd hmem hnot⟩, ?_, ?_⟩
    · intro h
      rw [hres] at h
      have hk1 : (k : Int) = -1 := by
        injection h
      omega
    · intro hnil
      rw [hnil] at hmem
      simp at hmem
    · intro _
      exact ⟨k, hres, by omega, hkv, hbefore⟩

/-- C11, at the list `[4, 7, 7]` with `!=` on `Nat`: `find_index(7)` is the
index of a `7` with no `7` before it, and `find_index(5)` is `-1`. -/
theorem find_index_spec_witness :
    (∃ k : Nat, (mk_of [4, 7, 7]).find_index (fun a b => decide (a ≠ b)) 7 = .ok (k : Int) ∧
      [4, 7, 7][k]? = some 7 ∧ ∀ j : Nat, j < k → [4, 7, 7][j]? ≠ some 7) ∧
    (mk_of [4, 7, 7]).find_index (fun a b => decide (a ≠ b)) 5 = .ok (-1) := by
  have h7 := find_index_spec (fun a b : Nat => decide (a ≠ b)) (mk_of [4, 7, 7]) 7
    (by intro a b; simp) (WF_mk_of _)
  have h5 := find_index_spec (fun a b : Nat => decide (a ≠ b)) (mk_of [4, 7, 7]) 5
    (by intro a b; simp) (WF_mk_of _)
  obtain ⟨k, hres, _, hkv, hbefore⟩ := h7.2.2 (by simp)
  exact ⟨⟨k, hres, by simpa using hkv, by simpa using hbefore⟩, h5.1.mpr (by simp)⟩

end LinkedList

namespace LinkedList

variable {α : Type}

open NodePtr

/-- C12: for an element type whose `==` is equality, `find(v)` and
`find(v) const` return a cursor equal to `end()` (`cend()`) exactly when no
element equals `v`; otherwise the returned cursor is the one reached from
`begin()` (`cbegin()`) by `k` increments, where `k` is the least index whose
element equals `v`, and dereferencing it yields `v`. -/
theorem find_spec [DecidableEq α] (eq : α → α → Bool) (l : LinkedList α) (v : α)
    (heq : ∀ a b, eq a b = true ↔ a = b) :
    ((l.find eq v).operator_eq l.end_ = true ↔ v ∉ l.toList) ∧
    ((l.find_const eq v).operator_eq l.cend = true ↔ v ∉ l.toList) ∧
    (v ∈ l.toList → ∃ k : Nat, l.begin.advance k = .ok (l.find eq v) ∧
      l.cbegin.advance k = .ok (l.find_const eq v) ∧
      (l.find eq v).operator_star = .ok v ∧ (l.find_const eq v).operator_star = .ok v ∧
      l.toList[k]? = some v ∧ ∀ j : Nat, j < k → l.toList[j]? ≠ some v) := by
  have hc : (l.find_const eq v)._curr = (l.find eq v)._curr := by
    simp [find_const, find, cbegin, begin, find_const_loop_eq]
  rcases find_cases eq l v heq with ⟨hnot, hres⟩ | ⟨k, nx, hf, hkv, hbefore, hres⟩
  · refine ⟨?_, ?_, fun hmem => absurd hmem hnot⟩
    · simp [Iterator.operator_eq, end_, hres, hnot]
    · simp [ConstIterator.operator_eq, cend, hc, hres, hnot]
  · have hmem : v ∈ l.toList := (mem_iff_getElem?_eq_some l.toList v).mpr ⟨k, hkv⟩
    refine ⟨?_, ?_, ?_⟩
    · simp [Iterator.operator_eq, end_, hres, hmem]
    · simp [ConstIterator.operator_eq, cend, hc, hres, hmem]
    · intro _
      refine ⟨k, ?_, ?_, ?_, ?_, hkv, hbefore⟩
      · rw [iterator_advance_eq_follow]
        simp only [begin, hf, Except.map]
        congr 1
        cases hfind : l.find eq v with
        | mk p =>
          rw [hfind] at hres
          simp only at hres
          rw [hres]
      · rw [const_iterator_advance_eq_follow]
        simp only [cbegin, hf, Except.map]
        congr 1
        cases hfind : l.find_const eq v with
        | mk p =>
          rw [hfind] at hc
          simp only at hc
          rw [hc, hres]
      · simp [Iterator.operator_star, hres, NodePtr.data]
      · simp [ConstIterator.operator_star, hc, hres, NodePtr.data]

/-- C12, at the list `[4, 7, 7]` with `==` on `Nat`: `find(7)` is the cursor one
increment after `begin()`, and `find(5)` equals `end()`. -/
theorem find_spec_witness :
    (∃ k : Nat, (mk_of [4, 7, 7]).begin.advance k
        = .ok ((mk_of [4, 7, 7]).find (fun a b => decide (a = b)) 7) ∧
      [4, 7, 7][k]? = some 7 ∧ ∀ j : Nat, j < k → [4, 7, 7][j]? ≠ some 7) ∧
    ((mk_of [4, 7, 7]).find (fun a b => decide (a = b)) 5).operator_eq
      (mk_of [4, 7, 7]).end_ = true := by
  have h7 := find_spec (fun a b : Nat => decide (a = b)) (mk_of [4, 7, 7]) 7
    (by intro a b; simp)
  have h5 := find_spec (fun a b : Nat => decide (a = b)) (mk_of [4, 7, 7]) 5
    (by intro a b; simp)
  obtain ⟨k, hadv, _, _, _, hkv, hbefore⟩ := h7.2.2 (by simp)
  exact ⟨⟨k, hadv, by simpa using hkv, by simpa using hbefore⟩, h5.1.mpr (by simp)⟩

end LinkedList

namespace LinkedList

variable {α : Type}

open NodePtr

/-- C13: on a well-formed list, the read-only cursor reached from `cbegin()` by
`k < size()` increments differs from `cend()` and dereferences to the result of
indexed access `[k]`; after `size()` increments the cursor equals `cend()`, so
iteration visits exactly `size()` elements; `begin()` equals `end()` exactly
when the list is empty. -/
theorem iteration_spec [DecidableEq α] (l : LinkedList α) (hwf : l.WF) :
    (∀ k : Nat, (k : Int) < l.size → ∃ it : ConstIterator α,
        l.cbegin.advance k = .ok it ∧ it.operator_ne l.cend = true ∧
        it.operator_star = l.operator_index (k : Int) ∧
        ∃ x, l.toList[k]? = some x ∧ it.operator_star = .ok x) ∧
    (∃ it : ConstIterator α, l.cbegin.advance l.size.toNat = .ok it ∧
        it.operator_eq l.cend = true) ∧
    (l.begin.operator_eq l.end_ = true ↔ l.size = 0) ∧
    (l.cbegin.operator_eq l.cend = true ↔ l.size = 0) ∧
    (l.begin.operator_eq l.end_ = true ↔ l.empty = true) := by
  rw [eq_mk_of_of_WF l hwf]
  generalize l.toList = xs
  have hhead : (mk_of xs)._head = ofList xs := rfl
  refine ⟨?_, ?_, ?_, ?_, ?_⟩
  · intro k hk
    have hk' : k < xs.length := by simpa using hk
    refine ⟨⟨ofList (xs.drop k)⟩, ?_, ?_, ?_, xs.get ⟨k, hk'⟩, ?_, ?_⟩
    · rw [const_iterator_advance_eq_follow]
      simp only [cbegin, hhead, follow_ofList xs k (le_of_lt hk'), Except.map]
    · simp only [ConstIterator.operator_ne, ConstIterator.operator_eq, cend]
      rw [List.drop_eq_getElem_cons hk']
      simp [ofList]
    · simp only [ConstIterator.operator_star]
      rw [data_ofList_drop xs k hk', operator_index_mk_of xs k hk']
    · simp [toList_mk_of, List.getElem?_eq_getElem hk']
    · simp only [ConstIterator.operator_star]
      exact data_ofList_drop xs k hk'
  · refine ⟨⟨nullptr⟩, ?_, by simp [ConstIterator.operator_eq, cend]⟩
    have hn : (mk_of xs).size.toNat = xs.length := by simp
    rw [hn, const_iterator_advance_eq_follow]
    simp only [cbegin, hhead, follow_ofList xs xs.length (le_refl _), Except.map]
    simp [ofList]
  · cases xs with
    | nil => simp [Iterator.operator_eq, begin, end_, mk_of, ofList, size]
    | cons x xs =>
      simp only [Iterator.operator_eq, begin, end_, mk_of, ofList, size, List.length_cons]
      simp
      omega
  · cases xs with
    | nil => simp [ConstIterator.operator_eq, cbegin, cend, mk_of, ofList, size]
    | cons x xs =>
      simp only [ConstIterator.operator_eq, cbegin, cend, mk_of, ofList, size,
        List.length_cons]
      simp
      omega
  · cases xs <;> simp [Iterator.operator_eq, begin, end_, mk_of, ofList, empty]

/-- C13, at the list `[5, 6, 7]`: one increment after `cbegin()` the cursor
dereferences to `6`, and after three increments it equals `cend()`. -/
theorem iteration_spec_witness :
    (∃ it : ConstIterator Nat, (mk_of [5, 6, 7]).cbegin.advance 1 = .ok it ∧
      it.operator_star = .ok 6) ∧
    (∃ it : ConstIterator Nat, (mk_of [5, 6, 7]).cbegin.advance 3 = .ok it ∧
      it.operator_eq (mk_of [5, 6, 7]).cend = true) := by
  have h := iteration_spec (mk_of [5, 6, 7]) (WF_mk_of _)
  obtain ⟨it, hadv, _, _, x, hx, hstar⟩ := h.1 1 (by decide)
  have hx6 : x = 6 := by simpa using hx.symm
  subst hx6
  exact ⟨⟨it, hadv, hstar⟩, h.2.1⟩

end LinkedList

/-! The claims on construction by move and on the end operations -/

namespace LinkedList

variable {α : Type}

open NodePtr

/-- C15: move construction from a list `src` gives the destination the sequence
and the `size()` of `src`, and leaves `src` in the state of a freshly
constructed list: `size() == 0`, `empty()` true, no elements. -/
theorem move_ctor_spec (src : LinkedList α) :
    (move_ctor src).1.toList = src.toList ∧ (move_ctor src).1.size = src.size ∧
    (move_ctor src).1 = src ∧
    (move_ctor src).2.size = 0 ∧ (move_ctor src).2.empty = true ∧
    (move_ctor src).2.toList = [] ∧ (move_ctor src).2 = init ∧ (move_ctor src).2.WF := by
  refine ⟨rfl, rfl, rfl, rfl, rfl, rfl, rfl, ?_⟩
  simp [move_ctor, WF, toList, NodePtr.toList]

/-- C16: on a well-formed list, `insert(0, v)` returns with the list that
`push_front(v)` produces, and `insert(size(), v)` has the result of
`push_back(v)`, which returns with `v` appended. -/
theorem insert_ends_spec (l : LinkedList α) (v : α) (hwf : l.WF) :
    l.insert 0 v = .ok (l.push_front v) ∧
    l.insert l.size v = l.push_back v ∧
    (l.push_front v).toList = v :: l.toList ∧
    (∃ l', l.push_back v = .ok l' ∧ l'.toList = l.toList ++ [v] ∧ l'.size = l.size + 1) := by
  rw [eq_mk_of_of_WF l hwf]
  generalize l.toList = xs
  have hlen : (mk_of xs)._length = (xs.length : Int) := rfl
  refine ⟨?_, ?_, ?_, ?_⟩
  · have hc : ¬ ((0 : Int) < 0 ∨ (0 : Int) > (xs.length : Int)) := by omega
    simp [insert, hlen, hc]
  · cases xs with
    | nil => rfl
    | cons x xs =>
      have hlen2 : (mk_of (x :: xs))._length = ((x :: xs).length : Int) := rfl
      have hc : ¬ (((x :: xs).length : Int) < 0 ∨
          ((x :: xs).length : Int) > ((x :: xs).length : Int)) := by omega
      have hne : ¬ (((x :: xs).length : Int) = 0) := by
        simp only [List.length_cons]
        omega
      simp only [insert, size, hlen2, hc, hne, if_false, if_true]
  · simp [push_front_mk_of]
  · refine ⟨mk_of (xs ++ [v]), push_back_mk_of xs v, by simp, ?_⟩
    simp only [size_mk_of, List.length_append, List.length_singleton]
    omega

/-- C16, at the list `[1, 2]`: `insert(0, 9)` gives `[9, 1, 2]` and
`insert(2, 9)` gives `[1, 2, 9]`. -/
theorem insert_ends_spec_witness :
    (mk_of [1, 2]).insert 0 9 = .ok ((mk_of [1, 2]).push_front 9) ∧
    ((mk_of [1, 2]).push_front 9).toList = [9, 1, 2] ∧
    (mk_of [1, 2]).insert 2 9 = (mk_of [1, 2]).push_back 9 := by
  have h := insert_ends_spec (mk_of [1, 2]) 9 (WF_mk_of _)
  exact ⟨h.1, by simpa using h.2.2.1, h.2.1⟩

/-- C17, the code at the failing input: on the freshly constructed empty list
`erase(0)` throws `std::out_of_range` while `pop_front()` throws
`std::logic_error`; on every well-formed non-empty list the two calls have the
same result. -/
theorem erase_zero_pop_front_init :
    (init : LinkedList Nat).erase 0 = .error .out_of_range ∧
    (init : LinkedList Nat).pop_front = .error .logic_error ∧
    (init : LinkedList Nat).erase 0 ≠ (init : LinkedList Nat).pop_front ∧
    (∀ l : LinkedList Nat, l.WF → l.toList ≠ [] → l.erase 0 = l.pop_front) := by
  refine ⟨rfl, rfl, ?_, ?_⟩
  · intro h
    have h1 : (init : LinkedList Nat).erase 0 = .error .out_of_range := rfl
    have h2 : (init : LinkedList Nat).pop_front = .error .logic_error := rfl
    rw [h1, h2] at h
    cases h
  intro l hwf hne
  rw [eq_mk_of_of_WF l hwf] at hne ⊢
  generalize l.toList = xs at hne ⊢
  cases xs with
  | nil => simp at hne
  | cons x xs =>
    have h : (mk_of (x :: xs)).erase ((0 : Nat) : Int) = .ok (mk_of ((x :: xs).eraseIdx 0)) :=
      erase_mk_of (x :: xs) 0 (by simp)
    rw [pop_front_mk_of_cons]
    simpa using h

/-- C18: on a well-formed list with sequence `xs`, after `push_front(v)` the
sequence is `v` followed by `xs`: the element at index `0` and `front()` are
`v`, the element formerly at index `j` is at index `j + 1`, and `size()` has
grown by one. -/
theorem push_front_spec (l : LinkedList α) (v : α) (hwf : l.WF) :
    (l.push_front v).toList = v :: l.toList ∧
    (l.push_front v).size = l.size + 1 ∧
    (l.push_front v).WF ∧
    (l.push_front v).operator_index 0 = .ok v ∧
    (l.push_front v).front = .ok v ∧
    (∀ j : Int, 0 ≤ j → j < l.size →
      (l.push_front v).operator_index (j + 1) = l.operator_index j) := by
  rw [eq_mk_of_of_WF l hwf]
  generalize l.toList = xs
  rw [push_front_mk_of]
  refine ⟨by simp, ?_, WF_mk_of _, ?_, front_mk_of_cons v xs, ?_⟩
  · simp only [size_mk_of, List.length_cons]
    push_cast
    rfl
  · exact operator_index_mk_of (v :: xs) 0 (by simp)
  · intro j hj0 hj1
    obtain ⟨m, rfl⟩ := Int.eq_ofNat_of_zero_le hj0
    have hm : m < xs.length := by simpa using hj1
    apply operator_index_congr
    · omega
    · simp only [List.length_cons]
      omega
    · exact hj0
    · omega
    · have ht : ((m : Int) + 1).toNat = m + 1 := by omega
      simp [ht]

/-- C18, at the list `[1, 2, 3]`: `push_front(0)` gives `[0, 1, 2, 3]` with `0`
at index `0`. -/
theorem push_front_spec_witness :
    ((mk_of [1, 2, 3]).push_front 0).toList = [0, 1, 2, 3] ∧
    ((mk_of [1, 2, 3]).push_front 0).operator_index 0 = .ok 0 ∧
    ((mk_of [1, 2, 3]).push_front 0).size = 4 := by
  have h := push_front_spec (mk_of [1, 2, 3]) 0 (WF_mk_of _)
  exact ⟨by simpa using h.1, h.2.2.2.1, by simpa using h.2.1⟩

end LinkedList

/-! Lemmas on calls as transitions and on the invariant -/

namespace LinkedList

variable {α : Type}

open NodePtr

theorem operator_index_call_eq (l : LinkedList α) (index : Int) :
    l.operator_index_call index = (l.operator_index index, l) := by
  simp only [operator_index_call, operator_index]
  split <;> rfl

theorem front_call_eq (l : LinkedList α) : l.front_call = (l.front, l) := by
  simp only [front_call, front]
  split <;> rfl

theorem back_call_eq (l : LinkedList α) : l.back_call = (l.back, l) := by
  simp only [back_call, back]
  split
  · rfl
  · split <;> rfl

theorem push_back_call_eq (l : LinkedList α) (d : α) :
    l.push_back_call d =
      match l.push_back d with
      | .ok l' => (.ok (), l')
      | .error e => (.error e, l) := by
  simp only [push_back_call, push_back]
  cases l.lastNodePtr with
  | none => rfl
  | some last =>
    simp only
    cases l._head.setNext last (node d nullptr) <;> rfl

theorem insert_call_eq (l : LinkedList α) (index : Int) (d : α) :
    l.insert_call index d =
      match l.insert index d with
      | .ok l' => (.ok (), l')
      | .error e => (.error e, l) := by
  simp only [insert_call, insert]
  split
  · rfl
  · split
    · rfl
    · split
      · exact push_back_call_eq l d
      · cases hf : (l._head.follow (index - 1).toNat).bind next with
        | error e => rfl
        | ok currNext =>
          simp only [Except.bind]
          cases l._head.setNext (index - 1).toNat (node d currNext) <;> rfl

theorem pop_front_call_eq (l : LinkedList α) :
    l.pop_front_call =
      match l.pop_front with
      | .ok l' => (.ok (), l')
      | .error e => (.error e, l) := by
  simp only [pop_front_call, pop_front, checkEmptyOrSingle_call, checkEmptyOrSingle]
  by_cases he : l.empty = true
  · simp [he, Except.bind]
  · by_cases h1 : l._length = 1
    · simp [he, h1, Except.bind]
    · simp only [he, h1, if_false, Except.bind, Bool.false_eq_true]
      cases l._head.next <;> rfl

theorem pop_back_call_eq (l : LinkedList α) :
    l.pop_back_call =
      match l.pop_back with
      | .ok l' => (.ok (), l')
      | .error e => (.error e, l) := by
  simp only [pop_back_call, pop_back, checkEmptyOrSingle_call, checkEmptyOrSingle]
  by_cases he : l.empty = true
  · simp [he, Except.bind]
  · by_cases h1 : l._length = 1
    · simp [he, h1, Except.bind]
    · simp only [he, h1, if_false, Except.bind, Bool.false_eq_true]
      cases walkToSecondLast l._head 0 with
      | error e => rfl
      | ok curr =>
        simp only
        cases l._head.setNext curr nullptr <;> rfl

theorem erase_call_eq (l : LinkedList α) (index : Int) :
    l.erase_call index =
      match l.erase index with
      | .ok l' => (.ok (), l')
      | .error e => (.error e, l) := by
  simp only [erase_call, erase]
  split
  · rfl
  · split
    · rfl
    · split
      · exact pop_front_call_eq l
      · cases hf : (l._head.follow index.toNat).bind next with
        | error e => rfl
        | ok targetNext =>
          simp only [Except.bind]
          cases l._head.setNext (index.toNat - 1) targetNext <;> rfl

end LinkedList

namespace LinkedList

variable {α : Type}

open NodePtr

theorem Inv_of_WF (l : LinkedList α) (h : l.WF) : l.Inv := by
  refine ⟨h, ?_⟩
  cases l with
  | mk hd len =>
    simp only [WF, toList] at h
    cases hd with
    | nullptr => simp [h, NodePtr.toList]
    | node d nx =>
      simp only [h, NodePtr.toList, List.length_cons]
      constructor
      · intro hc
        cases hc
      · intro hc
        omega

theorem WF_of_Inv (l : LinkedList α) (h : l.Inv) : l.WF := h.1

theorem Inv_mk_of (xs : List α) : (mk_of xs).Inv := Inv_of_WF _ (WF_mk_of xs)

theorem clean_eq (l : LinkedList α) : l.clean = mk_of [] := rfl

theorem copy_loop_mk_of (xs : List α) (p : NodePtr α) :
    copy_loop (mk_of xs) p = .ok (mk_of (xs ++ p.toList)) := by
  induction p generalizing xs with
  | nullptr => simp [copy_loop, NodePtr.toList]
  | node d nx ih =>
    simp only [copy_loop, push_back_mk_of, Except.bind, ih, NodePtr.toList]
    simp

theorem copy_ctor_eq (other : LinkedList α) :
    copy_ctor other = .ok (mk_of other.toList) := by
  have h := copy_loop_mk_of ([] : List α) other._head
  simpa [copy_ctor, toList, mk_of, ofList] using h

theorem copy_assign_some_eq (l o : LinkedList α) :
    copy_assign l (some o) = .ok (mk_of o.toList) := by
  have h := copy_loop_mk_of ([] : List α) o._head
  simpa [copy_assign, clean_eq, toList] using h

theorem insert_mk_of_cases (xs : List α) (index : Int) (v : α) :
    (∃ ys, (mk_of xs).insert index v = .ok (mk_of ys)) ∨
    (mk_of xs).insert index v = .error .out_of_range := by
  by_cases hc : index < 0 ∨ index > (mk_of xs)._length
  · right
    simp [insert, hc]
  · left
    have hlen : (mk_of xs)._length = (xs.length : Int) := rfl
    rw [hlen] at hc
    have h0 : 0 ≤ index := by omega
    obtain ⟨k, rfl⟩ := Int.eq_ofNat_of_zero_le h0
    exact ⟨_, insert_mk_of xs k v (by omega)⟩

theorem erase_mk_of_cases (xs : List α) (index : Int) :
    (∃ ys, (mk_of xs).erase index = .ok (mk_of ys)) ∨
    (mk_of xs).erase index = .error .out_of_range := by
  by_cases hc : index < 0 ∨ index ≥ (mk_of xs)._length
  · right
    simp [erase, hc]
  · left
    have hlen : (mk_of xs)._length = (xs.length : Int) := rfl
    rw [hlen] at hc
    have h0 : 0 ≤ index := by omega
    obtain ⟨k, rfl⟩ := Int.eq_ofNat_of_zero_le h0
    exact ⟨_, erase_mk_of xs k (by omega)⟩

theorem pop_front_mk_of_cases (xs : List α) :
    (∃ ys, (mk_of xs).pop_front = .ok (mk_of ys)) ∨
    (mk_of xs).pop_front = .error .logic_error := by
  cases xs with
  | nil => right; rfl
  | cons x xs => left; exact ⟨xs, pop_front_mk_of_cons x xs⟩

theorem pop_back_mk_of_cases (xs : List α) :
    (∃ ys, (mk_of xs).pop_back = .ok (mk_of ys)) ∨
    (mk_of xs).pop_back = .error .logic_error := by
  cases xs with
  | nil => right; rfl
  | cons x xs => left; exact ⟨_, pop_back_mk_of (x :: xs) (by simp)⟩

theorem push_back_call_mk_of (xs : List α) (v : α) :
    (mk_of xs).push_back_call v = (.ok (), mk_of (xs ++ [v])) := by
  rw [push_back_call_eq, push_back_mk_of]

theorem insert_call_state (xs : List α) (index : Int) (v : α) :
    ∃ ys, ((mk_of xs).insert_call index v).2 = mk_of ys := by
  rw [insert_call_eq]
  rcases insert_mk_of_cases xs index v with ⟨ys, h⟩ | h
  · exact ⟨ys, by rw [h]⟩
  · exact ⟨xs, by rw [h]⟩

theorem erase_call_state (xs : List α) (index : Int) :
    ∃ ys, ((mk_of xs).erase_call index).2 = mk_of ys := by
  rw [erase_call_eq]
  rcases erase_mk_of_cases xs index with ⟨ys, h⟩ | h
  · exact ⟨ys, by rw [h]⟩
  · exact ⟨xs, by rw [h]⟩

theorem pop_front_call_state (xs : List α) :
    ∃ ys, (mk_of xs).pop_front_call.2 = mk_of ys := by
  rw [pop_front_call_eq]
  rcases pop_front_mk_of_cases xs with ⟨ys, h⟩ | h
  · exact ⟨ys, by rw [h]⟩
  · exact ⟨xs, by rw [h]⟩

theorem pop_back_call_state (xs : List α) :
    ∃ ys, (mk_of xs).pop_back_call.2 = mk_of ys := by
  rw [pop_back_call_eq]
  rcases pop_back_mk_of_cases xs with ⟨ys, h⟩ | h
  · exact ⟨ys, by rw [h]⟩
  · exact ⟨xs, by rw [h]⟩

theorem exists_mk_of_of_Inv (l : LinkedList α) (h : l.Inv) : ∃ xs, l = mk_of xs :=
  ⟨l.toList, eq_mk_of_of_WF l h.1⟩

theorem Inv_of_Reachable (l : LinkedList α) (h : Reachable l) : l.Inv := by
  induction h with
  | init => exact Inv_mk_of []
  | push_front l v _ ih =>
    obtain ⟨xs, rfl⟩ := exists_mk_of_of_Inv l ih
    rw [push_front_mk_of]
    exact Inv_mk_of _
  | push_back l v _ ih =>
    obtain ⟨xs, rfl⟩ := exists_mk_of_of_Inv l ih
    rw [push_back_call_mk_of]
    exact Inv_mk_of _
  | insert l index v _ ih =>
    obtain ⟨xs, rfl⟩ := exists_mk_of_of_Inv l ih
    obtain ⟨ys, hys⟩ := insert_call_state xs index v
    rw [hys]
    exact Inv_mk_of _
  | pop_front l _ ih =>
    obtain ⟨xs, rfl⟩ := exists_mk_of_of_Inv l ih
    obtain ⟨ys, hys⟩ := pop_front_call_state xs
    rw [hys]
    exact Inv_mk_of _
  | pop_back l _ ih =>
    obtain ⟨xs, rfl⟩ := exists_mk_of_of_Inv l ih
    obtain ⟨ys, hys⟩ := pop_back_call_state xs
    rw [hys]
    exact Inv_mk_of _
  | erase l index _ ih =>
    obtain ⟨xs, rfl⟩ := exists_mk_of_of_Inv l ih
    obtain ⟨ys, hys⟩ := erase_call_state xs index
    rw [hys]
    exact Inv_mk_of _
  | clean l _ _ => exact Inv_mk_of []
  | copy_ctor other c _ hc _ =>
    rw [copy_ctor_eq] at hc
    cases hc
    exact Inv_mk_of _
  | copy_assign l o c _ _ hc _ _ =>
    rw [copy_assign_some_eq] at hc
    cases hc
    exact Inv_mk_of _
  | copy_assign_self l c _ hc ih =>
    simp only [copy_assign] at hc
    cases hc
    exact ih
  | move_ctor other _ ih => exact ih
  | move_ctor_source other _ _ => exact Inv_mk_of []
  | move_assign l o _ _ _ iho => exact iho
  | move_assign_source l o s _ _ hs _ _ =>
    simp only [move_assign] at hs
    cases hs
    exact Inv_mk_of []
  | move_assign_self l _ ih => exact ih

theorem empty_iff_size_of_Inv (l : LinkedList α) (h : l.Inv) :
    l.empty = true ↔ l.size = 0 := by
  rw [empty_eq_true_iff]
  exact (size_eq_zero_iff_of_WF l h.1).symm

end LinkedList

/-! The claims on the invariant and on failing calls -/

namespace LinkedList

variable {α : Type}

open NodePtr

/-- C19: the invariant (`_length` is the number of nodes reachable from `_head`,
and `_head` is `nullptr` exactly when `_length` is `0`) holds for the freshly
constructed list and, from a list satisfying it, for the list after
`push_front`, `push_back`, `insert`, `pop_front`, `pop_back`, `erase` (each left
by `return` or by `throw`), `clean`, and for the lists that copy and move
construction and assignment produce and leave; hence on every list reachable
from the empty list `empty()` is true exactly when `size() == 0`. -/
theorem invariant_spec :
    Inv (init : LinkedList α) ∧
    (∀ l : LinkedList α, Inv l →
      (∀ v, Inv (l.push_front v)) ∧
      (∀ v, (l.push_back_call v).1 = .ok () ∧ Inv (l.push_back_call v).2) ∧
      (∀ index v, Inv (l.insert_call index v).2) ∧
      Inv l.pop_front_call.2 ∧
      Inv l.pop_back_call.2 ∧
      (∀ index, Inv (l.erase_call index).2) ∧
      Inv l.clean ∧
      (∃ c, copy_ctor l = .ok c ∧ Inv c) ∧
      (∀ o, Inv o → ∃ c, copy_assign l (some o) = .ok c ∧ Inv c) ∧
      copy_assign l none = .ok l ∧
      Inv (move_ctor l).1 ∧ Inv (move_ctor l).2 ∧
      (∀ o, Inv o → Inv (move_assign l (some o)).1 ∧
        ∃ s, (move_assign l (some o)).2 = some s ∧ Inv s) ∧
      (move_assign l none).1 = l ∧
      (l.empty = true ↔ l.size = 0)) ∧
    (∀ l : LinkedList α, Reachable l → Inv l ∧ (l.empty = true ↔ l.size = 0)) := by
  refine ⟨Inv_mk_of [], ?_, ?_⟩
  · intro l hl
    have hempty := empty_iff_size_of_Inv l hl
    obtain ⟨xs, rfl⟩ := exists_mk_of_of_Inv l hl
    refine ⟨?_, ?_, ?_, ?_, ?_, ?_, Inv_mk_of [], ?_, ?_, rfl, hl, Inv_mk_of [], ?_, rfl,
      hempty⟩
    · intro v
      rw [push_front_mk_of]
      exact Inv_mk_of _
    · intro v
      rw [push_back_call_mk_of]
      exact ⟨rfl, Inv_mk_of _⟩
    · intro index v
      obtain ⟨ys, hys⟩ := insert_call_state xs index v
      rw [hys]
      exact Inv_mk_of _
    · obtain ⟨ys, hys⟩ := pop_front_call_state xs
      rw [hys]
      exact Inv_mk_of _
    · obtain ⟨ys, hys⟩ := pop_back_call_state xs
      rw [hys]
      exact Inv_mk_of _
    · intro index
      obtain ⟨ys, hys⟩ := erase_call_state xs index
      rw [hys]
      exact Inv_mk_of _
    · exact ⟨_, copy_ctor_eq _, Inv_mk_of _⟩
    · intro o _
      exact ⟨_, copy_assign_some_eq _ o, Inv_mk_of _⟩
    · intro o ho
      exact ⟨ho, _, rfl, Inv_mk_of []⟩
  · intro l hl
    have hinv := Inv_of_Reachable l hl
    exact ⟨hinv, empty_iff_size_of_Inv l hinv⟩

theorem call_state_of_error (l : LinkedList α) (e : Exn) :
    (∀ index, (l.operator_index_call index).1 = .error e →
      (l.operator_index_call index).2 = l) ∧
    (∀ index v, (l.insert_call index v).1 = .error e → (l.insert_call index v).2 = l) ∧
    (∀ index, (l.erase_call index).1 = .error e → (l.erase_call index).2 = l) ∧
    (l.front_call.1 = .error e → l.front_call.2 = l) ∧
    (l.back_call.1 = .error e → l.back_call.2 = l) ∧
    (l.pop_front_call.1 = .error e → l.pop_front_call.2 = l) ∧
    (l.pop_back_call.1 = .error e → l.pop_back_call.2 = l) := by
  refine ⟨?_, ?_, ?_, ?_, ?_, ?_, ?_⟩
  · intro index _
    rw [operator_index_call_eq]
  · intro index v h
    rw [insert_call_eq] at h ⊢
    cases hi : l.insert index v with
    | error e' => rfl
    | ok l' =>
      rw [hi] at h
      cases h
  · intro index h
    rw [erase_call_eq] at h ⊢
    cases hi : l.erase index with
    | error e' => rfl
    | ok l' =>
      rw [hi] at h
      cases h
  · intro _
    rw [front_call_eq]
  · intro _
    rw [back_call_eq]
  · intro h
    rw [pop_front_call_eq] at h ⊢
    cases hi : l.pop_front with
    | error e' => rfl
    | ok l' =>
      rw [hi] at h
      cases h
  · intro h
    rw [pop_back_call_eq] at h ⊢
    cases hi : l.pop_back with
    | error e' => rfl
    | ok l' =>
      rw [hi] at h
      cases h

/-- C20: a call of `operator[]`, `insert`, `erase`, `front`, `back`, `pop_front`
or `pop_back` that is left by `std::out_of_range` or by `std::logic_error`
leaves `*this` as it was before the call: the same chain of nodes and the same
`_length`. -/
theorem failing_call_spec (l : LinkedList α) (e : Exn)
    (he : e = .out_of_range ∨ e = .logic_error) :
    (∀ index, (l.operator_index_call index).1 = .error e →
      (l.operator_index_call index).2 = l) ∧
    (∀ index v, (l.insert_call index v).1 = .error e → (l.insert_call index v).2 = l) ∧
    (∀ index, (l.erase_call index).1 = .error e → (l.erase_call index).2 = l) ∧
    (l.front_call.1 = .error e → l.front_call.2 = l) ∧
    (l.back_call.1 = .error e → l.back_call.2 = l) ∧
    (l.pop_front_call.1 = .error e → l.pop_front_call.2 = l) ∧
    (l.pop_back_call.1 = .error e → l.pop_back_call.2 = l) := by
  rcases he with rfl | rfl
  · exact call_state_of_error l .out_of_range
  · exact call_state_of_error l .logic_error

/-- C20, at the list `[1, 2]`: `insert(5, 9)` and `erase(2)` throw
`std::out_of_range` and leave the list `[1, 2]` with `size() == 2`. -/
theorem failing_call_spec_witness :
    ((mk_of [1, 2]).insert_call 5 9).1 = .error .out_of_range ∧
    ((mk_of [1, 2]).insert_call 5 9).2 = mk_of [1, 2] ∧
    ((mk_of [1, 2]).erase_call 2).1 = .error .out_of_range ∧
    ((mk_of [1, 2]).erase_call 2).2 = mk_of [1, 2] := by
  have h := failing_call_spec (mk_of [1, 2]) .out_of_range (Or.inl rfl)
  exact ⟨rfl, h.2.1 5 9 rfl, rfl, h.2.2.1 2 rfl⟩

end LinkedList

/-! Lemmas on the free store -/

namespace Mem

variable {α : Type}

theorem heap_get_of_le (h : Heap α) (a : Nat) (ha : h.cells.length ≤ a) : h.get a = none := by
  simp [Heap.get, List.getD, List.getElem?_eq_none ha]

theorem heap_lt_of_get (h : Heap α) (a : Nat) (n : Node α) (hg : h.get a = some n) :
    a < h.cells.length := by
  by_contra hc
  rw [heap_get_of_le h a (by omega)] at hg
  cases hg

theorem heap_get_set_eq (h : Heap α) (a : Nat) (v : Option (Node α))
    (ha : a < h.cells.length) : (Heap.mk (h.cells.set a v)).get a = v := by
  simp [Heap.get, List.getD, List.getElem?_set, ha]

theorem heap_get_set_ne (h : Heap α) (a b : Nat) (v : Option (Node α)) (hab : a ≠ b) :
    (Heap.mk (h.cells.set a v)).get b = h.get b := by
  simp [Heap.get, List.getD, List.getElem?_set, hab]

theorem heap_get_new_old (h : Heap α) (n : Node α) (a : Nat) (ha : a < h.cells.length) :
    (h.new n).2.get a = h.get a := by
  simp [Heap.get, Heap.new, List.getD, List.getElem?_append_left ha]

theorem heap_get_new_self (h : Heap α) (n : Node α) :
    (h.new n).2.get h.cells.length = some n := by
  simp [Heap.get, Heap.new, List.getD]

theorem seg_congr (h h' : Heap α) (p q : Option Nat) (cs : List (Nat × α))
    (hsame : ∀ c ∈ cs, h'.get c.1 = h.get c.1) (hs : Seg h p cs q) : Seg h' p cs q := by
  induction cs generalizing p with
  | nil => exact hs
  | cons c cs ih =>
    obtain ⟨hp, nx, hg, hrest⟩ := hs
    refine ⟨hp, nx, ?_, ih nx (fun d hd => hsame d (List.mem_cons_of_mem _ hd)) hrest⟩
    rw [hsame c (List.mem_cons_self _ _)]
    exact hg

theorem seg_append (h : Heap α) (p q : Option Nat) (cs ds : List (Nat × α)) :
    Seg h p (cs ++ ds) q ↔ ∃ m, Seg h p cs m ∧ Seg h m ds q := by
  induction cs generalizing p with
  | nil =>
    constructor
    · intro hs
      exact ⟨p, rfl, hs⟩
    · rintro ⟨m, hm, hs⟩
      have hpm : p = m := hm
      rw [hpm]
      exact hs
  | cons c cs ih =>
    constructor
    · rintro ⟨hp, nx, hg, hrest⟩
      obtain ⟨m, h1, h2⟩ := (ih nx).mp hrest
      exact ⟨m, ⟨hp, nx, hg, h1⟩, h2⟩
    · rintro ⟨m, ⟨hp, nx, hg, h1⟩, h2⟩
      exact ⟨hp, nx, hg, (ih nx).mpr ⟨m, h1, h2⟩⟩

theorem chain_unique (h : Heap α) (p : Option Nat) (cs ds : List (Nat × α))
    (hc : Chain h p cs) (hd : Chain h p ds) : cs = ds := by
  induction cs generalizing p ds with
  | nil =>
    have hp : p = none := hc
    cases ds with
    | nil => rfl
    | cons d ds =>
      obtain ⟨hp', _⟩ := hd
      rw [hp] at hp'
      cases hp'
  | cons c cs ih =>
    obtain ⟨hp, nx, hg, hrest⟩ := hc
    cases ds with
    | nil =>
      have hp' : p = none := hd
      rw [hp] at hp'
      cases hp'
    | cons d ds =>
      obtain ⟨hp', nx', hg', hrest'⟩ := hd
      have h1 : c.1 = d.1 := by
        rw [hp] at hp'
        injection hp'
      rw [← h1, hg] at hg'
      have h2 : c.2 = d.2 ∧ nx = nx' := by
        injection hg' with hn
        injection hn with ha hb
        exact ⟨ha, hb⟩
      have h3 : c = d := Prod.ext h1 h2.1
      rw [h3, ih nx ds hrest (h2.2 ▸ hrest')]

theorem chain_nodup (h : Heap α) (p : Option Nat) (cs : List (Nat × α))
    (hc : Chain h p cs) : (cs.map Prod.fst).Nodup := by
  induction cs generalizing p with
  | nil => simp
  | cons c cs ih =>
    obtain ⟨hp, nx, hg, hrest⟩ := hc
    rw [List.map_cons, List.nodup_cons]
    refine ⟨?_, ih nx hrest⟩
    intro hmem
    obtain ⟨d, hd, hd1⟩ := List.mem_map.mp hmem
    obtain ⟨l1, l2, hsplit⟩ := List.append_of_mem hd
    rw [hsplit] at hrest
    obtain ⟨m, _, hm2⟩ := (seg_append h nx none l1 (d :: l2)).mp hrest
    have hm2' := hm2
    obtain ⟨hm, _⟩ := hm2
    have hchain1 : Chain h (some c.1) (d :: l2) := by
      rw [← hd1, ← hm]
      exact hm2'
    have hchain2 : Chain h (some c.1) (c :: (l1 ++ d :: l2)) :=
      ⟨rfl, nx, hg, (seg_append h nx none l1 (d :: l2)).mpr ⟨m, ‹_›, hm2'⟩⟩
    have heq := chain_unique h (some c.1) _ _ hchain1 hchain2
    have hlen := congrArg List.length heq
    simp at hlen
    omega

theorem seg_alive (h : Heap α) (p q : Option Nat) (cs : List (Nat × α)) (hs : Seg h p cs q) :
    ∀ c ∈ cs, c.1 < h.cells.length := by
  induction cs generalizing p with
  | nil => simp
  | cons c cs ih =>
    obtain ⟨hp, nx, hg, hrest⟩ := hs
    intro d hd
    rcases List.mem_cons.mp hd with rfl | hd
    · exact heap_lt_of_get h _ _ hg
    · exact ih nx hrest d hd

theorem chain_length_le (h : Heap α) (p : Option Nat) (cs : List (Nat × α))
    (hc : Chain h p cs) : cs.length ≤ h.cells.length := by
  have hnd := chain_nodup h p cs hc
  have hlt := seg_alive h p none cs hc
  have hsub : (cs.map Prod.fst).toFinset ⊆ Finset.range h.cells.length := by
    intro a ha
    rw [List.mem_toFinset] at ha
    obtain ⟨c, hcm, rfl⟩ := List.mem_map.mp ha
    exact Finset.mem_range.mpr (hlt c hcm)
  have hcard := Finset.card_le_card hsub
  rw [List.toFinset_card_of_nodup hnd, Finset.card_range, List.length_map] at hcard
  exact hcard

theorem chain_head (h : Heap α) (p : Option Nat) (cs : List (Nat × α)) (hc : Chain h p cs) :
    p = headPtr cs := by
  cases cs with
  | nil => exact hc
  | cons c cs => exact hc.1

theorem seg_split (h : Heap α) (p : Option Nat) (cs : List (Nat × α)) (k : Nat)
    (hc : Chain h p cs) :
    Seg h p (cs.take k) (headPtr (cs.drop k)) ∧ Chain h (headPtr (cs.drop k)) (cs.drop k) := by
  have hc' : Seg h p (cs.take k ++ cs.drop k) none := by
    rw [List.take_append_drop]
    exact hc
  obtain ⟨m, h1, h2⟩ := (seg_append h p none _ _).mp hc'
  have hm := chain_head h m _ h2
  rw [hm] at h1 h2
  exact ⟨h1, h2⟩

theorem load_of_get (h : Heap α) (a : Nat) (n : Node α) (hg : h.get a = some n) :
    h.load (some a) = .ok n := by
  simp [Heap.load, hg]

theorem walk_seg (h : Heap α) (p q : Option Nat) (cs : List (Nat × α)) (hs : Seg h p cs q) :
    h.walk p cs.length = .ok q := by
  induction cs generalizing p with
  | nil =>
    have hpq : p = q := hs
    rw [hpq]
    rfl
  | cons c cs ih =>
    obtain ⟨hp, nx, hg, hrest⟩ := hs
    rw [hp]
    simp only [List.length_cons, Heap.walk, load_of_get h _ _ hg]
    exact ih nx hrest

theorem walk_chain (h : Heap α) (p : Option Nat) (cs : List (Nat × α)) (k : Nat)
    (hc : Chain h p cs) (hk : k ≤ cs.length) :
    h.walk p k = .ok (headPtr (cs.drop k)) := by
  have h1 := (seg_split h p cs k hc).1
  have h2 := walk_seg h p _ _ h1
  rw [List.length_take, Nat.min_eq_left hk] at h2
  exact h2

theorem headPtr_drop (cs : List (Nat × α)) (k : Nat) (c : Nat × α) (hk : cs[k]? = some c) :
    headPtr (cs.drop k) = some c.1 := by
  obtain ⟨hlt, hc⟩ := List.getElem?_eq_some.mp hk
  rw [List.drop_eq_getElem_cons hlt, hc]
  rfl

theorem chain_get (h : Heap α) (p : Option Nat) (cs : List (Nat × α)) (k : Nat) (c : Nat × α)
    (hc : Chain h p cs) (hk : cs[k]? = some c) :
    h.get c.1 = some ⟨c.2, headPtr (cs.drop (k + 1))⟩ := by
  obtain ⟨hlt, hce⟩ := List.getElem?_eq_some.mp hk
  have h2 := (seg_split h p cs k hc).2
  rw [List.drop_eq_getElem_cons hlt, hce] at h2
  obtain ⟨_, nx, hg, hrest⟩ := h2
  rw [hg, chain_head h nx _ hrest]

theorem lastNodeLoop_chain (h : Heap α) (p : Option Nat) (c : Nat × α) (cs : List (Nat × α))
    (fuel : Nat) (hc : Chain h p (c :: cs)) (hf : cs.length + 1 ≤ fuel) :
    LinkedList.lastNodeLoop h fuel p = .ok (some ((c :: cs).getLast (by simp)).1) := by
  induction cs generalizing p c fuel with
  | nil =>
    obtain ⟨hp, nx, hg, hrest⟩ := hc
    have hnx : nx = none := hrest
    obtain ⟨f, rfl⟩ : ∃ f, fuel = f + 1 := ⟨fuel - 1, by omega⟩
    subst hp hnx
    simp [LinkedList.lastNodeLoop, load_of_get h _ _ hg]
  | cons d ds ih =>
    obtain ⟨hp, nx, hg, hrest⟩ := hc
    have hnx : nx = some d.1 := hrest.1
    obtain ⟨f, rfl⟩ : ∃ f, fuel = f + 1 := ⟨fuel - 1, by omega⟩
    rw [hp]
    simp only [LinkedList.lastNodeLoop, load_of_get h _ _ hg, hnx]
    rw [ih (some d.1) d f (hnx ▸ hrest) (by simpa using hf)]
    simp [List.getLast_cons]

theorem secondLastLoop_chain (h : Heap α) (p : Option Nat) (c d : Nat × α)
    (cs : List (Nat × α)) (fuel : Nat) (hc : Chain h p (c :: d :: cs))
    (hf : cs.length + 1 ≤ fuel) :
    LinkedList.secondLastLoop h fuel p
      = .ok (headPtr ((c :: d :: cs).drop cs.length)) := by
  induction cs generalizing p c d fuel with
  | nil =>
    obtain ⟨hp, nx, hg, hp2, nx2, hg2, hrest⟩ := hc
    have hnx2 : nx2 = none := hrest
    obtain ⟨f, rfl⟩ : ∃ f, fuel = f + 1 := ⟨fuel - 1, by omega⟩
    subst hp hp2 hnx2
    simp [LinkedList.secondLastLoop, load_of_get h _ _ hg, load_of_get h _ _ hg2, headPtr]
  | cons e es ih =>
    obtain ⟨hp, nx, hg, hrest⟩ := hc
    have hrest' := hrest
    obtain ⟨hp2, nx2, hg2, hrest2⟩ := hrest
    have hnx2 : nx2 = some e.1 := hrest2.1
    obtain ⟨f, rfl⟩ : ∃ f, fuel = f + 1 := ⟨fuel - 1, by omega⟩
    rw [hp]
    rw [hp2] at hg hrest'
    rw [hnx2] at hg2
    simp only [LinkedList.secondLastLoop, load_of_get h _ _ hg, load_of_get h _ _ hg2]
    rw [ih (some d.1) d e f hrest' (by simpa using hf)]
    simp

theorem eraseLoop_chain (h : Heap α) (p prev : Option Nat) (cs : List (Nat × α)) (k : Nat)
    (hc : Chain h p cs) (hk : k < cs.length) :
    LinkedList.eraseLoop h prev p (k + 1)
      = .ok (headPtr (cs.drop k), headPtr (cs.drop (k + 1))) := by
  induction k generalizing p prev cs with
  | zero =>
    cases cs with
    | nil => simp at hk
    | cons c cs =>
      obtain ⟨hp, nx, hg, hrest⟩ := hc
      rw [hp]
      simp only [LinkedList.eraseLoop, load_of_get h _ _ hg]
      rw [chain_head h nx cs hrest]
      rfl
  | succ k ih =>
    cases cs with
    | nil => simp at hk
    | cons c cs =>
      obtain ⟨hp, nx, hg, hrest⟩ := hc
      rw [hp]
      rw [LinkedList.eraseLoop]
      simp only [load_of_get h _ _ hg]
      rw [ih nx (some c.1) cs hrest (by simpa using hk)]
      rfl

theorem chain_relink (h h' : Heap α) (p q : Option Nat) (cs ds : List (Nat × α)) (k : Nat)
    (c : Nat × α) (x : α) (hc : Chain h p cs) (hk : cs[k]? = some c)
    (hget : h'.get c.1 = some ⟨x, q⟩)
    (hsame : ∀ d ∈ cs.take k, h'.get d.1 = h.get d.1)
    (hds : Chain h' q ds) : Chain h' p (cs.take k ++ (c.1, x) :: ds) := by
  have h1 := (seg_split h p cs k hc).1
  rw [headPtr_drop cs k c hk] at h1
  have h1' := seg_congr h h' p (some c.1) (cs.take k) hsame h1
  exact (seg_append h' p none _ _).mpr ⟨some c.1, h1', rfl, q, hget, hds⟩

theorem not_mem_take_of_nodup (cs : List (Nat × α)) (k : Nat) (c : Nat × α)
    (hnd : (cs.map Prod.fst).Nodup) (hk : cs[k]? = some c) :
    ∀ d ∈ cs.take k, d.1 ≠ c.1 := by
  intro d hd hdc
  obtain ⟨hlt, hce⟩ := List.getElem?_eq_some.mp hk
  obtain ⟨j, hj, hdj⟩ := List.getElem_of_mem hd
  rw [List.length_take] at hj
  have hjk : j < k := by omega
  have hjl : j < cs.length := by omega
  rw [List.getElem_take] at hdj
  have hinj := (List.nodup_iff_injective_get.mp hnd)
  have h1 : (cs.map Prod.fst).get ⟨j, by simpa using hjl⟩
      = (cs.map Prod.fst).get ⟨k, by simpa using hlt⟩ := by
    simp only [List.get_eq_getElem, List.getElem_map]
    rw [hdj, hce, hdc]
  have h2 := hinj h1
  simp at h2
  omega

theorem setNext_of_get (h : Heap α) (a : Nat) (n : Node α) (q : Option Nat)
    (hg : h.get a = some n) :
    h.setNext (some a) q = .ok ⟨h.cells.set a (some ⟨n._data, q⟩)⟩ := by
  simp [Heap.setNext, hg]

theorem setData_of_get (h : Heap α) (a : Nat) (n : Node α) (d : α)
    (hg : h.get a = some n) :
    h.setData (some a) d = .ok ⟨h.cells.set a (some ⟨d, n._next⟩)⟩ := by
  simp [Heap.setData, hg]

theorem delete_of_get (h : Heap α) (a : Nat) (n : Node α) (hg : h.get a = some n) :
    h.delete (some a) = .ok ⟨h.cells.set a none⟩ := by
  simp [Heap.delete, hg]

theorem mem_map_fst_of_mem (cs : List (Nat × α)) (c : Nat × α) (hc : c ∈ cs) :
    c.1 ∈ cs.map Prod.fst := List.mem_map.mpr ⟨c, hc, rfl⟩

theorem push_front_owns (h : Heap α) (l : LinkedList) (cs : List (Nat × α)) (v : α)
    (ho : Owns h l cs) :
    ∃ h', LinkedList.push_front h l v = (.ok (), h', ⟨some h.cells.length, l._length + 1⟩) ∧
      Owns h' ⟨some h.cells.length, l._length + 1⟩ ((h.cells.length, v) :: cs) ∧
      h'.cells.length = h.cells.length + 1 ∧
      ∀ a, a < h.cells.length → h'.get a = h.get a := by
  obtain ⟨hc, hlen⟩ := ho
  have hnew : (h.new ⟨v, none⟩).2.get h.cells.length = some ⟨v, none⟩ := heap_get_new_self h _
  have hfst : (h.new (⟨v, none⟩ : Node α)).1 = h.cells.length := rfl
  have hl1 : (h.new (⟨v, none⟩ : Node α)).2.cells.length = h.cells.length + 1 := by
    simp [Heap.new]
  refine ⟨⟨(h.new ⟨v, none⟩).2.cells.set h.cells.length (some ⟨v, l._head⟩)⟩, ?_, ⟨?_, ?_⟩, ?_, ?_⟩
  · simp only [LinkedList.push_front, hfst, setNext_of_get _ _ _ _ hnew]
  · have hold : ∀ a, a < h.cells.length →
        (Heap.mk ((h.new ⟨v, none⟩).2.cells.set h.cells.length (some ⟨v, l._head⟩))).get a
          = h.get a := by
      intro a ha
      rw [heap_get_set_ne _ _ _ _ (by omega), heap_get_new_old h _ a ha]
    refine ⟨rfl, l._head, ?_, ?_⟩
    · exact heap_get_set_eq _ _ _ (by omega)
    · exact seg_congr h _ _ _ cs (fun c hc' => hold c.1 (seg_alive h _ _ cs hc c hc')) hc
  · simp only [List.length_cons, hlen]
    push_cast
    rfl
  · simp [hl1]
  · intro a ha
    rw [heap_get_set_ne _ _ _ _ (by omega), heap_get_new_old h _ a ha]

theorem push_back_owns (h : Heap α) (l : LinkedList) (cs : List (Nat × α)) (v : α)
    (ho : Owns h l cs) :
    ∃ h' l', LinkedList.push_back h l v = (.ok (), h', l') ∧
      Owns h' l' (cs ++ [(h.cells.length, v)]) ∧
      h'.cells.length = h.cells.length + 1 ∧
      ∀ a, a < h.cells.length → a ∉ cs.map Prod.fst → h'.get a = h.get a := by
  obtain ⟨hc, hlen⟩ := ho
  have hnew : (h.new ⟨v, none⟩).2.get h.cells.length = some ⟨v, none⟩ := heap_get_new_self h _
  have hfst : (h.new (⟨v, none⟩ : Node α)).1 = h.cells.length := rfl
  have hl1 : (h.new (⟨v, none⟩ : Node α)).2.cells.length = h.cells.length + 1 := by
    simp [Heap.new]
  have halive := seg_alive h _ _ cs hc
  have hc1 : Chain (h.new ⟨v, none⟩).2 l._head cs :=
    seg_congr h _ _ _ cs (fun c hc' => heap_get_new_old h _ c.1 (halive c hc')) hc
  cases cs with
  | nil =>
    have hhead : l._head = none := hc
    refine ⟨(h.new ⟨v, none⟩).2, ⟨some h.cells.length, l._length + 1⟩, ?_, ⟨?_, ?_⟩, hl1, ?_⟩
    · simp [LinkedList.push_back, LinkedList.lastNodePtr, hhead, hfst]
    · exact ⟨rfl, none, hnew, rfl⟩
    · simp [hlen]
    · intro a ha _
      exact heap_get_new_old h _ a ha
  | cons c cs =>
    have hhead : l._head = some c.1 := hc.1
    have hfuel : cs.length + 1 ≤ (h.new (⟨v, none⟩ : Node α)).2.cells.length := by
      have := chain_length_le _ _ _ hc1
      simpa using this
    have hlast := lastNodeLoop_chain _ _ c cs _ hc1 hfuel
    have hk : (c :: cs)[cs.length]? = some ((c :: cs).getLast (by simp)) := by
      rw [List.getLast_eq_getElem]
      simp
    have hgl := chain_get _ _ _ _ _ hc1 hk
    have hdrop : List.drop (cs.length + 1) (c :: cs) = [] := by simp
    rw [hdrop] at hgl
    refine ⟨⟨(h.new ⟨v, none⟩).2.cells.set ((c :: cs).getLast (by simp)).1
        (some ⟨((c :: cs).getLast (by simp)).2, some h.cells.length⟩)⟩,
      ⟨l._head, l._length + 1⟩, ?_, ⟨?_, ?_⟩, ?_, ?_⟩
    · simp only [LinkedList.push_back, LinkedList.lastNodePtr, hhead]
      rw [← hhead, hlast]
      simp only [hfst, setNext_of_get _ _ _ _ hgl]
    · have hlastlt : ((c :: cs).getLast (by simp)).1 < h.cells.length :=
        halive _ (List.getLast_mem _)
      have hnd := chain_nodup _ _ _ hc1
      have hrel := chain_relink (h.new ⟨v, none⟩).2
        ⟨(h.new ⟨v, none⟩).2.cells.set ((c :: cs).getLast (by simp)).1
          (some ⟨((c :: cs).getLast (by simp)).2, some h.cells.length⟩)⟩
        l._head (some h.cells.length) (c :: cs) [(h.cells.length, v)] cs.length
        ((c :: cs).getLast (by simp)) ((c :: cs).getLast (by simp)).2 hc1 hk
        (heap_get_set_eq _ _ _ (by omega))
        (fun d hd => heap_get_set_ne _ _ _ _
          (fun he => not_mem_take_of_nodup _ _ _ hnd hk d hd he.symm))
        ⟨rfl, none, by
          rw [heap_get_set_ne _ _ _ _ (by omega)]
          exact hnew, rfl⟩
      have hshape : List.take cs.length (c :: cs) ++
          (((c :: cs).getLast (by simp)).1, ((c :: cs).getLast (by simp)).2) ::
            [(h.cells.length, v)] = (c :: cs) ++ [(h.cells.length, v)] := by
        have h1 : List.take cs.length (c :: cs) ++ [(c :: cs).getLast (by simp)] = c :: cs := by
          have := List.dropLast_append_getLast (l := c :: cs) (by simp)
          rw [List.dropLast_eq_take] at this
          simpa using this
        calc List.take cs.length (c :: cs) ++
            (((c :: cs).getLast (by simp)).1, ((c :: cs).getLast (by simp)).2) ::
              [(h.cells.length, v)]
            = (List.take cs.length (c :: cs) ++ [(c :: cs).getLast (by simp)])
                ++ [(h.cells.length, v)] := by simp
          _ = (c :: cs) ++ [(h.cells.length, v)] := by rw [h1]
      rw [hshape] at hrel
      exact hrel
    · simp only [List.length_append, List.length_singleton, hlen]
      push_cast
      rfl
    · simp [hl1]
    · intro a ha hna
      have hne : ((c :: cs).getLast (by simp)).1 ≠ a := by
        intro he
        exact hna (he ▸ mem_map_fst_of_mem _ _ (List.getLast_mem _))
      rw [heap_get_set_ne _ _ _ _ hne, heap_get_new_old h _ a ha]

theorem confined_mk (h h' : Heap α) (cs cs' : List (Nat × α))
    (out : Except Fault Unit) (l' : LinkedList)
    (hout : out = .ok () ∨ out = .error .out_of_range ∨ out = .error .logic_error)
    (hlen : h.cells.length ≤ h'.cells.length)
    (hframe : ∀ a, a < h.cells.length → a ∉ cs.map Prod.fst → h'.get a = h.get a)
    (hown : Owns h' l' cs')
    (hsub : ∀ c ∈ cs', c.1 ∈ cs.map Prod.fst ∨ h.cells.length ≤ c.1) :
    Confined h cs (out, h', l') :=
  ⟨hout, hlen, hframe, cs', hown, hsub⟩

theorem confined_same (h : Heap α) (cs : List (Nat × α)) (out : Except Fault Unit)
    (l : LinkedList)
    (hout : out = .ok () ∨ out = .error .out_of_range ∨ out = .error .logic_error)
    (hown : Owns h l cs) : Confined h cs (out, h, l) :=
  ⟨hout, le_refl _, fun _ _ _ => rfl, cs, hown, fun c hc => Or.inl (mem_map_fst_of_mem cs c hc)⟩

theorem index_unique_of_nodup (cs : List (Nat × α)) (i j : Nat) (c d : Nat × α)
    (hnd : (cs.map Prod.fst).Nodup) (hi : cs[i]? = some c) (hj : cs[j]? = some d)
    (hcd : c.1 = d.1) : i = j := by
  obtain ⟨hil, hic⟩ := List.getElem?_eq_some.mp hi
  obtain ⟨hjl, hjd⟩ := List.getElem?_eq_some.mp hj
  have hinj := List.nodup_iff_injective_get.mp hnd
  have h1 : (cs.map Prod.fst).get ⟨i, by simpa using hil⟩
      = (cs.map Prod.fst).get ⟨j, by simpa using hjl⟩ := by
    simp only [List.get_eq_getElem, List.getElem_map]
    rw [hic, hjd, hcd]
  have h2 := hinj h1
  simpa using h2

theorem getElem?_of_mem_take (cs : List (Nat × α)) (k : Nat) (d : Nat × α)
    (hd : d ∈ cs.take k) : ∃ i, i < k ∧ cs[i]? = some d := by
  obtain ⟨j, hj, hdj⟩ := List.getElem_of_mem hd
  rw [List.length_take] at hj
  rw [List.getElem_take] at hdj
  exact ⟨j, by omega, by rw [List.getElem?_eq_getElem (by omega), hdj]⟩

theorem getElem?_of_mem_drop (cs : List (Nat × α)) (k : Nat) (d : Nat × α)
    (hd : d ∈ cs.drop k) : ∃ i, k ≤ i ∧ cs[i]? = some d := by
  obtain ⟨j, hj, hdj⟩ := List.getElem_of_mem hd
  rw [List.length_drop] at hj
  rw [List.getElem_drop] at hdj
  exact ⟨k + j, by omega, by rw [List.getElem?_eq_getElem (by omega), hdj]⟩

theorem mem_of_getElem?_eq_some (cs : List (Nat × α)) (k : Nat) (c : Nat × α)
    (hk : cs[k]? = some c) : c ∈ cs := by
  obtain ⟨hlt, hc⟩ := List.getElem?_eq_some.mp hk
  rw [← hc]
  exact List.getElem_mem hlt

theorem push_front_confined (h : Heap α) (l : LinkedList) (cs : List (Nat × α)) (v : α)
    (ho : Owns h l cs) : Confined h cs (LinkedList.push_front h l v) := by
  obtain ⟨h', heq, hown, hlen, hframe⟩ := push_front_owns h l cs v ho
  rw [heq]
  refine confined_mk h h' cs _ _ _ (Or.inl rfl) (by omega) (fun a ha _ => hframe a ha) hown ?_
  intro c hc
  rcases List.mem_cons.mp hc with rfl | hc
  · exact Or.inr (le_refl _)
  · exact Or.inl (mem_map_fst_of_mem cs c hc)

theorem push_back_confined (h : Heap α) (l : LinkedList) (cs : List (Nat × α)) (v : α)
    (ho : Owns h l cs) : Confined h cs (LinkedList.push_back h l v) := by
  obtain ⟨h', l', heq, hown, hlen, hframe⟩ := push_back_owns h l cs v ho
  rw [heq]
  refine confined_mk h h' cs _ _ _ (Or.inl rfl) (by omega) hframe hown ?_
  intro c hc
  rcases List.mem_append.mp hc with hc | hc
  · exact Or.inl (mem_map_fst_of_mem cs c hc)
  · have : c = (h.cells.length, v) := by simpa using hc
    rw [this]
    exact Or.inr (le_refl _)

theorem insert_confined (h : Heap α) (l : LinkedList) (cs : List (Nat × α)) (index : Int)
    (v : α) (ho : Owns h l cs) : Confined h cs (LinkedList.insert h l index v) := by
  have ho' := ho
  obtain ⟨hc, hlen⟩ := ho
  by_cases hoob : index < 0 ∨ index > l._length
  · simp only [LinkedList.insert, hoob, if_true]
    exact confined_same h cs _ l (Or.inr (Or.inl rfl)) ho'
  by_cases h0 : index = 0
  · have hres : LinkedList.insert h l index v = LinkedList.push_front h l v := by
      simp only [LinkedList.insert]
      rw [if_neg hoob, if_pos h0]
    rw [hres]
    exact push_front_confined h l cs v ho'
  by_cases hl : index = l._length
  · have hres : LinkedList.insert h l index v = LinkedList.push_back h l v := by
      simp only [LinkedList.insert]
      rw [if_neg hoob, if_neg h0, if_pos hl]
    rw [hres]
    exact push_back_confined h l cs v ho'
  obtain ⟨j, hj⟩ : ∃ j : Nat, index = (j : Int) + 1 := ⟨(index - 1).toNat, by omega⟩
  have hjl : j + 1 < cs.length := by omega
  have hcurr : (index - 1).toNat = j := by omega
  have hnew : (h.new ⟨v, none⟩).2.get h.cells.length = some ⟨v, none⟩ := heap_get_new_self h _
  have hfst : (h.new (⟨v, none⟩ : Node α)).1 = h.cells.length := rfl
  have hl1 : (h.new (⟨v, none⟩ : Node α)).2.cells.length = h.cells.length + 1 := by
    simp [Heap.new]
  have halive := seg_alive h _ _ cs hc
  have hc1 : Chain (h.new ⟨v, none⟩).2 l._head cs :=
    seg_congr h _ _ _ cs (fun c hc' => heap_get_new_old h _ c.1 (halive c hc')) hc
  have hnd := chain_nodup _ _ _ hc1
  obtain ⟨c, hkc⟩ : ∃ c, cs[j]? = some c := ⟨cs[j], List.getElem?_eq_getElem (by omega)⟩
  have hcmem := mem_of_getElem?_eq_some cs j c hkc
  have hclt : c.1 < h.cells.length := halive c hcmem
  have hwalk := walk_chain _ _ _ j hc1 (by omega)
  rw [headPtr_drop cs j c hkc] at hwalk
  have hgc := chain_get _ _ _ _ _ hc1 hkc
  simp only [LinkedList.insert]
  rw [if_neg hoob, if_neg h0, if_neg hl]
  simp only [hcurr, hwalk, load_of_get _ _ _ hgc, hfst, setNext_of_get _ _ _ _ hnew]
  have hgc2 : (Heap.mk ((h.new ⟨v, none⟩).2.cells.set h.cells.length
      (some ⟨v, headPtr (cs.drop (j + 1))⟩))).get c.1
        = some ⟨c.2, headPtr (cs.drop (j + 1))⟩ := by
    rw [heap_get_set_ne _ _ _ _ (by omega)]
    exact hgc
  simp only [setNext_of_get _ _ _ _ hgc2]
  have hget3 : ∀ a, a ≠ c.1 → a < h.cells.length →
      (Heap.mk ((Heap.mk ((h.new ⟨v, none⟩).2.cells.set h.cells.length
        (some ⟨v, headPtr (cs.drop (j + 1))⟩))).cells.set c.1
          (some ⟨c.2, some h.cells.length⟩))).get a = (h.new ⟨v, none⟩).2.get a := by
    intro a hac ha
    rw [heap_get_set_ne _ _ _ _ (Ne.symm hac), heap_get_set_ne _ _ _ _ (by omega)]
  refine confined_mk h _ cs (cs.take j ++ (c.1, c.2) :: (h.cells.length, v) :: cs.drop (j + 1))
    _ _ (Or.inl rfl) (by simp [hl1]) ?_ ⟨?_, ?_⟩ ?_
  · intro a ha hna
    have hac : a ≠ c.1 := fun he => hna (he ▸ mem_map_fst_of_mem cs c hcmem)
    rw [hget3 a hac ha, heap_get_new_old h _ a ha]
  · refine chain_relink (h.new ⟨v, none⟩).2 _ l._head (some h.cells.length) cs _ j c c.2 hc1 hkc
      ?_ ?_ ⟨rfl, headPtr (cs.drop (j + 1)), ?_, ?_⟩
    · exact heap_get_set_eq _ _ _ (by simp [hl1]; omega)
    · intro d hd
      obtain ⟨i, hi, hid⟩ := getElem?_of_mem_take cs j d hd
      have hdc : d.1 ≠ c.1 := fun he => by
        have := index_unique_of_nodup cs i j d c hnd hid hkc he
        omega
      exact hget3 d.1 hdc (halive d (mem_of_getElem?_eq_some cs i d hid))
    · rw [heap_get_set_ne _ _ _ _ (by omega)]
      exact heap_get_set_eq _ _ _ (by simp [hl1])
    · refine seg_congr (h.new ⟨v, none⟩).2 _ _ _ _ ?_ (seg_split _ _ cs (j + 1) hc1).2
      intro d hd
      obtain ⟨i, hi, hid⟩ := getElem?_of_mem_drop cs (j + 1) d hd
      have hdc : d.1 ≠ c.1 := fun he => by
        have := index_unique_of_nodup cs i j d c hnd hid hkc he
        omega
      exact hget3 d.1 hdc (halive d (mem_of_getElem?_eq_some cs i d hid))
  · simp only [List.length_append, List.length_take, List.length_cons, List.length_drop, hlen]
    have : min j cs.length = j := by omega
    rw [this]
    push_cast
    omega
  · intro d hd
    rcases List.mem_append.mp hd with hd | hd
    · exact Or.inl (mem_map_fst_of_mem cs d (List.mem_of_mem_take hd))
    · rcases List.mem_cons.mp hd with rfl | hd
      · exact Or.inl (mem_map_fst_of_mem cs c hcmem)
      · rcases List.mem_cons.mp hd with rfl | hd
        · exact Or.inr (le_refl _)
        · exact Or.inl (mem_map_fst_of_mem cs d (List.mem_of_mem_drop hd))

theorem empty_of_owns_nil (h : Heap α) (l : LinkedList) (ho : Owns h l []) :
    l.empty = true := by
  have : l._head = none := ho.1
  simp [LinkedList.empty, this]

theorem not_empty_of_owns_cons (h : Heap α) (l : LinkedList) (c : Nat × α)
    (cs : List (Nat × α)) (ho : Owns h l (c :: cs)) : l.empty = false := by
  have : l._head = some c.1 := ho.1.1
  simp [LinkedList.empty, this]

theorem checkEmptyOrSingle_many (h : Heap α) (l : LinkedList) (c d : Nat × α)
    (cs : List (Nat × α)) (ho : Owns h l (c :: d :: cs)) :
    LinkedList.checkEmptyOrSingle h l = (.ok false, h, l) := by
  have hne := not_empty_of_owns_cons h l c (d :: cs) ho
  have hlen : ¬ (l._length = 1) := by
    have := ho.2
    simp only [List.length_cons] at this
    omega
  simp [LinkedList.checkEmptyOrSingle, hne, hlen]

theorem checkEmptyOrSingle_single (h : Heap α) (l : LinkedList) (c : Nat × α)
    (ho : Owns h l [c]) :
    LinkedList.checkEmptyOrSingle h l = (.ok true, ⟨h.cells.set c.1 none⟩, ⟨none, 0⟩) := by
  have hne := not_empty_of_owns_cons h l c [] ho
  have hlen : l._length = 1 := by
    have := ho.2
    simpa using this
  obtain ⟨⟨hp, nx, hg, _⟩, _⟩ := ho
  simp [LinkedList.checkEmptyOrSingle, hne, hlen, hp, delete_of_get h _ _ hg]

theorem confined_single (h : Heap α) (c : Nat × α) :
    Confined h [c] ((.ok (), ⟨h.cells.set c.1 none⟩, ⟨none, 0⟩) :
      Except Fault Unit × Heap α × LinkedList) := by
  refine confined_mk h _ [c] [] _ _ (Or.inl rfl) (by simp) ?_ ⟨rfl, rfl⟩ (by simp)
  intro a _ hna
  have hne : c.1 ≠ a := by
    intro he
    apply hna
    simp [he]
  exact heap_get_set_ne _ _ _ _ hne

theorem pop_front_confined (h : Heap α) (l : LinkedList) (cs : List (Nat × α))
    (ho : Owns h l cs) : Confined h cs (LinkedList.pop_front h l) := by
  match cs, ho with
  | [], ho =>
    have he := empty_of_owns_nil h l ho
    simp only [LinkedList.pop_front, LinkedList.checkEmptyOrSingle, he, if_true]
    exact confined_same h [] _ l (Or.inr (Or.inr rfl)) ho
  | [c], ho =>
    simp only [LinkedList.pop_front, checkEmptyOrSingle_single h l c ho]
    exact confined_single h c
  | c :: d :: es, ho =>
    simp only [LinkedList.pop_front, checkEmptyOrSingle_many h l c d es ho]
    have ho' := ho
    obtain ⟨hc, hlen⟩ := ho
    have hnd := chain_nodup _ _ _ hc
    have halive := seg_alive h _ _ _ hc
    obtain ⟨hp, nx, hg, hrest⟩ := hc
    have hnx : nx = some d.1 := hrest.1
    simp only [hp, load_of_get h _ _ hg, delete_of_get h _ _ hg]
    refine confined_mk h _ _ (d :: es) _ _ (Or.inl rfl) (by simp) ?_ ⟨?_, ?_⟩ ?_
    · intro a _ hna
      have hne : c.1 ≠ a := by
        intro he
        apply hna
        simp [he]
      exact heap_get_set_ne _ _ _ _ hne
    · refine seg_congr h _ _ _ _ ?_ hrest
      intro e he
      have hne : c.1 ≠ e.1 := by
        intro heq
        rw [List.map_cons, List.nodup_cons] at hnd
        exact hnd.1 (heq ▸ mem_map_fst_of_mem _ e he)
      exact heap_get_set_ne _ _ _ _ hne
    · simp only [List.length_cons] at hlen ⊢
      simp only [hlen]
      push_cast
      omega
    · intro e he
      exact Or.inl (mem_map_fst_of_mem _ e (List.mem_cons_of_mem _ he))

theorem pop_back_confined (h : Heap α) (l : LinkedList) (cs : List (Nat × α))
    (ho : Owns h l cs) : Confined h cs (LinkedList.pop_back h l) := by
  match cs, ho with
  | [], ho =>
    have he := empty_of_owns_nil h l ho
    simp only [LinkedList.pop_back, LinkedList.checkEmptyOrSingle, he, if_true]
    exact confined_same h [] _ l (Or.inr (Or.inr rfl)) ho
  | [c], ho =>
    simp only [LinkedList.pop_back, checkEmptyOrSingle_single h l c ho]
    exact confined_single h c
  | c :: d :: es, ho =>
    simp only [LinkedList.pop_back, checkEmptyOrSingle_many h l c d es ho]
    obtain ⟨hc, hlen⟩ := ho
    have hnd := chain_nodup _ _ _ hc
    have halive := seg_alive h _ _ _ hc
    have hfuel : es.length + 1 ≤ h.cells.length := by
      have := chain_length_le _ _ _ hc
      simp only [List.length_cons] at this
      omega
    have hloop := secondLastLoop_chain h l._head c d es _ hc hfuel
    obtain ⟨a, hka⟩ : ∃ a, (c :: d :: es)[es.length]? = some a :=
      ⟨(c :: d :: es)[es.length], List.getElem?_eq_getElem (by simp; omega)⟩
    obtain ⟨b, hkb⟩ : ∃ b, (c :: d :: es)[es.length + 1]? = some b :=
      ⟨(c :: d :: es)[es.length + 1], List.getElem?_eq_getElem (by simp)⟩
    rw [headPtr_drop _ _ a hka] at hloop
    have hga := chain_get h _ _ _ _ hc hka
    rw [headPtr_drop _ _ b hkb] at hga
    have hgb := chain_get h _ _ _ _ hc hkb
    have hab : b.1 ≠ a.1 := fun he => by
      have := index_unique_of_nodup _ _ _ b a hnd hkb hka he
      omega
    have hga2 : (Heap.mk (h.cells.set b.1 none)).get a.1 = some ⟨a.2, some b.1⟩ := by
      rw [heap_get_set_ne _ _ _ _ hab]
      exact hga
    simp only [hloop, load_of_get h _ _ hga, delete_of_get h _ _ hgb,
      setNext_of_get _ _ _ _ hga2]
    have hamem := mem_of_getElem?_eq_some _ _ a hka
    have hbmem := mem_of_getElem?_eq_some _ _ b hkb
    refine confined_mk h _ _ ((c :: d :: es).take es.length ++ (a.1, a.2) :: []) _ _
      (Or.inl rfl) (by simp) ?_ ⟨?_, ?_⟩ ?_
    · intro x _ hnx
      have h1 : a.1 ≠ x := fun he => hnx (he ▸ mem_map_fst_of_mem _ a hamem)
      have h2 : b.1 ≠ x := fun he => hnx (he ▸ mem_map_fst_of_mem _ b hbmem)
      rw [heap_get_set_ne _ _ _ _ h1, heap_get_set_ne _ _ _ _ h2]
    · refine chain_relink h _ l._head none (c :: d :: es) [] es.length a a.2 hc hka ?_ ?_ rfl
      · exact heap_get_set_eq _ _ _ (by simpa using halive a hamem)
      · intro e he
        obtain ⟨i, hi, hie⟩ := getElem?_of_mem_take _ _ e he
        have h1 : a.1 ≠ e.1 := fun heq => by
          have := index_unique_of_nodup _ _ _ e a hnd hie hka heq.symm
          omega
        have h2 : b.1 ≠ e.1 := fun heq => by
          have := index_unique_of_nodup _ _ _ e b hnd hie hkb heq.symm
          omega
        rw [heap_get_set_ne _ _ _ _ h1, heap_get_set_ne _ _ _ _ h2]
    · simp only [List.length_append, List.length_take, List.length_cons, List.length_nil] at hlen ⊢
      have : min es.length (es.length + 1 + 1) = es.length := by omega
      rw [this, hlen]
      push_cast
      omega
    · intro e he
      rcases List.mem_append.mp he with he | he
      · exact Or.inl (mem_map_fst_of_mem _ e (List.mem_of_mem_take he))
      · have : e = a := by simpa using he
        rw [this]
        exact Or.inl (mem_map_fst_of_mem _ a hamem)

theorem erase_confined (h : Heap α) (l : LinkedList) (cs : List (Nat × α)) (index : Int)
    (ho : Owns h l cs) : Confined h cs (LinkedList.erase h l index) := by
  have ho' := ho
  obtain ⟨hc, hlen⟩ := ho
  by_cases hoob : index < 0 ∨ index ≥ l._length
  · simp only [LinkedList.erase]
    rw [if_pos hoob]
    exact confined_same h cs _ l (Or.inr (Or.inl rfl)) ho'
  have hne : l.empty = false := by
    cases cs with
    | nil =>
      simp only [List.length_nil] at hlen
      omega
    | cons c cs => exact not_empty_of_owns_cons h l c cs ho'
  by_cases h0 : index = 0
  · have hres : LinkedList.erase h l index = LinkedList.pop_front h l := by
      simp only [LinkedList.erase]
      rw [if_neg hoob, if_pos h0]
      simp [hne]
    rw [hres]
    exact pop_front_confined h l cs ho'
  obtain ⟨j, hj⟩ : ∃ j : Nat, index = (j : Int) + 1 := ⟨(index - 1).toNat, by omega⟩
  have hjl : j + 1 < cs.length := by omega
  have hidx : index.toNat = j + 1 := by omega
  have hnd := chain_nodup _ _ _ hc
  have halive := seg_alive h _ _ cs hc
  obtain ⟨a, hka⟩ : ∃ a, cs[j]? = some a := ⟨cs[j], List.getElem?_eq_getElem (by omega)⟩
  obtain ⟨b, hkb⟩ : ∃ b, cs[j + 1]? = some b := ⟨cs[j + 1], List.getElem?_eq_getElem hjl⟩
  have hamem := mem_of_getElem?_eq_some _ _ a hka
  have hbmem := mem_of_getElem?_eq_some _ _ b hkb
  have hloop := eraseLoop_chain h l._head l._head cs j hc (by omega)
  rw [headPtr_drop _ _ a hka, headPtr_drop _ _ b hkb] at hloop
  have hga := chain_get h _ _ _ _ hc hka
  have hgb := chain_get h _ _ _ _ hc hkb
  have hab : a.1 ≠ b.1 := fun he => by
    have := index_unique_of_nodup _ _ _ a b hnd hka hkb he
    omega
  have hgb2 : (Heap.mk (h.cells.set a.1
      (some ⟨a.2, headPtr (cs.drop (j + 1 + 1))⟩))).get b.1
        = some ⟨b.2, headPtr (cs.drop (j + 1 + 1))⟩ := by
    rw [heap_get_set_ne _ _ _ _ hab]
    exact hgb
  have hres : LinkedList.erase h l index
      = (.ok (), ⟨(Heap.mk (h.cells.set a.1
          (some ⟨a.2, headPtr (cs.drop (j + 1 + 1))⟩))).cells.set b.1 none⟩,
          ⟨l._head, l._length - 1⟩) := by
    simp only [LinkedList.erase]
    rw [if_neg hoob, if_neg h0]
    simp only [hne, hidx, hloop, load_of_get h _ _ hgb, setNext_of_get h _ _ _ hga,
      delete_of_get _ _ _ hgb2]
    simp
  rw [hres]
  refine confined_mk h _ cs (cs.take j ++ (a.1, a.2) :: cs.drop (j + 1 + 1)) _ _
    (Or.inl rfl) (by simp) ?_ ⟨?_, ?_⟩ ?_
  · intro x _ hnx
    have h1 : a.1 ≠ x := fun he => hnx (he ▸ mem_map_fst_of_mem _ a hamem)
    have h2 : b.1 ≠ x := fun he => hnx (he ▸ mem_map_fst_of_mem _ b hbmem)
    rw [heap_get_set_ne _ _ _ _ h2, heap_get_set_ne _ _ _ _ h1]
  · refine chain_relink h _ l._head (headPtr (cs.drop (j + 1 + 1))) cs _ j a a.2 hc hka ?_ ?_ ?_
    · rw [heap_get_set_ne _ _ _ _ hab.symm]
      exact heap_get_set_eq _ _ _ (halive a hamem)
    · intro e he
      obtain ⟨i, hi, hie⟩ := getElem?_of_mem_take _ _ e he
      have h1 : a.1 ≠ e.1 := fun heq => by
        have := index_unique_of_nodup _ _ _ e a hnd hie hka heq.symm
        omega
      have h2 : b.1 ≠ e.1 := fun heq => by
        have := index_unique_of_nodup _ _ _ e b hnd hie hkb heq.symm
        omega
      rw [heap_get_set_ne _ _ _ _ h2, heap_get_set_ne _ _ _ _ h1]
    · refine seg_congr h _ _ _ _ ?_ (seg_split h _ cs (j + 1 + 1) hc).2
      intro e he
      obtain ⟨i, hi, hie⟩ := getElem?_of_mem_drop _ _ e he
      have h1 : a.1 ≠ e.1 := fun heq => by
        have := index_unique_of_nodup _ _ _ e a hnd hie hka heq.symm
        omega
      have h2 : b.1 ≠ e.1 := fun heq => by
        have := index_unique_of_nodup _ _ _ e b hnd hie hkb heq.symm
        omega
      rw [heap_get_set_ne _ _ _ _ h2, heap_get_set_ne _ _ _ _ h1]
  · simp only [List.length_append, List.length_take, List.length_cons, List.length_drop, hlen]
    have : min j cs.length = j := by omega
    rw [this]
    push_cast
    omega
  · intro e he
    rcases List.mem_append.mp he with he | he
    · exact Or.inl (mem_map_fst_of_mem _ e (List.mem_of_mem_take he))
    · rcases List.mem_cons.mp he with rfl | he
      · exact Or.inl (mem_map_fst_of_mem _ a hamem)
      · exact Or.inl (mem_map_fst_of_mem _ e (List.mem_of_mem_drop he))

theorem assign_at_confined (h : Heap α) (l : LinkedList) (cs : List (Nat × α)) (index : Int)
    (w : α) (ho : Owns h l cs) : Confined h cs (LinkedList.assign_at h l index w) := by
  have ho' := ho
  obtain ⟨hc, hlen⟩ := ho
  by_cases hoob : index < 0 ∨ index ≥ l._length
  · simp only [LinkedList.assign_at]
    rw [if_pos hoob]
    exact confined_same h cs _ l (Or.inr (Or.inl rfl)) ho'
  obtain ⟨j, hj⟩ : ∃ j : Nat, index = (j : Int) := ⟨index.toNat, by omega⟩
  have hjl : j < cs.length := by omega
  have hidx : index.toNat = j := by omega
  have hnd := chain_nodup _ _ _ hc
  have halive := seg_alive h _ _ cs hc
  obtain ⟨a, hka⟩ : ∃ a, cs[j]? = some a := ⟨cs[j], List.getElem?_eq_getElem hjl⟩
  have hamem := mem_of_getElem?_eq_some _ _ a hka
  have hwalk := walk_chain h _ _ j hc (by omega)
  rw [headPtr_drop _ _ a hka] at hwalk
  have hga := chain_get h _ _ _ _ hc hka
  have hres : LinkedList.assign_at h l index w
      = (.ok (), ⟨h.cells.set a.1 (some ⟨w, headPtr (cs.drop (j + 1))⟩)⟩, l) := by
    simp only [LinkedList.assign_at]
    rw [if_neg hoob]
    simp only [hidx, hwalk, setData_of_get h _ _ _ hga]
  rw [hres]
  refine confined_mk h _ cs (cs.take j ++ (a.1, w) :: cs.drop (j + 1)) _ _
    (Or.inl rfl) (by simp) ?_ ⟨?_, ?_⟩ ?_
  · intro x _ hnx
    have h1 : a.1 ≠ x := fun he => hnx (he ▸ mem_map_fst_of_mem _ a hamem)
    rw [heap_get_set_ne _ _ _ _ h1]
  · refine chain_relink h _ l._head (headPtr (cs.drop (j + 1))) cs _ j a w hc hka ?_ ?_ ?_
    · exact heap_get_set_eq _ _ _ (halive a hamem)
    · intro e he
      obtain ⟨i, hi, hie⟩ := getElem?_of_mem_take _ _ e he
      have h1 : a.1 ≠ e.1 := fun heq => by
        have := index_unique_of_nodup _ _ _ e a hnd hie hka heq.symm
        omega
      rw [heap_get_set_ne _ _ _ _ h1]
    · refine seg_congr h _ _ _ _ ?_ (seg_split h _ cs (j + 1) hc).2
      intro e he
      obtain ⟨i, hi, hie⟩ := getElem?_of_mem_drop _ _ e he
      have h1 : a.1 ≠ e.1 := fun heq => by
        have := index_unique_of_nodup _ _ _ e a hnd hie hka heq.symm
        omega
      rw [heap_get_set_ne _ _ _ _ h1]
  · simp only [List.length_append, List.length_take, List.length_cons, List.length_drop, hlen]
    have : min j cs.length = j := by omega
    rw [this]
    push_cast
    omega
  · intro e he
    rcases List.mem_append.mp he with he | he
    · exact Or.inl (mem_map_fst_of_mem _ e (List.mem_of_mem_take he))
    · rcases List.mem_cons.mp he with rfl | he
      · exact Or.inl (mem_map_fst_of_mem _ a hamem)
      · exact Or.inl (mem_map_fst_of_mem _ e (List.mem_of_mem_drop he))

theorem cleanLoop_chain (h : Heap α) (p : Option Nat) (cs : List (Nat × α)) (fuel : Nat)
    (hc : Chain h p cs) (hf : cs.length ≤ fuel) :
    ∃ h', LinkedList.cleanLoop fuel h p = .ok (h', none) ∧
      h'.cells.length = h.cells.length ∧
      ∀ a, a ∉ cs.map Prod.fst → h'.get a = h.get a := by
  induction cs generalizing h p fuel with
  | nil =>
    have hp : p = none := hc
    subst hp
    refine ⟨h, ?_, rfl, fun _ _ => rfl⟩
    cases fuel <;> rfl
  | cons c cs ih =>
    have hnd := chain_nodup _ _ _ hc
    obtain ⟨hp, nx, hg, hrest⟩ := hc
    subst hp
    obtain ⟨f, rfl⟩ : ∃ f, fuel = f + 1 := ⟨fuel - 1, by simp at hf; omega⟩
    have hrest1 : Chain (Heap.mk (h.cells.set c.1 none)) nx cs := by
      refine seg_congr h _ _ _ _ ?_ hrest
      intro e he
      have hne : c.1 ≠ e.1 := by
        intro heq
        rw [List.map_cons, List.nodup_cons] at hnd
        exact hnd.1 (heq ▸ mem_map_fst_of_mem _ e he)
      exact heap_get_set_ne _ _ _ _ hne
    obtain ⟨h', hrun, hlen', hframe⟩ := ih _ nx f hrest1 (by simpa using hf)
    refine ⟨h', ?_, by simpa using hlen', ?_⟩
    · simp only [LinkedList.cleanLoop, load_of_get h _ _ hg, delete_of_get h _ _ hg]
      exact hrun
    · intro a hna
      have h1 : a ∉ cs.map Prod.fst := fun hm => hna (by simp [hm])
      have h2 : c.1 ≠ a := fun he => hna (by simp [he])
      rw [hframe a h1, heap_get_set_ne _ _ _ _ h2]

theorem clean_confined (h : Heap α) (l : LinkedList) (cs : List (Nat × α))
    (ho : Owns h l cs) : Confined h cs (LinkedList.clean h l) := by
  obtain ⟨hc, _⟩ := ho
  obtain ⟨h', hrun, hlen', hframe⟩ :=
    cleanLoop_chain h l._head cs h.cells.length hc (chain_length_le _ _ _ hc)
  simp only [LinkedList.clean, hrun]
  exact confined_mk h h' cs [] _ _ (Or.inl rfl) (by omega) (fun a _ hna => hframe a hna)
    ⟨rfl, rfl⟩ (by simp)

theorem copyLoop_owns (rs : List (Nat × α)) (fuel : Nat) (h : Heap α) (l : LinkedList)
    (cs : List (Nat × α)) (p : Option Nat) (ho : Owns h l cs) (hc : Chain h p rs)
    (hdisj : ∀ r ∈ rs, r.1 ∉ cs.map Prod.fst) (hf : rs.length ≤ fuel) :
    ∃ h' l' ns, LinkedList.copyLoop fuel h l p = (.ok (), h', l') ∧
      Owns h' l' (cs ++ ns) ∧ ns.map Prod.snd = rs.map Prod.snd ∧
      (∀ n ∈ ns, h.cells.length ≤ n.1) ∧ h.cells.length ≤ h'.cells.length ∧
      ∀ a, a < h.cells.length → a ∉ cs.map Prod.fst → h'.get a = h.get a := by
  induction rs generalizing fuel h l cs p with
  | nil =>
    have hp : p = none := hc
    subst hp
    refine ⟨h, l, [], ?_, by simpa using ho, rfl, by simp, le_refl _, fun _ _ _ => rfl⟩
    cases fuel <;> rfl
  | cons r rs ih =>
    have halive := seg_alive h _ _ _ hc
    obtain ⟨hp, nx, hg, hrest⟩ := hc
    subst hp
    obtain ⟨f, rfl⟩ : ∃ f, fuel = f + 1 := ⟨fuel - 1, by simp at hf; omega⟩
    obtain ⟨h1, l1, hpush, hown1, hlen1, hframe1⟩ := push_back_owns h l cs r.2 ho
    have hr1 : h1.get r.1 = some ⟨r.2, nx⟩ := by
      rw [hframe1 r.1 (halive r (by simp)) (hdisj r (by simp))]
      exact hg
    have hrest1 : Chain h1 nx rs := by
      refine seg_congr h _ _ _ _ ?_ hrest
      intro e he
      exact hframe1 e.1 (halive e (by simp [he])) (hdisj e (by simp [he]))
    have hdisj1 : ∀ e ∈ rs, e.1 ∉ (cs ++ [(h.cells.length, r.2)]).map Prod.fst := by
      intro e he hm
      rw [List.map_append, List.mem_append] at hm
      rcases hm with hm | hm
      · exact hdisj e (by simp [he]) hm
      · have hlt := halive e (by simp [he])
        have : e.1 = h.cells.length := by simpa using hm
        omega
    obtain ⟨h', l', ns, hrun, hown', hdata, hfresh, hlen', hframe'⟩ :=
      ih f h1 l1 (cs ++ [(h.cells.length, r.2)]) nx hown1 hrest1 hdisj1 (by simpa using hf)
    refine ⟨h', l', (h.cells.length, r.2) :: ns, ?_, ?_, ?_, ?_, by omega, ?_⟩
    · simp only [LinkedList.copyLoop, load_of_get h _ _ hg, hpush, load_of_get h1 _ _ hr1]
      exact hrun
    · simpa using hown'
    · simp [hdata]
    · intro n hn
      rcases List.mem_cons.mp hn with rfl | hn
      · exact le_refl _
      · have := hfresh n hn
        omega
    · intro a ha hna
      have hna1 : a ∉ (cs ++ [(h.cells.length, r.2)]).map Prod.fst := by
        intro hm
        rw [List.map_append, List.mem_append] at hm
        rcases hm with hm | hm
        · exact hna hm
        · have : a = h.cells.length := by simpa using hm
          omega
      rw [hframe' a (by omega) hna1, hframe1 a ha hna]

theorem copy_ctor_owns (h : Heap α) (src : LinkedList) (ss : List (Nat × α))
    (hsrc : Owns h src ss) :
    ∃ h' c cs, LinkedList.copy_ctor h src = (.ok (), h', c) ∧
      Owns h' c cs ∧ cs.map Prod.snd = ss.map Prod.snd ∧
      (∀ n ∈ cs, h.cells.length ≤ n.1) ∧ Owns h' src ss := by
  obtain ⟨h', c, ns, hrun, hown, hdata, hfresh, _, hframe⟩ :=
    copyLoop_owns ss h.cells.length h ⟨none, 0⟩ [] src._head ⟨rfl, rfl⟩ hsrc.1
      (by simp) (chain_length_le _ _ _ hsrc.1)
  refine ⟨h', c, ns, hrun, by simpa using hown, hdata, hfresh, ?_, hsrc.2⟩
  refine seg_congr h _ _ _ _ ?_ hsrc.1
  intro s hs
  exact hframe s.1 (seg_alive h _ _ _ hsrc.1 s hs) (by simp)

theorem call_confined (m : Mutation α) (h : Heap α) (l : LinkedList) (cs : List (Nat × α))
    (ho : Owns h l cs) : Confined h cs (m.call h l) := by
  cases m with
  | push_front v => exact push_front_confined h l cs v ho
  | push_back v => exact push_back_confined h l cs v ho
  | insert index v => exact insert_confined h l cs index v ho
  | pop_front => exact pop_front_confined h l cs ho
  | pop_back => exact pop_back_confined h l cs ho
  | erase index => exact erase_confined h l cs index ho
  | assign_at index w => exact assign_at_confined h l cs index w ho
  | clean => exact clean_confined h l cs ho

theorem run_isolated (ms : List (Mutation α)) (h : Heap α) (c src : LinkedList)
    (cs ss : List (Nat × α)) (hc : Owns h c cs) (hs : Owns h src ss)
    (hdisj : ∀ n ∈ cs, n.1 ∉ ss.map Prod.fst) :
    Owns (run ms h c).2.1 src ss ∧
    (∃ cs', Owns (run ms h c).2.1 (run ms h c).2.2 cs' ∧ ∀ n ∈ cs', n.1 ∉ ss.map Prod.fst) ∧
    ∀ o ∈ (run ms h c).1,
      o = .ok () ∨ o = .error .out_of_range ∨ o = .error .logic_error := by
  induction ms generalizing h c cs with
  | nil => exact ⟨hs, ⟨cs, hc, hdisj⟩, by simp [run]⟩
  | cons m ms ih =>
    obtain ⟨hout, _, hframe, cs', hown', hsub⟩ := call_confined m h c cs hc
    have halive := seg_alive h _ _ _ hs.1
    have hs' : Owns (m.call h c).2.1 src ss := by
      refine ⟨seg_congr h _ _ _ _ ?_ hs.1, hs.2⟩
      intro s hsm
      refine hframe s.1 (halive s hsm) ?_
      intro hm
      obtain ⟨n, hn, hn1⟩ := List.mem_map.mp hm
      exact hdisj n hn (hn1 ▸ mem_map_fst_of_mem ss s hsm)
    have hdisj' : ∀ n ∈ cs', n.1 ∉ ss.map Prod.fst := by
      intro n hn hm
      rcases hsub n hn with hold | hnew
      · obtain ⟨n0, hn0, hn01⟩ := List.mem_map.mp hold
        exact hdisj n0 hn0 (hn01 ▸ hm)
      · obtain ⟨s, hsm, hs1⟩ := List.mem_map.mp hm
        have := halive s hsm
        omega
    obtain ⟨h1, h2, h3⟩ := ih (m.call h c).2.1 (m.call h c).2.2 cs' hown' hs' hdisj'
    refine ⟨h1, h2, ?_⟩
    intro o ho
    simp only [run, List.mem_cons] at ho
    rcases ho with rfl | ho
    · exact hout
    · exact h3 o ho

end Mem

/-! The claim on copy construction -/

namespace LinkedList

variable {α : Type}

/-- C14: copy construction from a list `src` that owns the nodes `ss` of a
store returns with a list whose nodes hold the same elements in the same order
and whose `size()` is that of `src`; its nodes are all newly allocated, none is
a node of `src`, and `src` still owns the same nodes with the same elements;
after any later calls of `push_front`, `push_back`, `insert`, `pop_front`,
`pop_back`, `erase`, indexed assignment and `clean` on the copy, each left by
`return` or by an exception, `src` still owns the same nodes with the same
elements and has the same `_length`.  The sequence of the copy is the one the
copy constructor on element sequences produces. -/
theorem copy_ctor_spec (h : Mem.Heap α) (src : Mem.LinkedList) (ss : List (Nat × α))
    (hsrc : Mem.Owns h src ss) :
    ∃ (h' : Mem.Heap α) (c : Mem.LinkedList) (cs : List (Nat × α)),
      Mem.LinkedList.copy_ctor h src = (.ok (), h', c) ∧
      Mem.Owns h' c cs ∧ cs.map Prod.snd = ss.map Prod.snd ∧ c.size = src.size ∧
      Mem.Owns h' src ss ∧
      (∀ n ∈ cs, n.1 ∉ ss.map Prod.fst) ∧
      (∀ ms : List (Mem.Mutation α),
        Mem.Owns (Mem.run ms h' c).2.1 src ss ∧
        ∀ o ∈ (Mem.run ms h' c).1,
          o = .ok () ∨ o = .error .out_of_range ∨ o = .error .logic_error) ∧
      copy_ctor (mk_of (ss.map Prod.snd)) = .ok (mk_of (cs.map Prod.snd)) := by
  obtain ⟨h', c, cs, hrun, hown, hdata, hfresh, hsrc'⟩ := Mem.copy_ctor_owns h src ss hsrc
  have hdisj : ∀ n ∈ cs, n.1 ∉ ss.map Prod.fst := by
    intro n hn hm
    obtain ⟨s, hs, hs1⟩ := List.mem_map.mp hm
    have h1 := Mem.seg_alive h _ _ _ hsrc.1 s hs
    have h2 := hfresh n hn
    omega
  refine ⟨h', c, cs, hrun, hown, hdata, ?_, hsrc', hdisj, ?_, ?_⟩
  · have h1 : c._length = (cs.length : Int) := hown.2
    have h2 : src._length = (ss.length : Int) := hsrc.2
    have h3 : cs.length = ss.length := by
      have := congrArg List.length hdata
      simpa using this
    simp only [Mem.LinkedList.size, h1, h2, h3]
  · intro ms
    obtain ⟨hs, _, hout⟩ := Mem.run_isolated ms h' c src cs ss hown hsrc' hdisj
    exact ⟨hs, hout⟩
  · rw [copy_ctor_eq, toList_mk_of, hdata]

/-- C14, at a store holding the list `[1, 2]` at the addresses `0` and `1`: the
copy holds `1, 2`, and after `push_back(7)`, `erase(0)` and `clean()` on the copy
the source still owns its two nodes. -/
theorem copy_ctor_spec_witness :
    ∃ (h' : Mem.Heap Nat) (c : Mem.LinkedList) (cs : List (Nat × Nat)),
      Mem.LinkedList.copy_ctor ⟨[some ⟨1, some 1⟩, some ⟨2, none⟩]⟩ ⟨some 0, 2⟩
        = (.ok (), h', c) ∧
      cs.map Prod.snd = [1, 2] ∧ Mem.Owns h' c cs ∧
      Mem.Owns (Mem.run [.push_back 7, .erase 0, .clean] h' c).2.1 ⟨some 0, 2⟩
        [(0, 1), (1, 2)] := by
  obtain ⟨h', c, cs, hrun, hown, hdata, _, _, _, hiso, _⟩ :=
    copy_ctor_spec (⟨[some ⟨1, some 1⟩, some ⟨2, none⟩]⟩ : Mem.Heap Nat) ⟨some 0, 2⟩
      [(0, 1), (1, 2)] ⟨⟨rfl, some 1, rfl, rfl, none, rfl, rfl⟩, rfl⟩
  exact ⟨h', c, cs, hrun, by simpa using hdata, hown, (hiso _).1⟩

end LinkedList

/-! Lemmas on the indexed write and on the agreement of the two searches -/

namespace LinkedList

variable {α : Type}

open NodePtr

theorem setData_ofList (xs : List α) (k : Nat) (w : α) (h : k < xs.length) :
    setData (ofList xs) k w = .ok (ofList (xs.set k w)) := by
  induction xs generalizing k with
  | nil => simp at h
  | cons x xs ih =>
    cases k with
    | zero => simp [ofList, setData]
    | succ k =>
      have hk : k < xs.length := by simpa using h
      simp [ofList, setData, ih k hk, Except.map]

theorem assign_at_mk_of (xs : List α) (k : Nat) (w : α) (h : k < xs.length) :
    (mk_of xs).assign_at (k : Int) w = .ok (mk_of (xs.set k w)) := by
  have hc : ¬ ((k : Int) < 0 ∨ (k : Int) ≥ (xs.length : Int)) := by omega
  have hlen : (mk_of xs)._length = (xs.length : Int) := rfl
  have hhead : (mk_of xs)._head = ofList xs := rfl
  simp only [assign_at, hlen, hhead, hc, if_false, Int.toNat_ofNat]
  rw [follow_ofList xs k (le_of_lt h)]
  simp only [Except.bind, setData_ofList xs k w h, Except.map, mk_of, List.length_set]

theorem find_loop_find_index_loop (eq ne : α → α → Bool) (hne : ∀ a b, ne a b = !eq a b)
    (data d : α) (nx : NodePtr α) (idx : Int) :
    ((find_loop eq data (node d nx))._curr = nullptr ∧
      find_index_loop ne data d nx idx = -1) ∨
    (∃ k : Nat, find_index_loop ne data d nx idx = idx + (k : Int) ∧
      follow (node d nx) k = .ok (find_loop eq data (node d nx))._curr ∧
      (find_loop eq data (node d nx))._curr ≠ nullptr) := by
  induction nx generalizing d idx with
  | nullptr =>
    cases hd : eq d data with
    | true =>
      right
      refine ⟨0, ?_, ?_, ?_⟩
      · simp [find_index_loop, hne, hd]
      · simp [find_loop, hd, follow]
      · simp [find_loop, hd]
    | false =>
      left
      simp [find_loop, find_index_loop, hne, hd]
  | node e nx ih =>
    cases hd : eq d data with
    | true =>
      right
      refine ⟨0, ?_, ?_, ?_⟩
      · simp [find_index_loop, hne, hd]
      · simp [find_loop, hd, follow]
      · simp [find_loop, hd]
    | false =>
      have hfl : find_loop eq data (node d (node e nx)) = find_loop eq data (node e nx) := by
        simp [find_loop, hd]
      have hfi : find_index_loop ne data d (node e nx) idx
          = find_index_loop ne data e nx (idx + 1) := by
        simp [find_index_loop, hne, hd]
      rcases ih e (idx + 1) with ⟨h1, h2⟩ | ⟨k, h1, h2, h3⟩
      · left
        rw [hfl, hfi]
        exact ⟨h1, h2⟩
      · right
        refine ⟨k + 1, ?_, ?_, ?_⟩
        · rw [hfi, h1]
          push_cast
          ring
        · rw [hfl]
          simpa [follow] using h2
        · rw [hfl]
          exact h3

theorem null_deref_without_invariant :
    (⟨nullptr, 1⟩ : LinkedList Nat).operator_index 0 = .error .null_deref ∧
    (⟨node 1 nullptr, 2⟩ : LinkedList Nat).pop_back = .error .null_deref ∧
    (⟨node 1 nullptr, 3⟩ : LinkedList Nat).insert 2 9 = .error .null_deref ∧
    (⟨node 1 nullptr, 3⟩ : LinkedList Nat).erase 1 = .error .null_deref := by
  refine ⟨rfl, rfl, rfl, rfl⟩

end LinkedList

/-! The claims on the indexed write, on the position of an insertion, on the
two searches and on the node walks -/

namespace LinkedList

variable {α : Type}

open NodePtr

/-- C21: on a well-formed list and for `0 <= i < size()`, the assignment
`(*this)[i] = w` returns, makes the element at `i` equal to `w`, and leaves
`size()` and the element at every index `j != i` as they were. -/
theorem assign_at_spec (l : LinkedList α) (i : Int) (w : α) (hwf : l.WF)
    (h0 : 0 ≤ i) (h1 : i < l.size) :
    ∃ l' : LinkedList α, l.assign_at i w = .ok l' ∧ l'.WF ∧ l'.size = l.size ∧
      l'.toList = l.toList.set i.toNat w ∧
      l'.operator_index i = .ok w ∧
      (∀ j : Int, j ≠ i → l'.operator_index j = l.operator_index j) := by
  rw [eq_mk_of_of_WF l hwf] at h1 ⊢
  generalize l.toList = xs at h1 ⊢
  obtain ⟨k, rfl⟩ := Int.eq_ofNat_of_zero_le h0
  have hk : k < xs.length := by simpa using h1
  have hlen : (xs.set k w).length = xs.length := List.length_set _ _ _
  refine ⟨mk_of (xs.set k w), assign_at_mk_of xs k w hk, WF_mk_of _, ?_, by simp, ?_, ?_⟩
  · simp only [size_mk_of, hlen]
  · have h := operator_index_mk_of (xs.set k w) k (by omega)
    rw [h]
    congr 1
    simp
  · intro j hj
    by_cases hr : j < 0 ∨ j ≥ (xs.length : Int)
    · have ha : (mk_of (xs.set k w)).operator_index j = .error .out_of_range := by
        apply (operator_index_out_of_range_iff _ j).mpr
        simpa [hlen] using hr
      have hb : (mk_of xs).operator_index j = .error .out_of_range :=
        (operator_index_out_of_range_iff _ j).mpr (by simpa using hr)
      rw [ha, hb]
    · have hj0 : 0 ≤ j := by omega
      obtain ⟨m, rfl⟩ := Int.eq_ofNat_of_zero_le hj0
      have hmk : k ≠ m := by
        intro he
        apply hj
        rw [he]
      apply operator_index_congr
      · exact hj0
      · rw [hlen]
        omega
      · exact hj0
      · omega
      · simp only [Int.toNat_ofNat]
        exact List.getElem?_set_ne hmk

/-- C21, at the list `[5, 6, 7]`: `(*this)[1] = 9` gives `[5, 9, 7]` with
`size() == 3`. -/
theorem assign_at_spec_witness :
    ∃ l' : LinkedList Nat, (mk_of [5, 6, 7]).assign_at 1 9 = .ok l' ∧
      l'.toList = [5, 9, 7] ∧ l'.size = 3 ∧ l'.operator_index 1 = .ok 9 := by
  obtain ⟨l', h, _, hs, ht, hi, _⟩ :=
    assign_at_spec (mk_of [5, 6, 7]) 1 9 (WF_mk_of _) (by decide) (by decide)
  exact ⟨l', h, by simpa using ht, by simpa using hs, hi⟩

/-- C22, refuted as stated: on the list `[1, 3]` (`size() == 2`, index `1`),
`insert(1, 2)` gives `[1, 2, 3]`: the new element `2` is at position `1`, not at
position `2`, and the element `3` that was at position `1` is now at position
`2`; so no result of the call keeps the old element at position `1` with the
new one at position `2`. -/
theorem insert_interior_at_index :
    (mk_of [1, 3]).operator_index 1 = .ok 3 ∧
    (mk_of [1, 3]).insert 1 2 = .ok (mk_of [1, 2, 3]) ∧
    (mk_of [1, 2, 3]).operator_index 1 = .ok 2 ∧
    (mk_of [1, 2, 3]).operator_index 2 = .ok 3 ∧
    (mk_of [1, 2, 3]).operator_index 1 ≠ .ok 3 ∧
    (mk_of [1, 2, 3]).operator_index 2 ≠ .ok 2 ∧
    ¬ (∃ l' : LinkedList Nat, (mk_of [1, 3]).insert 1 2 = .ok l' ∧
        l'.operator_index 1 = (mk_of [1, 3]).operator_index 1 ∧
        l'.operator_index (1 + 1) = .ok 2) := by
  have h2 : (mk_of [1, 2, 3]).operator_index 1 = (.ok 2 : Except Exn Nat) := rfl
  have h3 : (mk_of [1, 2, 3]).operator_index 2 = (.ok 3 : Except Exn Nat) := rfl
  have hins : (mk_of [1, 3]).insert 1 2 = .ok (mk_of [1, 2, 3]) := rfl
  refine ⟨rfl, rfl, rfl, rfl, ?_, ?_, ?_⟩
  · intro h
    rw [h2] at h
    injection h with h'
    omega
  · intro h
    rw [h3] at h
    injection h with h'
    omega
  · rintro ⟨l', hl', _, hnew⟩
    rw [hins] at hl'
    injection hl' with hl'
    subst hl'
    have h3' : (mk_of [1, 2, 3]).operator_index (1 + 1) = (.ok 3 : Except Exn Nat) := rfl
    rw [h3'] at hnew
    injection hnew with h'
    omega

/-- C22, as amended: on a well-formed list and for `0 < index < size()`,
`insert(index, data)` returns and places the new element at the given
position: `data` is at position `index`, the element that was at position
`index` is at position `index + 1`, and the elements before `index` are where
they were. -/
theorem insert_interior_spec (l : LinkedList α) (index : Int) (v : α) (hwf : l.WF)
    (h0 : 0 < index) (h1 : index < l.size) :
    ∃ l' : LinkedList α, l.insert index v = .ok l' ∧
      l'.operator_index index = .ok v ∧
      (∃ x, l.operator_index index = .ok x ∧ l'.operator_index (index + 1) = .ok x) ∧
      (∀ j : Int, 0 ≤ j → j < index → l'.operator_index j = l.operator_index j) ∧
      l'.size = l.size + 1 := by
  rw [eq_mk_of_of_WF l hwf] at h1 ⊢
  generalize l.toList = xs at h1 ⊢
  obtain ⟨k, rfl⟩ := Int.eq_ofNat_of_zero_le (le_of_lt h0)
  have hk : k < xs.length := by simpa using h1
  have hlen : (xs.take k ++ v :: xs.drop k).length = xs.length + 1 := by
    simp; omega
  refine ⟨mk_of (xs.take k ++ v :: xs.drop k), insert_mk_of xs k v (le_of_lt hk), ?_, ?_,
    ?_, ?_⟩
  · have h := operator_index_mk_of (xs.take k ++ v :: xs.drop k) k (by omega)
    rw [h]
    congr 1
    simp [List.getElem_append_right, le_of_lt hk]
  · refine ⟨xs.get ⟨k, hk⟩, operator_index_mk_of xs k hk, ?_⟩
    rw [← operator_index_mk_of xs k hk]
    apply operator_index_congr
    · omega
    · rw [hlen]; omega
    · omega
    · omega
    · have ht : ((k : Int) + 1).toNat = k + 1 := by omega
      simp only [Int.toNat_ofNat, ht]
      rw [List.getElem?_append_right (by simp)]
      have hlt : (xs.take k).length = k := by simp; omega
      rw [hlt]
      have hd : k + 1 - k = 0 + 1 := by omega
      rw [hd, List.getElem?_cons_succ, List.getElem?_drop]
      simp
  · intro j hj0 hjk
    obtain ⟨m, rfl⟩ := Int.eq_ofNat_of_zero_le hj0
    have hm : m < k := by omega
    apply operator_index_congr
    · exact hj0
    · rw [hlen]; omega
    · exact hj0
    · omega
    · simp only [Int.toNat_ofNat]
      rw [List.getElem?_append_left (by simp; omega)]
      exact List.getElem?_take_of_lt hm
  · simp only [size_mk_of, hlen]
    push_cast
    rfl

/-- C22 as amended, at the list `[1, 3, 5]`: `insert(1, 2)` puts `2` at position
`1` and moves `3` to position `2`. -/
theorem insert_interior_spec_witness :
    ∃ l' : LinkedList Nat, (mk_of [1, 3, 5]).insert 1 2 = .ok l' ∧
      l'.operator_index 1 = .ok 2 ∧ l'.operator_index 2 = .ok 3 := by
  obtain ⟨l', h, hv, ⟨x, hx, hx'⟩, _, _⟩ :=
    insert_interior_spec (mk_of [1, 3, 5]) 1 2 (WF_mk_of _) (by decide) (by decide)
  have hx3 : (mk_of [1, 3, 5]).operator_index 1 = (.ok 3 : Except Exn Nat) := rfl
  rw [hx3] at hx
  injection hx with hx
  subst hx
  exact ⟨l', h, hv, hx'⟩

/-- C23: for an element type whose `!=` is the negation of its `==`, `find(v)`
and `find(v) const` equal `end()` (`cend()`) exactly when `find_index(v)` is
`-1`; otherwise `find_index(v)` is an index `k >= 0` and the cursor `find(v)`
returns is the one reached from `begin()` (`cbegin()`) by `k` increments. -/
theorem find_agrees_find_index [DecidableEq α] (eq ne : α → α → Bool) (l : LinkedList α)
    (v : α) (hne : ∀ a b, ne a b = !eq a b) :
    (∃ r, l.find_index ne v = .ok r) ∧
    ((l.find eq v).operator_eq l.end_ = true ↔ l.find_index ne v = .ok (-1)) ∧
    ((l.find_const eq v).operator_eq l.cend = true ↔ l.find_index ne v = .ok (-1)) ∧
    ((l.find eq v).operator_eq l.end_ = false →
      ∃ k : Nat, l.find_index ne v = .ok (k : Int) ∧
        l.begin.advance k = .ok (l.find eq v) ∧
        l.cbegin.advance k = .ok (l.find_const eq v)) := by
  have hc : (l.find_const eq v)._curr = (l.find eq v)._curr := by
    simp [find_const, find, cbegin, begin, find_const_loop_eq]
  cases l with
  | mk hd len =>
    cases hd with
    | nullptr =>
      refine ⟨⟨-1, rfl⟩, ?_, ?_, ?_⟩
      · simp [find, begin, find_loop, Iterator.operator_eq, end_, find_index, empty]
      · simp [find_const, cbegin, find_const_loop, ConstIterator.operator_eq, cend,
          find_index, empty]
      · intro h
        simp [find, begin, find_loop, Iterator.operator_eq, end_] at h
    | node d nx =>
      have hfi : find_index ne ⟨node d nx, len⟩ v = .ok (find_index_loop ne v d nx 0) := by
        simp [find_index, empty]
      have hfind : (find eq ⟨node d nx, len⟩ v)._curr
          = (find_loop eq v (node d nx))._curr := rfl
      rcases find_loop_find_index_loop eq ne hne v d nx 0 with ⟨h1, h2⟩ | ⟨k, h1, h2, h3⟩
      · refine ⟨⟨_, hfi⟩, ?_, ?_, ?_⟩
        · simp [Iterator.operator_eq, end_, hfind, h1, hfi, h2]
        · simp [ConstIterator.operator_eq, cend, hc, hfind, h1, hfi, h2]
        · intro h
          simp [Iterator.operator_eq, end_, hfind, h1] at h
      · have hk : find_index_loop ne v d nx 0 = (k : Int) := by
          rw [h1]
          simp
        have hneq : (Except.ok (k : Int) : Except Exn Int) ≠ .ok (-1) := by
          intro h
          injection h with h'
          omega
        refine ⟨⟨_, hfi⟩, ?_, ?_, ?_⟩
        · simp [Iterator.operator_eq, end_, hfind, h3, hfi, hk, hneq]
        · simp [ConstIterator.operator_eq, cend, hc, hfind, h3, hfi, hk, hneq]
        · intro _
          refine ⟨k, by rw [hfi, hk], ?_, ?_⟩
          · rw [iterator_advance_eq_follow]
            simp only [begin, h2, Except.map]
            congr 1
          · rw [const_iterator_advance_eq_follow]
            simp only [cbegin, h2, Except.map]
            congr 1
            cases hfc : find_const eq ⟨node d nx, len⟩ v with
            | mk p =>
              rw [hfc] at hc
              simp only at hc
              rw [hc, hfind]

/-- C23, at the list `[4, 7, 7]` with `==` and `!=` on `Nat`: `find(7)` is the
cursor `find_index(7)` increments after `begin()`, and for `5` both report
absence. -/
theorem find_agrees_find_index_witness :
    (∃ k : Nat, (mk_of [4, 7, 7]).find_index (fun a b => !decide (a = b)) 7 = .ok (k : Int) ∧
      (mk_of [4, 7, 7]).begin.advance k
        = .ok ((mk_of [4, 7, 7]).find (fun a b => decide (a = b)) 7)) ∧
    ((mk_of [4, 7, 7]).find (fun a b => decide (a = b)) 5).operator_eq
      (mk_of [4, 7, 7]).end_ = true := by
  have h7 := find_agrees_find_index (fun a b : Nat => decide (a = b))
    (fun a b : Nat => !decide (a = b)) (mk_of [4, 7, 7]) 7 (fun _ _ => rfl)
  have h5 := find_agrees_find_index (fun a b : Nat => decide (a = b))
    (fun a b : Nat => !decide (a = b)) (mk_of [4, 7, 7]) 5 (fun _ _ => rfl)
  obtain ⟨k, hk, hadv, _⟩ := h7.2.2.2 (by decide)
  exact ⟨⟨k, hk, hadv⟩, h5.2.1.mpr rfl⟩

end LinkedList

namespace LinkedList

variable {α : Type}

open NodePtr

theorem follow_ofList_node (xs : List α) (k : Nat) (h : k < xs.length) :
    follow (ofList xs) k = .ok (node (xs.get ⟨k, h⟩) (ofList (xs.drop (k + 1)))) := by
  rw [follow_ofList xs k (le_of_lt h), List.drop_eq_getElem_cons h]
  rfl

/-- C24: on a list satisfying the invariant no call dereferences `nullptr`:
`operator[]`, `insert`, `erase`, `pop_back` and `back` never end in the
null-dereference outcome, and in the accepted calls (`operator[]` with
`0 <= i < size()`, `insert` and `erase` with `0 < index < size()`, `pop_back` with
`size() >= 2`, `back` on a non-empty list) the walk reaches an existing node and
the call returns. -/
theorem no_null_deref_spec (l : LinkedList α) (hwf : l.WF) :
    (∀ i : Int, l.operator_index i ≠ .error .null_deref) ∧
    (∀ i : Int, 0 ≤ i → i < l.size →
      (∃ d nx, l._head.follow i.toNat = .ok (node d nx)) ∧
      ∃ x, l.operator_index i = .ok x) ∧
    (∀ (index : Int) (v : α), l.insert index v ≠ .error .null_deref) ∧
    (∀ (index : Int) (v : α), 0 < index → index < l.size →
      (∃ d nx, l._head.follow (index - 1).toNat = .ok (node d nx)) ∧
      ∃ l', l.insert index v = .ok l') ∧
    (∀ index : Int, l.erase index ≠ .error .null_deref) ∧
    (∀ index : Int, 0 < index → index < l.size →
      (∃ d nx, l._head.follow index.toNat = .ok (node d nx)) ∧
      ∃ l', l.erase index = .ok l') ∧
    l.pop_back ≠ .error .null_deref ∧
    (2 ≤ l.size →
      (∃ k, walkToSecondLast l._head 0 = .ok k) ∧ ∃ l', l.pop_back = .ok l') ∧
    l.back ≠ .error .null_deref ∧
    (l.empty = false →
      (∃ k d nx, l.lastNodePtr = some k ∧ l._head.follow k = .ok (node d nx)) ∧
      ∃ x, l.back = .ok x) := by
  rw [eq_mk_of_of_WF l hwf]
  generalize l.toList = xs
  have hhead : (mk_of xs)._head = ofList xs := rfl
  have hin : ∀ i : Int, 0 ≤ i → i < (mk_of xs).size → ∃ x, (mk_of xs).operator_index i = .ok x := by
    intro i h0 h1
    obtain ⟨x, _, hx⟩ := operator_index_mk_of_getElem? xs i h0 (by simpa using h1)
    exact ⟨x, hx⟩
  refine ⟨?_, ?_, ?_, ?_, ?_, ?_, ?_, ?_, ?_, ?_⟩
  · intro i h
    by_cases hr : i < 0 ∨ i ≥ (mk_of xs).size
    · rw [(operator_index_out_of_range_iff _ i).mpr hr] at h
      cases h
    · obtain ⟨x, hx⟩ := hin i (by omega) (by omega)
      rw [hx] at h
      cases h
  · intro i h0 h1
    obtain ⟨k, rfl⟩ := Int.eq_ofNat_of_zero_le h0
    have hk : k < xs.length := by simpa using h1
    refine ⟨?_, hin _ h0 h1⟩
    rw [hhead, Int.toNat_ofNat]
    exact ⟨_, _, follow_ofList_node xs k hk⟩
  · intro index v h
    rcases insert_mk_of_cases xs index v with ⟨ys, hys⟩ | hoor
    · rw [hys] at h
      cases h
    · rw [hoor] at h
      cases h
  · intro index v h0 h1
    obtain ⟨k, rfl⟩ := Int.eq_ofNat_of_zero_le (le_of_lt h0)
    have hk : k < xs.length := by simpa using h1
    refine ⟨?_, _, insert_mk_of xs k v (le_of_lt hk)⟩
    have hk1 : ((k : Int) - 1).toNat = k - 1 := by omega
    rw [hhead, hk1]
    exact ⟨_, _, follow_ofList_node xs (k - 1) (by omega)⟩
  · intro index h
    rcases erase_mk_of_cases xs index with ⟨ys, hys⟩ | hoor
    · rw [hys] at h
      cases h
    · rw [hoor] at h
      cases h
  · intro index h0 h1
    obtain ⟨k, rfl⟩ := Int.eq_ofNat_of_zero_le (le_of_lt h0)
    have hk : k < xs.length := by simpa using h1
    refine ⟨?_, _, erase_mk_of xs k hk⟩
    rw [hhead, Int.toNat_ofNat]
    exact ⟨_, _, follow_ofList_node xs k hk⟩
  · intro h
    rcases pop_back_mk_of_cases xs with ⟨ys, hys⟩ | hle
    · rw [hys] at h
      cases h
    · rw [hle] at h
      cases h
  · intro h2
    match xs, h2 with
    | [], h2 => simp at h2
    | [x], h2 => simp at h2
    | x :: y :: zs, _ =>
      refine ⟨?_, _, pop_back_mk_of (x :: y :: zs) (by simp)⟩
      have hh : (mk_of (x :: y :: zs))._head = ofList (x :: y :: zs) := rfl
      rw [hh]
      exact ⟨_, walkToSecondLast_ofList x y zs 0⟩
  · intro h
    cases xs with
    | nil =>
      have hb : (mk_of ([] : List α)).back = .error .logic_error := rfl
      rw [hb] at h
      cases h
    | cons x xs =>
      rw [back_mk_of (x :: xs) (by simp)] at h
      cases h
  · intro he
    cases xs with
    | nil =>
      rw [empty_mk_of_nil] at he
      cases he
    | cons x xs =>
      refine ⟨?_, _, back_mk_of (x :: xs) (by simp)⟩
      have hh : (mk_of (x :: xs))._head = ofList (x :: xs) := rfl
      rw [hh]
      exact ⟨xs.length, _, _, lastNodePtr_mk_of_cons x xs,
        follow_ofList_node (x :: xs) xs.length (by simp)⟩

/-- C24, at the list `[1, 2, 3]`: `[2]`, `insert(1, 9)`, `erase(2)`, `pop_back()`
and `back()` all return. -/
theorem no_null_deref_spec_witness :
    (∃ x, (mk_of [1, 2, 3]).operator_index 2 = .ok x) ∧
    (∃ l', (mk_of [1, 2, 3]).insert 1 9 = .ok l') ∧
    (∃ l', (mk_of [1, 2, 3]).erase 2 = .ok l') ∧
    (∃ l', (mk_of [1, 2, 3]).pop_back = .ok l') ∧
    (∃ x, (mk_of [1, 2, 3]).back = .ok x) := by
  have h := no_null_deref_spec (mk_of [1, 2, 3]) (WF_mk_of _)
  exact ⟨(h.2.1 2 (by decide) (by decide)).2, (h.2.2.2.1 1 9 (by decide) (by decide)).2,
    (h.2.2.2.2.2.1 2 (by decide) (by decide)).2, (h.2.2.2.2.2.2.2.1 (by decide)).2,
    (h.2.2.2.2.2.2.2.2.2 rfl).2⟩

end LinkedList
